import Mathlib

/-!
# InvoiceGatherer: the attachment pipeline of `main.go`

A shallow embedding of `downloadAttachments`, `extractArchive`, `invoiceDetails`
and the rename loop of `main`, together with the library functions they call
(`strings.HasSuffix`, `filepath.Join`, `filepath.Dir`, `fmt.Sprintf`,
`strconv.Itoa`, the built-in `append`), followed by the properties proved
about them.

Go strings are modelled as lists of characters, byte payloads as lists of
bytes.  The mail service, the base64 decoder, the ZIP reader and the failure
behaviour of the operating system are parameters (`Env`).
-/

namespace InvoiceGatherer

/-! ## Strings -/

/-- A Go `string`. -/
abbrev GoString := List Char

/-- A byte payload (`[]byte`). -/
abbrev Bytes := List UInt8

/-- The Go function `strings.HasSuffix(s, suffix)`:
`len(s) >= len(suffix) && s[len(s)-len(suffix):] == suffix`. -/
def hasSuffix (s suffix : GoString) : Bool :=
  decide (suffix.length ≤ s.length) && decide (s.drop (s.length - suffix.length) = suffix)

/-- The literal `".pdf"`. -/
def dotPdf : GoString := ['.', 'p', 'd', 'f']

/-- The literal `".zip"`. -/
def dotZip : GoString := ['.', 'z', 'i', 'p']

/-- The literal `"Invoices"`, the working directory. -/
def invoicesDir : GoString := "Invoices".toList

/-- The Go function `strconv.Itoa` on a non-negative `int`: the decimal numeral. -/
def itoa (n : Nat) : GoString := Nat.toDigits 10 n

/-- The Go function `strconv.Itoa` / the verb `%d` on an `int`. -/
def itoaInt : Int → GoString
  | Int.ofNat n => itoa n
  | Int.negSucc n => '-' :: itoa (n + 1)

/-! ## `path/filepath` on Unix -/

/-- Split a path at every separator `/`; the result is never empty. -/
def splitSep : GoString → List GoString
  | [] => [[]]
  | c :: cs =>
    if c = '/' then [] :: splitSep cs
    else
      match splitSep cs with
      | [] => [[c]]
      | x :: xs => (c :: x) :: xs

/-- Join path elements with the separator `/`. -/
def joinSep : List GoString → GoString
  | [] => []
  | [x] => x
  | x :: y :: xs => x ++ '/' :: joinSep (y :: xs)

/-- The literal `".."`. -/
def dotDot : GoString := ['.', '.']

/-- One step of the scan of `filepath.Clean` over a path element, `out` being the
elements written so far, last one first: an empty element and `.` are dropped;
`..` removes the element written last when there is one to backtrack over, is
appended when the path is not rooted and is dropped at the root; any other
element is appended. -/
def cleanStep (rooted : Bool) (out : List GoString) (elem : GoString) : List GoString :=
  if elem = [] ∨ elem = ['.'] then out
  else if elem = dotDot then
    match out with
    | top :: rest => if top = dotDot then dotDot :: out else rest
    | [] => if rooted then [] else [dotDot]
  else elem :: out

/-- The Go function `filepath.Clean` (Unix): the shortest path equivalent to `path`
by purely lexical processing; the empty result of a relative path is `.`. -/
def clean (path : GoString) : GoString :=
  let rooted := decide (path.head? = some '/')
  let out := ((splitSep path).foldl (cleanStep rooted) []).reverse
  if rooted then '/' :: joinSep out
  else if out = [] then ['.'] else joinSep out

/-- The Go function `filepath.Join(a, b)`: when `a` is not empty,
`Clean(a + "/" + b)`; empty leading elements are ignored. -/
def join (a b : GoString) : GoString :=
  if a ≠ [] then clean (a ++ '/' :: b)
  else if b ≠ [] then clean b
  else []

/-- The Go function `filepath.Dir` (Unix): `Clean` of the path up to and including
its last separator. -/
def dir (path : GoString) : GoString :=
  clean (path.reverse.dropWhile (fun c => decide (c ≠ '/'))).reverse

/-! ## `fmt.Sprintf` -/

/-- An operand of `fmt.Sprintf`: a string or an integer (`int`, `time.Month`). -/
inductive FmtArg where
  | str (s : GoString)
  | int (i : Int)

/-- The Go function `fmt.Sprintf` for the verbs the program uses: `%s` prints a
string operand verbatim, `%d` an integer operand as a decimal numeral (a
`time.Month` is printed as its number by `%d`), any other character is copied. -/
def sprintf : GoString → List FmtArg → GoString
  | [], _ => []
  | '%' :: 's' :: rest, FmtArg.str s :: args => s ++ sprintf rest args
  | '%' :: 'd' :: rest, FmtArg.int i :: args => itoaInt i ++ sprintf rest args
  | c :: rest, args => c :: sprintf rest args

/-- What the program reads off a `time.Time`: `Year()`, `Month()`, `Day()`. -/
structure Date where
  year : Int
  month : Nat
  day : Nat

/-- The search expression of `downloadAttachments` (line 274). -/
def searchQuery (label : GoString) (dateStr dateEnd : Date) : GoString :=
  sprintf "label:%s has:attachment after:%d/%d/%d before:%d/%d/%d".toList
    [FmtArg.str label, FmtArg.int dateStr.year, FmtArg.int dateStr.month, FmtArg.int dateStr.day,
     FmtArg.int dateEnd.year, FmtArg.int dateEnd.month, FmtArg.int dateEnd.day]

/-! ## Slices and the built-in `append` -/

/-- A Go slice header: the backing array (its address in the heap), the length
and the capacity. -/
structure Slice where
  ptr : Nat
  len : Nat
  cap : Nat
deriving DecidableEq, Repr

/-- The backing arrays allocated so far; an array's address is its index. -/
abbrev Heap := List (List GoString)

/-- The elements a slice denotes: the first `len` cells of its backing array. -/
def Slice.view (h : Heap) (s : Slice) : List GoString :=
  (h.getD s.ptr []).take s.len

/-- The built-in `append(s, x)`.  With spare capacity the element is stored in the
backing array of `s`, in the cell after its last element, and the result shares
that array.  Otherwise a new array is allocated whose capacity the runtime picks
(`growslice`, never less than the new length), the elements are copied, the
remaining cells hold the zero value `""`. -/
def goAppend (growslice : Nat → Nat → Nat) (h : Heap) (s : Slice) (x : GoString) :
    Heap × Slice :=
  if s.len < s.cap then
    (h.set s.ptr ((h.getD s.ptr []).set s.len x), { s with len := s.len + 1 })
  else
    let newcap := max (s.len + 1) (growslice s.cap (s.len + 1))
    (h ++ [s.view h ++ x :: List.replicate (newcap - (s.len + 1)) []],
     { ptr := h.length, len := s.len + 1, cap := newcap })

/-- A slice is well formed in a heap: its array is allocated and has room for its
capacity, which bounds its length. -/
def Slice.WF (h : Heap) (s : Slice) : Prop :=
  s.ptr < h.length ∧ s.len ≤ s.cap ∧ s.cap ≤ (h.getD s.ptr []).length

/-- The capacity the Go runtime picks when a slice grows (`nextslicecap`), before
rounding up to an allocation size class: double below 256 elements. -/
def nextslicecap (oldCap newLen : Nat) : Nat :=
  if newLen > oldCap + oldCap then newLen
  else if oldCap < 256 then oldCap + oldCap
  else oldCap + (oldCap + 768) / 4

/-! ## The file system -/

/-- The files of the file system: path and content.  Directories are not
modelled; the program creates none. -/
abbrev FS := List (GoString × Bytes)

/-- The content of the file at `path`, if there is one. -/
def FS.read (fs : FS) (path : GoString) : Option Bytes :=
  (fs.find? (fun e => decide (e.1 = path))).map Prod.snd

/-- Remove the file at `path`. -/
def FS.remove (fs : FS) (path : GoString) : FS :=
  fs.filter (fun e => decide (e.1 ≠ path))

/-- Create or replace the file at `path` with `data`. -/
def FS.write (fs : FS) (path : GoString) (data : Bytes) : FS :=
  fs.remove path ++ [(path, data)]

/-- The paths of the files. -/
def FS.paths (fs : FS) : List GoString := fs.map Prod.fst

/-- The pattern `Invoices/*.pdf` of `filepath.Match`: `*` matches any sequence of
characters other than the separator. -/
def matchInvoicesPdf (path : GoString) : Bool :=
  match splitSep path with
  | [d, name] => decide (d = invoicesDir) && hasSuffix name dotPdf
  | _ => false

/-- The Go call `filepath.Glob("Invoices/*.pdf")`. -/
def glob (fs : FS) : List GoString := fs.paths.filter matchInvoicesPdf

/-! ## The environment -/

/-- A `gmail.MessagePart`: `Filename` and `Body.AttachmentId` (`none`: `Body` is nil). -/
structure MessagePart where
  filename : GoString
  body : Option GoString

/-- A `gmail.Message`: `Payload.Parts` (`none`: `Payload` is nil). -/
structure Message where
  payload : Option (List MessagePart)

/-- A `zip.File` of an opened archive: its name, whether `Open` succeeds, the bytes
its reader yields, and whether the reader ends without error (`io.Copy` succeeds). -/
structure ZipFile where
  name : GoString
  openOk : Bool
  content : Bytes
  copyOk : Bool
deriving DecidableEq

/-- What the program does not decide itself: the mail service, the decoder, the
ZIP reader, the success of file operations and the growth policy of slices.
A service call answering `none` returned an error (and a nil result). -/
structure Env where
  messagesList : GoString → Option (List GoString)
  messagesGet : GoString → Option Message
  attachmentsGet : GoString → GoString → Option GoString
  decodeString : GoString → Option Bytes
  writeFileOk : GoString → Bool
  zipReader : Bytes → Option (List ZipFile)
  createOk : GoString → Bool
  removeOk : GoString → Bool
  renameOk : GoString → GoString → Bool
  growslice : Nat → Nat → Nat

/-- How a run ends other than by returning. -/
inductive Fault where
  | fatal
  | nilDereference
deriving DecidableEq, Repr

/-- The observable actions, in the order they happen. -/
inductive Event where
  | list (query : GoString)
  | get (msgId : GoString)
  | attachment (msgId attachmentId : GoString)
  | writeFile (path : GoString) (data : Bytes)
  | openReader (path : GoString)
  | create (path : GoString)
  | remove (path : GoString)
  | rename (src dst : GoString)
deriving DecidableEq, Repr

/-! ## `downloadAttachments` -/

/-- The variables of `downloadAttachments` while it runs: the two result slices
and the heap they live in, the file system, and the actions so far. -/
structure DlState where
  heap : Heap
  pdfFiles : Slice
  zipFiles : Slice
  fs : FS
  trace : List Event

/-- The test of line 290: the part is passed over when its filename is empty or
ends in neither `.pdf` nor `.zip`. -/
def skipped (filename : GoString) : Bool :=
  decide (filename = []) ||
    (hasSuffix filename dotPdf == false && hasSuffix filename dotZip == false)

/-- Lines 317 to 323: the filename is appended to `pdfFiles` when it ends in `.pdf`;
when it ends in `.zip`, `zipFiles` becomes `append(pdfFiles, filename)`. -/
def record (env : Env) (st : DlState) (filename : GoString) : DlState :=
  let st1 :=
    if hasSuffix filename dotPdf then
      let r := goAppend env.growslice st.heap st.pdfFiles filename
      { st with heap := r.1, pdfFiles := r.2 }
    else st
  if hasSuffix filename dotZip then
    let r := goAppend env.growslice st1.heap st1.pdfFiles filename
    { st1 with heap := r.1, zipFiles := r.2 }
  else st1

/-- The body of the loop over the parts of a message (lines 288 to 324).  Each of the
three errors is logged and ends the round (`continue`); a write that fails is taken
to leave the file system as it was. -/
def processPart (env : Env) (msgId : GoString) (st : DlState) (part : MessagePart) :
    Except Fault DlState :=
  if skipped part.filename then Except.ok st
  else
    match part.body with
    | none => Except.error Fault.nilDereference
    | some attachmentId =>
      let st1 := { st with trace := st.trace ++ [Event.attachment msgId attachmentId] }
      match env.attachmentsGet msgId attachmentId with
      | none => Except.ok st1
      | some encoded =>
        match env.decodeString encoded with
        | none => Except.ok st1
        | some data =>
          let dest := join invoicesDir part.filename
          let st2 := { st1 with trace := st1.trace ++ [Event.writeFile dest data] }
          if env.writeFileOk dest then
            Except.ok (record env { st2 with fs := st2.fs.write dest data } part.filename)
          else Except.ok st2

/-- The loop over the parts of a message. -/
def processParts (env : Env) (msgId : GoString) :
    DlState → List MessagePart → Except Fault DlState
  | st, [] => Except.ok st
  | st, part :: rest =>
    match processPart env msgId st part with
    | Except.error e => Except.error e
    | Except.ok st1 => processParts env msgId st1 rest

/-- The body of the loop over the messages (lines 280 to 325).  A failed fetch is
logged and the loop body goes on to read `message.Payload.Parts` of the nil
message. -/
def processMessage (env : Env) (st : DlState) (msgId : GoString) : Except Fault DlState :=
  let st1 := { st with trace := st.trace ++ [Event.get msgId] }
  match env.messagesGet msgId with
  | none => Except.error Fault.nilDereference
  | some message =>
    match message.payload with
    | none => Except.error Fault.nilDereference
    | some parts => processParts env msgId st1 parts

/-- The loop over the messages. -/
def processMessages (env : Env) : DlState → List GoString → Except Fault DlState
  | st, [] => Except.ok st
  | st, msgId :: rest =>
    match processMessage env st msgId with
    | Except.error e => Except.error e
    | Except.ok st1 => processMessages env st1 rest

/-- What `downloadAttachments` returns and leaves behind. -/
structure DlResult where
  pdfFiles : List GoString
  zipFiles : List GoString
  fs : FS
  trace : List Event
deriving DecidableEq, Repr

/-- The state at line 269: two empty slices made by `make([]string, 0)`. -/
def initState (fs : FS) : DlState :=
  { heap := [[], []], pdfFiles := ⟨0, 0, 0⟩, zipFiles := ⟨1, 0, 0⟩, fs := fs, trace := [] }

/-- The values of the two slices and the effects, at the return of line 326. -/
def DlState.result (st : DlState) : DlResult :=
  { pdfFiles := st.pdfFiles.view st.heap, zipFiles := st.zipFiles.view st.heap,
    fs := st.fs, trace := st.trace }

/-- The function `downloadAttachments` (lines 265 to 327). -/
def downloadAttachments (env : Env) (fs : FS) (label : GoString) (dateStr dateEnd : Date) :
    Except Fault DlResult :=
  let query := searchQuery label dateStr dateEnd
  let st := { initState fs with trace := [Event.list query] }
  match env.messagesList query with
  | none => Except.error Fault.fatal
  | some messages =>
    match processMessages env st messages with
    | Except.error e => Except.error e
    | Except.ok st1 => Except.ok st1.result

/-! ## `extractArchive` -/

/-- The variables of `extractArchive` while it runs. -/
structure ExState where
  pdfFiles : List GoString
  fs : FS
  trace : List Event
deriving DecidableEq, Repr

/-- The body of the loop over the files of an archive (lines 350 to 381); `zipFile` is
the path of the archive and `archive` the bytes it was opened with.  The reader of an
entry reads the archive from the disk, when the entry is opened (`file.Open`) and while
it is copied (`io.Copy`): both are taken to fail once the file at `zipFile` no longer
holds those bytes (an entry was written over the archive).  `os.Create` makes or
truncates the destination, `io.Copy` writes the bytes the entry yields; each of the
three errors is logged and ends the round. -/
def extractFile (env : Env) (zipFile : GoString) (archive : Bytes) (st : ExState)
    (file : ZipFile) : ExState :=
  if hasSuffix file.name dotPdf then
    if file.openOk && decide (st.fs.read zipFile = some archive) then
      let dest := join (dir zipFile) file.name
      let st1 := { st with trace := st.trace ++ [Event.create dest] }
      if env.createOk dest then
        let st2 := { st1 with fs := st1.fs.write dest [] }
        if st2.fs.read zipFile = some archive then
          let st3 := { st2 with fs := st2.fs.write dest file.content }
          if file.copyOk then { st3 with pdfFiles := st3.pdfFiles ++ [file.name] }
          else st3
        else st2
      else st1
    else st
  else st

/-- The body of the loop over the ZIP files (lines 335 to 387): the archive is opened
(the file exists and the ZIP reader accepts its bytes), its files are gone through,
and it is removed; a failed removal is logged. -/
def extractOne (env : Env) (st : ExState) (name : GoString) : ExState :=
  let zipFile := join invoicesDir name
  let st1 := { st with trace := st.trace ++ [Event.openReader zipFile] }
  match st1.fs.read zipFile with
  | none => st1
  | some archive =>
    match env.zipReader archive with
    | none => st1
    | some files =>
      let st2 := files.foldl (extractFile env zipFile archive) st1
      let st3 := { st2 with trace := st2.trace ++ [Event.remove zipFile] }
      if env.removeOk zipFile then { st3 with fs := st3.fs.remove zipFile } else st3

/-- The function `extractArchive` (lines 330 to 390). -/
def extractArchive (env : Env) (fs : FS) (zipFiles : List GoString) : ExState :=
  zipFiles.foldl (extractOne env) { pdfFiles := [], fs := fs, trace := [] }

/-! ## The rename loop of `main` -/

/-- The function `invoiceDetails` (lines 393 to 398). -/
def invoiceDetails (_path : GoString) : GoString :=
  let companyName := ['?']
  let invoiceDate := ['?']
  let invoiceNo := ['?']
  companyName ++ " ".toList ++ invoiceDate ++ " ".toList ++ invoiceNo

/-- The name a file is renamed to: `fmt.Sprintf("%s %s.pdf", strconv.Itoa(count),
invoiceDetails(pdfFile))`. -/
def newName (count : Nat) (pdfFile : GoString) : GoString :=
  sprintf "%s %s.pdf".toList [FmtArg.str (itoa count), FmtArg.str (invoiceDetails pdfFile)]

/-- The Go call `os.Rename(src, dst)`: it fails when `src` does not exist or the
system refuses; otherwise the file moves to `dst`, replacing a file there. -/
def osRename (env : Env) (fs : FS) (src dst : GoString) : Option FS :=
  match fs.read src with
  | none => none
  | some data =>
    if env.renameOk src dst then
      some (if src = dst then fs else (fs.remove src).write dst data)
    else none

/-- The variables of the rename loop.  The counter is a Go `int`; it starts at the
number of files of a directory and grows by one for each filename of a list in memory,
far from the 64-bit bound, so it is modelled as a natural number. -/
structure RnState where
  fs : FS
  count : Nat
  trace : List Event
deriving DecidableEq, Repr

/-- The body of the rename loop (lines 115 and 116): the error of `os.Rename` is
dropped and the counter goes up in any case. -/
def renameStep (env : Env) (st : RnState) (pdfFile : GoString) : RnState :=
  let src := join invoicesDir pdfFile
  let dst := join invoicesDir (newName st.count pdfFile)
  { fs := (osRename env st.fs src dst).getD st.fs,
    count := st.count + 1,
    trace := st.trace ++ [Event.rename src dst] }

/-- The rename loop (lines 114 to 117). -/
def renameLoop (env : Env) (fs : FS) (pdfFiles : List GoString) (count : Nat) : RnState :=
  pdfFiles.foldl (renameStep env) { fs := fs, count := count, trace := [] }

/-- What a run of the pipeline leaves behind. -/
structure RunResult where
  fs : FS
  trace : List Event
deriving DecidableEq, Repr

/-- The background task of `main` (lines 94 to 117): count the PDFs, download,
extract, rename. -/
def pipeline (env : Env) (fs : FS) (label : GoString) (dateStr dateEnd : Date) :
    Except Fault RunResult :=
  let count := (glob fs).length
  match downloadAttachments env fs label dateStr dateEnd with
  | Except.error e => Except.error e
  | Except.ok dl =>
    let ex := extractArchive env dl.fs dl.zipFiles
    let pdfFiles := dl.pdfFiles ++ ex.pdfFiles
    let rn := renameLoop env ex.fs pdfFiles count
    Except.ok { fs := rn.fs, trace := dl.trace ++ ex.trace ++ rn.trace }

/-! ## Notions used by the properties -/

/-- The environment in which fetching the message `msgId` answers the parts `parts`. -/
def Env.withParts (env : Env) (msgId : GoString) (parts : List MessagePart) : Env :=
  { env with
    messagesGet := fun i => if i = msgId then some { payload := some parts } else env.messagesGet i }

/-- The part runs into one of the three logged errors of lines 296 to 316: the
fetch, the decoding or the write of its attachment fails. -/
def failsToSave (env : Env) (msgId : GoString) (part : MessagePart) : Bool :=
  match part.body with
  | none => false
  | some attachmentId =>
    match env.attachmentsGet msgId attachmentId with
    | none => true
    | some encoded =>
      match env.decodeString encoded with
      | none => true
      | some _ => !env.writeFileOk (join invoicesDir part.filename)

/-- The two result lists of an outcome of `downloadAttachments`. -/
def lists (r : Except Fault DlResult) : Except Fault (List GoString × List GoString) :=
  match r with
  | Except.error e => Except.error e
  | Except.ok res => Except.ok (res.pdfFiles, res.zipFiles)

/-- The invariant of `downloadAttachments`: both slices are well formed and hold
only filenames that passed the test of line 290. -/
def DlState.Inv (st : DlState) : Prop :=
  st.pdfFiles.WF st.heap ∧ st.zipFiles.WF st.heap ∧
    (∀ y ∈ st.pdfFiles.view st.heap, skipped y = false) ∧
    (∀ y ∈ st.zipFiles.view st.heap, skipped y = false)

/-- Two states that differ at most in the recorded actions. -/
def DlState.Sim (a b : DlState) : Prop :=
  a.heap = b.heap ∧ a.pdfFiles = b.pdfFiles ∧ a.zipFiles = b.zipFiles ∧ a.fs = b.fs

/-- Two outcomes that differ at most in the recorded actions. -/
def SimR : Except Fault DlState → Except Fault DlState → Prop
  | Except.ok a, Except.ok b => a.Sim b
  | Except.error e, Except.error f => e = f
  | _, _ => False

/-! ## Sample environments -/

/-- The part named `f`, its attachment identifier being the name itself. -/
def samplePart (f : String) : MessagePart := { filename := f.toList, body := some f.toList }

/-- A sample service: the listing answers `ids`; the message `i` has the parts named
`parts i` or cannot be fetched; the attachment of a part is its name in bytes unless
the name is in `failing`; every file operation succeeds; slices grow as in the Go
runtime. -/
def sampleEnv (ids : List String) (parts : String → Option (List String))
    (failing : List String) : Env :=
  { messagesList := fun _ => some (ids.map String.toList)
    messagesGet := fun i =>
      (parts (String.mk i)).map (fun fs => { payload := some (fs.map samplePart) })
    attachmentsGet := fun _ a => if String.mk a ∈ failing then none else some a
    decodeString := fun e => some (e.map (fun c => UInt8.ofNat c.toNat))
    writeFileOk := fun _ => true
    zipReader := fun _ => none
    createOk := fun _ => true
    removeOk := fun _ => true
    renameOk := fun _ _ => true
    growslice := nextslicecap }

/-- A sample date. -/
def sampleDate : Date := { year := 2024, month := 3, day := 9 }

/-- The path `Invoices/<k> ? ? ?.pdf`, `<k>` the decimal numeral of `k`. -/
def numbered (k : Nat) : GoString :=
  "Invoices/".toList ++ itoa k ++ " ? ? ?.pdf".toList

/-- A plain file name: no separator, not empty, neither `.` nor `..`. -/
def plainName (f : GoString) : Prop :=
  '/' ∉ f ∧ f ≠ [] ∧ f ≠ ['.'] ∧ f ≠ dotDot

/-- The value of a decimal digit. -/
def digitVal (c : Char) : Nat := c.toNat - 48

/-- The number a decimal numeral denotes. -/
def atoi (s : GoString) : Nat := s.foldl (fun v c => 10 * v + digitVal c) 0

/-- The path is the working directory `Invoices` or lies below it. -/
def insideInvoices (path : GoString) : Bool :=
  decide (path = invoicesDir) || "Invoices/".toList.isPrefixOf path

/-- The path an attachment is written to (line 309). -/
def attachmentDest (filename : GoString) : GoString := join invoicesDir filename

/-- The path an archive entry is written to (lines 338 and 363), `zipName` being the
name of the archive in the input list. -/
def entryDest (zipName entryName : GoString) : GoString :=
  join (dir (join invoicesDir zipName)) entryName

/-! ## Notions used by the properties of `extractArchive` -/

/-- The entries of an archive whose name ends in `.pdf`. -/
def pdfEntries (files : List ZipFile) : List ZipFile :=
  files.filter (fun f => hasSuffix f.name dotPdf)

/-- What opening the archive named `z` yields in the file system `fs` (line 341). -/
def archiveFiles (env : Env) (fs : FS) (z : GoString) : Option (List ZipFile) :=
  (fs.read (join invoicesDir z)).bind env.zipReader

/-- The `.pdf` entries of the archive named `z`; none when it does not open. -/
def archivePdfs (env : Env) (fs : FS) (z : GoString) : List ZipFile :=
  pdfEntries ((archiveFiles env fs z).getD [])

/-- The names `extractArchive` is to return for the archives `zs` in the file system
`fs`: the names of the `.pdf` entries, archives in list order and entries in archive
order; an archive is gone once it was gone through, so a later listing of the same
file adds nothing. -/
def extractedNames (env : Env) : FS → List GoString → List GoString
  | _, [] => []
  | fs, z :: rest =>
    (archivePdfs env fs z).map (fun f => f.name) ++
      extractedNames env (fs.remove (join invoicesDir z)) rest

/-- No `.pdf` entry of a listed archive is written over a listed archive: where the
destination of an entry is a listed file, that file is no archive and the bytes of
the entry are none either. -/
def DestNotArchive (env : Env) (fs : FS) (zs : List GoString) : Prop :=
  ∀ z ∈ zs, ∀ f ∈ archivePdfs env fs z, ∀ y ∈ zs, entryDest z f.name = join invoicesDir y →
    archiveFiles env fs y = none ∧ env.zipReader f.content = none

/-- Every `.pdf` entry of the listed archives is opened, created and copied without
error. -/
def EntriesOk (env : Env) (fs : FS) (zs : List GoString) : Prop :=
  ∀ z ∈ zs, ∀ f ∈ archivePdfs env fs z,
    f.openOk = true ∧ f.copyOk = true ∧ env.createOk (entryDest z f.name) = true

/-- The `.pdf` entries of the listed archives that are written to `dest` are opened,
created and copied without error and all hold the bytes `content`. -/
def AgreeAt (env : Env) (fs : FS) (zs : List GoString) (dest : GoString) (content : Bytes) :
    Prop :=
  ∀ z ∈ zs, ∀ f ∈ archivePdfs env fs z, entryDest z f.name = dest →
    f.openOk = true ∧ f.copyOk = true ∧ env.createOk dest = true ∧ f.content = content

/-- An extraction without interference: no entry is written over a listed archive;
every `.pdf` entry is opened, created and copied without error; no destination holds a
file beforehand; and the archives that open can be removed. -/
structure CleanExtraction (env : Env) (fs : FS) (zs : List GoString) : Prop where
  destNotArchive : DestNotArchive env fs zs
  entriesOk : EntriesOk env fs zs
  destsFresh : ∀ z ∈ zs, ∀ f ∈ archivePdfs env fs z, fs.read (entryDest z f.name) = none
  removable : ∀ z ∈ zs, archiveFiles env fs z ≠ none →
    env.removeOk (join invoicesDir z) = true

/-- The environment whose ZIP reader leaves out the entries not ending in `.pdf`. -/
def Env.pdfOnly (env : Env) : Env :=
  { env with zipReader := fun b => (env.zipReader b).map pdfEntries }

/-- A sample environment for `extractArchive`: a file whose bytes are listed in
`archives` is an archive with the files given there, any other file is not a ZIP
file; archives can be removed when `removable` is set; creating files succeeds. -/
def sampleZipEnv (archives : List (Bytes × List ZipFile)) (removable : Bool) : Env :=
  { sampleEnv [] (fun _ => none) [] with
    zipReader := fun b => (archives.find? (fun a => decide (a.1 = b))).map Prod.snd
    removeOk := fun _ => removable }

/-- A sample archive entry that opens and copies without error. -/
def sampleEntry (name : String) (content : Bytes) : ZipFile :=
  { name := name.toList, openOk := true, content := content, copyOk := true }

/-- A sample archive holding one `.pdf` entry and one `.txt` entry. -/
def sampleArchiveX : Bytes × List ZipFile :=
  ([1], [sampleEntry "a.pdf" [10], sampleEntry "n.txt" [30]])

/-- A sample archive holding two `.pdf` entries. -/
def sampleArchiveY : Bytes × List ZipFile :=
  ([2], [sampleEntry "b.pdf" [40], sampleEntry "c.pdf" [50]])

/-- A sample working directory: an earlier PDF and the archives `x.zip` and `y.zip`. -/
def sampleDir : FS :=
  [("Invoices/old.pdf".toList, [7]), ("Invoices/x.zip".toList, [1]),
   ("Invoices/y.zip".toList, [2])]

/-- A sample working directory after a download: the attachment `a.pdf` and the
archives `x.zip` and `y.zip`. -/
def sampleInbox : FS :=
  [("Invoices/a.pdf".toList, [7]), ("Invoices/x.zip".toList, [1]),
   ("Invoices/y.zip".toList, [2])]

/-! ## Notions used by the properties of repeated runs -/

/-- The directory holds each path once, and its files matching `Invoices/*.pdf` are
exactly `Invoices/0 ? ? ?.pdf`, ..., `Invoices/<n-1> ? ? ?.pdf`. -/
def Numbered (fs : FS) (n : Nat) : Prop :=
  fs.paths.Nodup ∧
    ∀ p, matchInvoicesPdf p = true → (p ∈ fs.paths ↔ ∃ i, i < n ∧ p = numbered i)

/-- The download and the extraction of a run took the directory from `before` to
`after` and acquired `pdfFiles` without interference: the PDFs of the directory are
the earlier ones and the acquired ones; the acquired files are different files
directly in `Invoices/` with names ending in `.pdf`, none of the form
`<k> ? ? ?.pdf`; and the system refuses no rename of them. -/
structure FreshAcquisition (env : Env) (before after : FS) (pdfFiles : List GoString) :
    Prop where
  pathsNodup : after.paths.Nodup
  pdfs : ∀ p, matchInvoicesPdf p = true →
    (p ∈ after.paths ↔ p ∈ before.paths ∨ p ∈ pdfFiles.map (join invoicesDir))
  distinct : (pdfFiles.map (join invoicesDir)).Nodup
  plainPdf : ∀ f ∈ pdfFiles, matchInvoicesPdf (join invoicesDir f) = true
  notNumbered : ∀ f ∈ pdfFiles, ∀ k, join invoicesDir f ≠ numbered k
  renames : ∀ f ∈ pdfFiles, ∀ k, env.renameOk (join invoicesDir f) (numbered k) = true

/-- A run as its rename loop sees it: the directory after the download and the
extraction, and the acquired PDF filenames. -/
structure Run where
  acquired : FS
  pdfFiles : List GoString

/-- The rename loop of a run that found the directory `before` when it counted the
PDFs (lines 95 to 99 and 114 to 117). -/
def Run.rename (env : Env) (before : FS) (r : Run) : RnState :=
  renameLoop env r.acquired r.pdfFiles (glob before).length

/-- Every run of the sequence acquires its files without interference. -/
def FreshRuns (env : Env) : FS → List Run → Prop
  | _, [] => True
  | before, r :: rest =>
    FreshAcquisition env before r.acquired r.pdfFiles ∧
      FreshRuns env (r.rename env before).fs rest

/-- No rename of a run of the sequence targets a path that held a file when the run
started. -/
def NoCollision (env : Env) : FS → List Run → Prop
  | _, [] => True
  | before, r :: rest =>
    (∀ src dst, Event.rename src dst ∈ (r.rename env before).trace → dst ∉ before.paths) ∧
      NoCollision env (r.rename env before).fs rest

/-- A sample first run: `a.pdf` and `b.pdf` were acquired into an empty directory. -/
def sampleRun1 : Run :=
  { acquired := [("Invoices/a.pdf".toList, [1]), ("Invoices/b.pdf".toList, [2])]
    pdfFiles := ["a.pdf".toList, "b.pdf".toList] }

/-- A sample second run: `c.pdf` was acquired next to the files the first run named. -/
def sampleRun2 : Run :=
  { acquired := [("Invoices/0 ? ? ?.pdf".toList, [1]), ("Invoices/1 ? ? ?.pdf".toList, [2]),
                 ("Invoices/c.pdf".toList, [3])]
    pdfFiles := ["c.pdf".toList] }

/-- A sample environment with two listed messages: `m` holds `sub/x.pdf` and
`sub/a.zip`, `n` cannot be fetched; a file with the byte `1` is an archive holding
`d/e.pdf` and `n.txt`. -/
def sampleMixedEnv : Env :=
  { sampleEnv ["m", "n"] (fun i => if i = "m" then some ["sub/x.pdf", "sub/a.zip"] else none)
      [] with
    zipReader := fun b =>
      if b = [1] then some [sampleEntry "d/e.pdf" [9], sampleEntry "n.txt" [8]] else none }

/-! ## `downloadAttachments`, with the state reached when it faults -/

/-- The loop over the parts of a message as `processParts`, keeping the state reached
when a round faults (a round faults on the nil `Body`, before any action of its
own). -/
def partsUntilFault (env : Env) (msgId : GoString) :
    DlState → List MessagePart → DlState × Option Fault
  | st, [] => (st, none)
  | st, part :: rest =>
    match processPart env msgId st part with
    | Except.error e => (st, some e)
    | Except.ok st1 => partsUntilFault env msgId st1 rest

/-- The loop over the messages as `processMessages`, keeping the state reached when
the run faults (after the fetch of a message that failed or has no payload). -/
def messagesUntilFault (env : Env) : DlState → List GoString → DlState × Option Fault
  | st, [] => (st, none)
  | st, msgId :: rest =>
    let st1 := { st with trace := st.trace ++ [Event.get msgId] }
    match env.messagesGet msgId with
    | none => (st1, some Fault.nilDereference)
    | some message =>
      match message.payload with
      | none => (st1, some Fault.nilDereference)
      | some parts =>
        match partsUntilFault env msgId st1 parts with
        | (st2, some e) => (st2, some e)
        | (st2, none) => messagesUntilFault env st2 rest

/-- The run of `downloadAttachments` with the state it reaches: at its return, or at
the fault that ends it. -/
def downloadUntilFault (env : Env) (fs : FS) (label : GoString) (dateStr dateEnd : Date) :
    DlState × Option Fault :=
  let query := searchQuery label dateStr dateEnd
  let st := { initState fs with trace := [Event.list query] }
  match env.messagesList query with
  | none => (st, some Fault.fatal)
  | some messages => messagesUntilFault env st messages

/-- The outcome of a run given with its last state: the state when it returned, the
fault when it faulted. -/
def outcome (r : DlState × Option Fault) : Except Fault DlState :=
  match r.2 with
  | none => Except.ok r.1
  | some e => Except.error e

/-! ## Numerals, as the specification words them -/

/-- The string `s` is the unpadded decimal numeral of `n`: it is not empty, consists
of the digits `0` to `9`, denotes `n` in base ten, and starts with `0` only when it is
`0` itself. -/
def IsNumeral (s : GoString) (n : Nat) : Prop :=
  s ≠ [] ∧ (∀ c ∈ s, c.isDigit = true) ∧ atoi s = n ∧ (s.head? = some '0' → s = ['0'])

/-- The string `s` is the unpadded decimal numeral of the integer `i`: the numeral of
`i` when `i` is not negative, a minus sign and the numeral of `-i` otherwise. -/
def IsIntNumeral (s : GoString) : Int → Prop
  | Int.ofNat n => IsNumeral s n
  | Int.negSucc n => ∃ t, s = '-' :: t ∧ IsNumeral t (n + 1)

/-- The environment with another listing call. -/
def Env.withListing (env : Env) (listing : GoString → Option (List GoString)) : Env :=
  { env with messagesList := listing }

/-- The elements of a path that `filepath.Clean` keeps when the path has no `..`
element: those that are neither empty nor `.`. -/
def properElems (path : GoString) : List GoString :=
  (splitSep path).filter (fun e => decide (e ≠ []) && decide (e ≠ ['.']))

/-- The two result slices are well formed and hold only filenames with the property
`Q`. -/
def DlState.Views (Q : GoString → Prop) (st : DlState) : Prop :=
  st.pdfFiles.WF st.heap ∧ st.zipFiles.WF st.heap ∧
    (∀ y ∈ st.pdfFiles.view st.heap, Q y) ∧ (∀ y ∈ st.zipFiles.view st.heap, Q y)

/-! ## Properties -/

/-! ### Lists, heaps and `append` -/

theorem mem_take_set_succ {α : Type} (l : List α) (n : Nat) (x y : α)
    (h : y ∈ (l.set n x).take (n + 1)) : y = x ∨ y ∈ l.take n := by
  induction l generalizing n with
  | nil => simp at h
  | cons a l ih =>
    cases n with
    | zero => simp at h; exact Or.inl h
    | succ n =>
      simp only [List.set_cons_succ, List.take_succ_cons, List.mem_cons] at h ⊢
      rcases h with h | h
      · exact Or.inr (Or.inl h)
      · rcases ih n h with h | h
        · exact Or.inl h
        · exact Or.inr (Or.inr h)

theorem mem_take_set {α : Type} (l : List α) (n k : Nat) (x y : α)
    (h : y ∈ (l.set n x).take k) : y = x ∨ y ∈ l.take k := by
  induction l generalizing n k with
  | nil => simp at h
  | cons a l ih =>
    cases k with
    | zero => simp at h
    | succ k =>
      cases n with
      | zero =>
        simp only [List.set_cons_zero, List.take_succ_cons, List.mem_cons] at h ⊢
        rcases h with h | h
        · exact Or.inl h
        · exact Or.inr (Or.inr h)
      | succ n =>
        simp only [List.set_cons_succ, List.take_succ_cons, List.mem_cons] at h ⊢
        rcases h with h | h
        · exact Or.inr (Or.inl h)
        · rcases ih n k h with h | h
          · exact Or.inl h
          · exact Or.inr (Or.inr h)


theorem getD_set_same (h : Heap) (a : List GoString) (p : Nat) (hp : p < h.length) :
    (h.set p a).getD p [] = a := by
  simp [List.getD, List.getElem?_set, hp]

theorem getD_set_ne (h : Heap) (a : List GoString) (p q : Nat) (hne : q ≠ p) :
    (h.set p a).getD q [] = h.getD q [] := by
  simp [List.getD, List.getElem?_set, Ne.symm hne]

theorem getD_append_lt (h : Heap) (a : List GoString) (q : Nat) (hq : q < h.length) :
    (h ++ [a]).getD q [] = h.getD q [] := by
  simp [List.getD, List.getElem?_append_left hq]

theorem getD_append_length (h : Heap) (a : List GoString) :
    (h ++ [a]).getD h.length [] = a := by
  simp [List.getD]

theorem take_set_succ {α : Type} (l : List α) (n : Nat) (x : α) (h : n < l.length) :
    (l.set n x).take (n + 1) = l.take n ++ [x] := by
  induction l generalizing n with
  | nil => simp at h
  | cons a l ih =>
    cases n with
    | zero => simp
    | succ n =>
      simp only [List.length_cons] at h
      simp [ih n (by omega)]

theorem take_set_ge {α : Type} (l : List α) (n k : Nat) (x : α) (h : k ≤ n) :
    (l.set n x).take k = l.take k := by
  induction l generalizing n k with
  | nil => simp
  | cons a l ih =>
    cases k with
    | zero => simp
    | succ k =>
      cases n with
      | zero => omega
      | succ n => simp [ih n k (by omega)]

theorem goAppend_wf (g : Nat → Nat → Nat) (h : Heap) (s : Slice) (x : GoString)
    (hs : s.WF h) : (goAppend g h s x).2.WF (goAppend g h s x).1 := by
  obtain ⟨h1, h2, h3⟩ := hs
  unfold goAppend
  split
  · next hlt =>
    refine ⟨by simpa using h1, by simp; omega, ?_⟩
    simp only [List.length_set]
    rw [getD_set_same h _ _ h1]
    simpa using h3
  · next hge =>
    refine ⟨by simp, by simp, ?_⟩
    simp only [getD_append_length]
    have hv : (s.view h).length = s.len := by
      unfold Slice.view
      rw [List.length_take]; omega
    simp only [List.length_append, List.length_cons, List.length_replicate, hv]
    omega

theorem goAppend_wf_other (g : Nat → Nat → Nat) (h : Heap) (s t : Slice) (x : GoString)
    (ht : t.WF h) : t.WF (goAppend g h s x).1 := by
  obtain ⟨h1, h2, h3⟩ := ht
  unfold goAppend
  split
  · next hlt =>
    refine ⟨by simpa using h1, h2, ?_⟩
    by_cases hp : t.ptr = s.ptr
    · simp only []
      rw [← hp, getD_set_same h _ _ h1]
      simpa using h3
    · simp only []
      rw [getD_set_ne h _ _ _ hp]
      exact h3
  · next hge =>
    refine ⟨by simp; omega, h2, ?_⟩
    simp only []
    rw [getD_append_lt h _ _ h1]
    exact h3

theorem goAppend_view (g : Nat → Nat → Nat) (h : Heap) (s : Slice) (x : GoString)
    (hs : s.WF h) : (goAppend g h s x).2.view (goAppend g h s x).1 = s.view h ++ [x] := by
  obtain ⟨h1, h2, h3⟩ := hs
  unfold goAppend
  split
  · next hlt =>
    simp only [Slice.view]
    rw [getD_set_same h _ _ h1]
    exact take_set_succ _ _ _ (by omega)
  · next hge =>
    simp only [Slice.view, getD_append_length]
    have hv : ((h.getD s.ptr []).take s.len).length = s.len := by
      rw [List.length_take]; omega
    rw [List.take_append_eq_append_take, hv]
    simp [List.take_of_length_le (Nat.le_of_eq hv)]

theorem goAppend_view_other (g : Nat → Nat → Nat) (h : Heap) (s t : Slice) (x : GoString)
    (ht : t.WF h) (y : GoString) (hy : y ∈ t.view (goAppend g h s x).1) :
    y = x ∨ y ∈ t.view h := by
  obtain ⟨h1, h2, h3⟩ := ht
  unfold goAppend at hy
  split at hy
  · next hlt =>
    simp only [Slice.view] at hy ⊢
    by_cases hp : t.ptr = s.ptr
    · rw [← hp, getD_set_same h _ _ h1] at hy
      rw [hp] at hy ⊢
      exact mem_take_set _ _ _ _ _ hy
    · rw [getD_set_ne h _ _ _ hp] at hy
      exact Or.inr hy
  · next hge =>
    simp only [Slice.view] at hy ⊢
    rw [getD_append_lt h _ _ h1] at hy
    exact Or.inr hy

theorem goAppend_view_self (g : Nat → Nat → Nat) (h : Heap) (s : Slice) (x : GoString)
    (hs : s.WF h) : s.view (goAppend g h s x).1 = s.view h := by
  obtain ⟨h1, h2, h3⟩ := hs
  unfold goAppend
  split
  · next hlt =>
    simp only [Slice.view]
    rw [getD_set_same h _ _ h1]
    exact take_set_ge _ _ _ _ (Nat.le_refl _)
  · next hge =>
    simp only [Slice.view]
    rw [getD_append_lt h _ _ h1]

/-! ### The invariant of `downloadAttachments` -/

theorem initState_inv (fs : FS) (t : List Event) : ({ initState fs with trace := t } : DlState).Inv := by
  refine ⟨?_, ?_, ?_, ?_⟩ <;> simp [initState, Slice.WF, Slice.view]

theorem record_inv (env : Env) (st : DlState) (f : GoString) (hst : st.Inv)
    (hf : skipped f = false) : (record env st f).Inv := by
  obtain ⟨w1, w2, v1, v2⟩ := hst
  have step1 : ∀ st : DlState, st.Inv →
      ({ st with heap := (goAppend env.growslice st.heap st.pdfFiles f).1,
                 pdfFiles := (goAppend env.growslice st.heap st.pdfFiles f).2 } : DlState).Inv := by
    intro st ⟨w1, w2, v1, v2⟩
    refine ⟨goAppend_wf _ _ _ _ w1, goAppend_wf_other _ _ _ _ _ w2, ?_, ?_⟩
    · intro y hy
      simp only [goAppend_view _ _ _ _ w1, List.mem_append, List.mem_singleton] at hy
      rcases hy with hy | hy
      · exact v1 y hy
      · exact hy ▸ hf
    · intro y hy
      rcases goAppend_view_other _ _ _ _ _ w2 y hy with hy | hy
      · exact hy ▸ hf
      · exact v2 y hy
  have step2 : ∀ st : DlState, st.Inv →
      ({ st with heap := (goAppend env.growslice st.heap st.pdfFiles f).1,
                 zipFiles := (goAppend env.growslice st.heap st.pdfFiles f).2 } : DlState).Inv := by
    intro st ⟨w1, w2, v1, v2⟩
    refine ⟨goAppend_wf_other _ _ _ _ _ w1, goAppend_wf _ _ _ _ w1, ?_, ?_⟩
    · intro y hy
      simp only [goAppend_view_self _ _ _ _ w1] at hy
      exact v1 y hy
    · intro y hy
      simp only [goAppend_view _ _ _ _ w1, List.mem_append, List.mem_singleton] at hy
      rcases hy with hy | hy
      · exact v1 y hy
      · exact hy ▸ hf
  unfold record
  by_cases hp : hasSuffix f dotPdf = true <;> by_cases hz : hasSuffix f dotZip = true
  · simp only [hp, hz, if_true]
    exact step2 _ (step1 _ ⟨w1, w2, v1, v2⟩)
  · simp only [hp, hz, if_true]
    exact step1 _ ⟨w1, w2, v1, v2⟩
  · simp only [hp, hz, if_true]
    exact step2 _ ⟨w1, w2, v1, v2⟩
  · simp only [hp, hz]
    exact ⟨w1, w2, v1, v2⟩

theorem processPart_inv (env : Env) (m : GoString) (st st1 : DlState) (p : MessagePart)
    (hst : st.Inv) (h : processPart env m st p = Except.ok st1) : st1.Inv := by
  unfold processPart at h
  split at h
  · cases h; exact hst
  · next hs =>
    split at h
    · cases h
    · split at h
      · cases h; exact hst
      · split at h
        · cases h; exact hst
        · dsimp only at h
          split at h
          · cases h
            exact record_inv env _ _ hst (by simpa using hs)
          · cases h; exact hst

theorem processParts_inv (env : Env) (m : GoString) (ps : List MessagePart) (st st1 : DlState)
    (hst : st.Inv) (h : processParts env m st ps = Except.ok st1) : st1.Inv := by
  induction ps generalizing st with
  | nil => simp only [processParts] at h; cases h; exact hst
  | cons p ps ih =>
    simp only [processParts] at h
    split at h
    · cases h
    · next st2 h2 => exact ih st2 (processPart_inv env m st st2 p hst h2) h

theorem processMessage_inv (env : Env) (m : GoString) (st st1 : DlState)
    (hst : st.Inv) (h : processMessage env st m = Except.ok st1) : st1.Inv := by
  unfold processMessage at h
  dsimp only at h
  split at h
  · cases h
  · split at h
    · cases h
    · exact processParts_inv env m _ _ st1 (by exact hst) h

theorem processMessages_inv (env : Env) (ms : List GoString) (st st1 : DlState)
    (hst : st.Inv) (h : processMessages env st ms = Except.ok st1) : st1.Inv := by
  induction ms generalizing st with
  | nil => simp only [processMessages] at h; cases h; exact hst
  | cons m ms ih =>
    simp only [processMessages] at h
    split at h
    · cases h
    · next st2 h2 => exact ih st2 (processMessage_inv env m st st2 hst h2) h

/-! ### Parts that leave no mark -/

theorem processPart_skipped (env : Env) (m : GoString) (st : DlState) (p : MessagePart)
    (h : skipped p.filename = true) : processPart env m st p = Except.ok st := by
  simp [processPart, h]

theorem processParts_append (env : Env) (m : GoString) (ps qs : List MessagePart) (st : DlState) :
    processParts env m st (ps ++ qs) =
      match processParts env m st ps with
      | Except.error e => Except.error e
      | Except.ok st1 => processParts env m st1 qs := by
  induction ps generalizing st with
  | nil => simp [processParts]
  | cons p ps ih =>
    simp only [List.cons_append, processParts]
    cases processPart env m st p with
    | error e => rfl
    | ok st1 => exact ih st1

theorem processParts_remove_skipped (env : Env) (m : GoString) (ps qs : List MessagePart)
    (p : MessagePart) (st : DlState) (h : skipped p.filename = true) :
    processParts env m st (ps ++ p :: qs) = processParts env m st (ps ++ qs) := by
  rw [processParts_append, processParts_append]
  cases processParts env m st ps with
  | error e => rfl
  | ok st1 => simp [processParts, processPart_skipped env m st1 p h]

theorem processPart_withParts (env : Env) (m0 : GoString) (ps0 : List MessagePart)
    (m : GoString) (st : DlState) (p : MessagePart) :
    processPart (env.withParts m0 ps0) m st p = processPart env m st p := rfl

theorem processParts_withParts (env : Env) (m0 : GoString) (ps0 : List MessagePart)
    (m : GoString) (ps : List MessagePart) (st : DlState) :
    processParts (env.withParts m0 ps0) m st ps = processParts env m st ps := by
  induction ps generalizing st with
  | nil => rfl
  | cons p ps ih =>
    simp only [processParts, processPart_withParts]
    cases processPart env m st p with
    | error e => rfl
    | ok st1 => exact ih st1

theorem processMessages_withParts_eq (env : Env) (m0 : GoString) (ps ps0 : List MessagePart)
    (hget : env.messagesGet m0 = some { payload := some ps })
    (hps : ∀ st, processParts env m0 st ps = processParts env m0 st ps0)
    (ms : List GoString) (st : DlState) :
    processMessages env st ms = processMessages (env.withParts m0 ps0) st ms := by
  induction ms generalizing st with
  | nil => rfl
  | cons m ms ih =>
    have hm : processMessage env st m = processMessage (env.withParts m0 ps0) st m := by
      unfold processMessage
      by_cases hmm : m = m0
      · subst hmm
        simp only [hget, Env.withParts, if_true]
        rw [hps]
        exact (processParts_withParts env m ps0 m ps0 _).symm
      · simp only [Env.withParts, hmm, if_false]
        cases env.messagesGet m with
        | none => rfl
        | some msg =>
          obtain ⟨payload⟩ := msg
          cases payload with
          | none => rfl
          | some parts => exact (processParts_withParts env m0 ps0 m parts _).symm
    simp only [processMessages, ← hm]
    cases processMessage env st m with
    | error e => rfl
    | ok st1 => exact ih st1

/-! ### Parts whose attachment is not saved -/

theorem sim_refl (a : DlState) : a.Sim a := ⟨rfl, rfl, rfl, rfl⟩

theorem simR_refl (r : Except Fault DlState) : SimR r r := by
  cases r with
  | error e => exact rfl
  | ok a => exact sim_refl a

theorem record_sim (env : Env) (a b : DlState) (f : GoString) (h : a.Sim b) :
    (record env a f).Sim (record env b f) := by
  obtain ⟨h1, h2, h3, h4⟩ := h
  unfold record
  cases hasSuffix f dotPdf <;> cases hasSuffix f dotZip <;>
    simp only [Bool.false_eq_true, if_false, if_true] <;>
    refine ⟨?_, ?_, ?_, ?_⟩ <;> simp only [h1, h2, h3, h4]

theorem processPart_sim (env : Env) (m : GoString) (a b : DlState) (p : MessagePart)
    (h : a.Sim b) : SimR (processPart env m a p) (processPart env m b p) := by
  have h' := h
  obtain ⟨h1, h2, h3, h4⟩ := h'
  unfold processPart
  split
  · exact h
  · split
    · exact rfl
    · split
      · exact ⟨h1, h2, h3, h4⟩
      · split
        · exact ⟨h1, h2, h3, h4⟩
        · dsimp only
          split
          · exact record_sim env _ _ _ ⟨h1, h2, h3, by simp only [h4]⟩
          · exact ⟨h1, h2, h3, h4⟩

theorem processParts_sim (env : Env) (m : GoString) (ps : List MessagePart) (a b : DlState)
    (h : a.Sim b) : SimR (processParts env m a ps) (processParts env m b ps) := by
  induction ps generalizing a b with
  | nil => exact h
  | cons p ps ih =>
    simp only [processParts]
    have hp := processPart_sim env m a b p h
    revert hp
    cases processPart env m a p <;> cases processPart env m b p <;> intro hp
    · exact hp
    · exact hp.elim
    · exact hp.elim
    · exact ih _ _ hp

theorem processPart_fails (env : Env) (m : GoString) (st : DlState) (p : MessagePart)
    (hacc : skipped p.filename = false) (hf : failsToSave env m p = true) :
    ∃ st1, processPart env m st p = Except.ok st1 ∧ st1.Sim st := by
  unfold failsToSave at hf
  unfold processPart
  simp only [hacc, Bool.false_eq_true, if_false]
  cases hb : p.body with
  | none => simp [hb] at hf
  | some a =>
    simp only [hb] at hf ⊢
    cases hg : env.attachmentsGet m a with
    | none => exact ⟨_, rfl, rfl, rfl, rfl, rfl⟩
    | some e =>
      simp only [hg] at hf ⊢
      cases hd : env.decodeString e with
      | none => exact ⟨_, rfl, rfl, rfl, rfl, rfl⟩
      | some d =>
        simp only [hd] at hf ⊢
        have hw : env.writeFileOk (join invoicesDir p.filename) = false := by simpa using hf
        simp only [hw, Bool.false_eq_true, if_false]
        exact ⟨_, rfl, rfl, rfl, rfl, rfl⟩

theorem processParts_remove_failing (env : Env) (m : GoString) (ps qs : List MessagePart)
    (p : MessagePart) (a b : DlState) (h : a.Sim b)
    (hacc : skipped p.filename = false) (hf : failsToSave env m p = true) :
    SimR (processParts env m a (ps ++ p :: qs)) (processParts env m b (ps ++ qs)) := by
  rw [processParts_append, processParts_append]
  have hp := processParts_sim env m ps a b h
  revert hp
  cases processParts env m a ps <;> cases processParts env m b ps <;> intro hp
  · exact hp
  · exact hp.elim
  · exact hp.elim
  · next a1 b1 =>
    obtain ⟨a2, ha2, hs2⟩ := processPart_fails env m a1 p hacc hf
    simp only [processParts, ha2]
    exact processParts_sim env m qs a2 b1 ⟨hs2.1.trans hp.1, hs2.2.1.trans hp.2.1,
      hs2.2.2.1.trans hp.2.2.1, hs2.2.2.2.trans hp.2.2.2⟩

theorem processMessages_withParts_sim (env : Env) (m0 : GoString) (ps ps0 : List MessagePart)
    (hget : env.messagesGet m0 = some { payload := some ps })
    (hps : ∀ a b : DlState, a.Sim b →
      SimR (processParts env m0 a ps) (processParts env m0 b ps0))
    (ms : List GoString) (a b : DlState) (h : a.Sim b) :
    SimR (processMessages env a ms) (processMessages (env.withParts m0 ps0) b ms) := by
  induction ms generalizing a b with
  | nil => exact h
  | cons m ms ih =>
    have hm : SimR (processMessage env a m) (processMessage (env.withParts m0 ps0) b m) := by
      unfold processMessage
      by_cases hmm : m = m0
      · subst hmm
        simp only [hget, Env.withParts, if_true]
        have := hps { a with trace := a.trace ++ [Event.get m] }
          { b with trace := b.trace ++ [Event.get m] } h
        show SimR _ (processParts (env.withParts m ps0) m _ ps0)
        rw [processParts_withParts env m ps0 m ps0]
        exact this
      · simp only [Env.withParts, hmm, if_false]
        cases env.messagesGet m with
        | none => exact rfl
        | some msg =>
          obtain ⟨payload⟩ := msg
          cases payload with
          | none => exact rfl
          | some parts =>
            have := processParts_sim env m parts { a with trace := a.trace ++ [Event.get m] }
              { b with trace := b.trace ++ [Event.get m] } h
            show SimR _ (processParts (env.withParts m0 ps0) m _ parts)
            rw [processParts_withParts env m0 ps0 m parts]
            exact this
    simp only [processMessages]
    revert hm
    cases processMessage env a m <;> cases processMessage (env.withParts m0 ps0) b m <;> intro hm
    · exact hm
    · exact hm.elim
    · exact hm.elim
    · exact ih _ _ hm

/-! ### The actions of `downloadAttachments` -/

theorem record_trace (env : Env) (st : DlState) (f : GoString) :
    (record env st f).trace = st.trace := by
  unfold record
  cases hasSuffix f dotPdf <;> cases hasSuffix f dotZip <;> rfl

theorem processPart_trace (env : Env) (m : GoString) (st st1 : DlState) (p : MessagePart)
    (h : processPart env m st p = Except.ok st1) :
    ∃ t, st1.trace = st.trace ++ t ∧ ∀ q, Event.list q ∉ t := by
  unfold processPart at h
  split at h
  · cases h; exact ⟨[], by simp, by simp⟩
  · split at h
    · cases h
    · split at h
      · cases h; exact ⟨[_], rfl, by simp⟩
      · split at h
        · cases h; exact ⟨[_], rfl, by simp⟩
        · dsimp only at h
          split at h
          · cases h
            rw [record_trace]
            exact ⟨_, List.append_assoc _ _ _, by simp⟩
          · cases h
            exact ⟨_, List.append_assoc _ _ _, by simp⟩

theorem processParts_trace (env : Env) (m : GoString) (ps : List MessagePart) (st st1 : DlState)
    (h : processParts env m st ps = Except.ok st1) :
    ∃ t, st1.trace = st.trace ++ t ∧ ∀ q, Event.list q ∉ t := by
  induction ps generalizing st with
  | nil => simp only [processParts] at h; cases h; exact ⟨[], by simp, by simp⟩
  | cons p ps ih =>
    simp only [processParts] at h
    split at h
    · cases h
    · next st2 h2 =>
      obtain ⟨t1, e1, n1⟩ := processPart_trace env m st st2 p h2
      obtain ⟨t2, e2, n2⟩ := ih st2 h
      refine ⟨t1 ++ t2, by rw [e2, e1, List.append_assoc], ?_⟩
      intro q hq
      rcases List.mem_append.1 hq with hq | hq
      · exact n1 q hq
      · exact n2 q hq

theorem processMessages_trace (env : Env) (ms : List GoString) (st st1 : DlState)
    (h : processMessages env st ms = Except.ok st1) :
    ∃ t, st1.trace = st.trace ++ t ∧ ∀ q, Event.list q ∉ t := by
  induction ms generalizing st with
  | nil => simp only [processMessages] at h; cases h; exact ⟨[], by simp, by simp⟩
  | cons m ms ih =>
    simp only [processMessages] at h
    split at h
    · cases h
    · next st2 h2 =>
      have h3 : ∃ t, st2.trace = st.trace ++ t ∧ ∀ q, Event.list q ∉ t := by
        unfold processMessage at h2
        dsimp only at h2
        split at h2
        · cases h2
        · split at h2
          · cases h2
          · obtain ⟨t, e, n⟩ := processParts_trace env m _ _ st2 h2
            refine ⟨Event.get m :: t, by simp [e], ?_⟩
            intro q hq
            rcases List.mem_cons.1 hq with hq | hq
            · cases hq
            · exact n q hq
      obtain ⟨t1, e1, n1⟩ := h3
      obtain ⟨t2, e2, n2⟩ := ih st2 h
      refine ⟨t1 ++ t2, by rw [e2, e1, List.append_assoc], ?_⟩
      intro q hq
      rcases List.mem_append.1 hq with hq | hq
      · exact n1 q hq
      · exact n2 q hq

/-! ### The claims about `downloadAttachments` -/

/-- C3: a part whose filename is empty or ends in neither `.pdf` nor `.zip` leaves no
mark: the outcome of `downloadAttachments` (result lists, file system, and the sequence
of service calls and file writes) is the one of the run in which the part is absent
from its message, so no attachment is fetched and no file is written for it; and its
filename is in neither returned list. -/
theorem skipped_part_leaves_no_mark (env : Env) (fs : FS) (label : GoString)
    (dateStr dateEnd : Date) (m : GoString) (ps qs : List MessagePart) (p : MessagePart)
    (hget : env.messagesGet m = some { payload := some (ps ++ p :: qs) })
    (hp : p.filename = [] ∨
      (hasSuffix p.filename dotPdf = false ∧ hasSuffix p.filename dotZip = false)) :
    downloadAttachments env fs label dateStr dateEnd =
        downloadAttachments (env.withParts m (ps ++ qs)) fs label dateStr dateEnd ∧
      ∀ r, downloadAttachments env fs label dateStr dateEnd = Except.ok r →
        p.filename ∉ r.pdfFiles ∧ p.filename ∉ r.zipFiles := by
  have hs : skipped p.filename = true := by
    rcases hp with hp | ⟨h1, h2⟩
    · simp [skipped, hp]
    · simp [skipped, h1, h2]
  constructor
  · unfold downloadAttachments
    dsimp only
    show (match env.messagesList _ with | none => _ | some messages => _) =
      (match env.messagesList _ with | none => _ | some messages => _)
    cases env.messagesList (searchQuery label dateStr dateEnd) with
    | none => rfl
    | some ms =>
      dsimp only
      rw [processMessages_withParts_eq env m (ps ++ p :: qs) (ps ++ qs) hget
        (fun st => processParts_remove_skipped env m ps qs p st hs) ms]
  · intro r h
    unfold downloadAttachments at h
    dsimp only at h
    split at h
    · cases h
    · split at h
      · cases h
      · next st1 h1 =>
        cases h
        obtain ⟨_, _, v1, v2⟩ := processMessages_inv env _ _ st1 (initState_inv fs _) h1
        constructor
        · intro hmem
          have := v1 _ hmem
          rw [hs] at this
          cases this
        · intro hmem
          have := v2 _ hmem
          rw [hs] at this
          cases this

/-- C10: when the fetch, the decoding or the write of an accepted part fails, the two
lists `downloadAttachments` returns are the ones of the run in which the part is absent
from its message (and the run faults exactly when that run does). -/
theorem failing_part_is_not_recorded (env : Env) (fs : FS) (label : GoString)
    (dateStr dateEnd : Date) (m : GoString) (ps qs : List MessagePart) (p : MessagePart)
    (hget : env.messagesGet m = some { payload := some (ps ++ p :: qs) })
    (hacc : p.filename ≠ [] ∧
      (hasSuffix p.filename dotPdf = true ∨ hasSuffix p.filename dotZip = true))
    (hfail : failsToSave env m p = true) :
    lists (downloadAttachments env fs label dateStr dateEnd) =
      lists (downloadAttachments (env.withParts m (ps ++ qs)) fs label dateStr dateEnd) := by
  have hs : skipped p.filename = false := by
    rcases hacc with ⟨h0, h1 | h1⟩ <;> simp [skipped, h0, h1]
  unfold downloadAttachments
  dsimp only
  show lists (match env.messagesList _ with | none => _ | some messages => _) =
    lists (match env.messagesList _ with | none => _ | some messages => _)
  cases env.messagesList (searchQuery label dateStr dateEnd) with
  | none => rfl
  | some ms =>
    dsimp only
    have h := processMessages_withParts_sim env m (ps ++ p :: qs) (ps ++ qs) hget
      (fun a b hab => processParts_remove_failing env m ps qs p a b hab hs hfail) ms
      { initState fs with trace := [Event.list (searchQuery label dateStr dateEnd)] }
      { initState fs with trace := [Event.list (searchQuery label dateStr dateEnd)] }
      (sim_refl _)
    revert h
    cases processMessages env _ ms <;>
      cases processMessages (env.withParts m (ps ++ qs)) _ ms <;> intro h
    · cases h; rfl
    · exact h.elim
    · exact h.elim
    · obtain ⟨h1, h2, h3, _⟩ := h
      simp only [lists, DlState.result, h1, h2, h3]

/-! ### Numerals -/

theorem digitChar_isDigit : ∀ k, k < 10 → (Nat.digitChar k).isDigit = true ∧
    digitVal (Nat.digitChar k) = k := by decide

theorem toDigitsCore_append (fuel n : Nat) (acc : List Char) :
    Nat.toDigitsCore 10 fuel n acc = Nat.toDigitsCore 10 fuel n [] ++ acc := by
  induction fuel generalizing n acc with
  | zero => simp [Nat.toDigitsCore]
  | succ fuel ih =>
    simp only [Nat.toDigitsCore]
    split
    · simp
    · rw [ih (n / 10) (Nat.digitChar (n % 10) :: acc), ih (n / 10) [Nat.digitChar (n % 10)]]
      simp

theorem toDigitsCore_spec (fuel n : Nat) (h : n < fuel) :
    atoi (Nat.toDigitsCore 10 fuel n []) = n ∧
      ∀ c ∈ Nat.toDigitsCore 10 fuel n [], c.isDigit = true := by
  induction fuel generalizing n with
  | zero => omega
  | succ fuel ih =>
    have hd := digitChar_isDigit (n % 10) (Nat.mod_lt _ (by decide))
    simp only [Nat.toDigitsCore]
    split
    · next h0 =>
      constructor
      · simp only [atoi, List.foldl, hd.2]
        omega
      · intro c hc
        simp only [List.mem_singleton] at hc
        exact hc ▸ hd.1
    · next h0 =>
      rw [toDigitsCore_append]
      obtain ⟨i1, i2⟩ := ih (n / 10) (by omega)
      constructor
      · simp only [atoi] at i1
        simp only [atoi, List.foldl_append, List.foldl, i1, hd.2]
        omega
      · intro c hc
        rcases List.mem_append.1 hc with hc | hc
        · exact i2 c hc
        · simp only [List.mem_singleton] at hc
          exact hc ▸ hd.1

theorem atoi_itoa (n : Nat) : atoi (itoa n) = n :=
  (toDigitsCore_spec (n + 1) n (Nat.lt_succ_self n)).1

theorem itoa_isDigit (n : Nat) (c : Char) (h : c ∈ itoa n) : c.isDigit = true :=
  (toDigitsCore_spec (n + 1) n (Nat.lt_succ_self n)).2 c h

theorem itoa_injective (i j : Nat) (h : itoa i = itoa j) : i = j := by
  rw [← atoi_itoa i, ← atoi_itoa j, h]

theorem itoa_ne_nil (n : Nat) : itoa n ≠ [] := by
  unfold itoa Nat.toDigits
  simp only [Nat.toDigitsCore]
  split
  · simp
  · rw [toDigitsCore_append]
    simp

theorem numbered_injective (i j : Nat) (h : numbered i = numbered j) : i = j := by
  unfold numbered at h
  rw [List.append_assoc, List.append_assoc] at h
  exact itoa_injective i j (List.append_cancel_right (List.append_cancel_left h))

/-! ### Paths -/

theorem splitSep_ne_nil (s : GoString) : splitSep s ≠ [] := by
  induction s with
  | nil => simp [splitSep]
  | cons c cs ih =>
    simp only [splitSep]
    split
    · simp
    · split <;> simp

theorem splitSep_noSep (a : GoString) (h : '/' ∉ a) : splitSep a = [a] := by
  induction a with
  | nil => rfl
  | cons c cs ih =>
    have hc : c ≠ '/' := fun e => h (e ▸ List.mem_cons_self _ _)
    have hcs : '/' ∉ cs := fun e => h (List.mem_cons_of_mem _ e)
    simp [splitSep, hc, ih hcs]

theorem splitSep_append_sep (a b : GoString) (h : '/' ∉ a) :
    splitSep (a ++ '/' :: b) = a :: splitSep b := by
  induction a with
  | nil => simp [splitSep]
  | cons c cs ih =>
    have hc : c ≠ '/' := fun e => h (e ▸ List.mem_cons_self _ _)
    have hcs : '/' ∉ cs := fun e => h (List.mem_cons_of_mem _ e)
    simp [splitSep, hc, ih hcs]

theorem clean_invoices (b : GoString) :
    clean (invoicesDir ++ '/' :: b) =
      if ((splitSep b).foldl (cleanStep false) [invoicesDir]).reverse = [] then ['.']
      else joinSep ((splitSep b).foldl (cleanStep false) [invoicesDir]).reverse := by
  have h1 : (invoicesDir ++ '/' :: b).head? = some 'I' := rfl
  have h2 : cleanStep false [] invoicesDir = [invoicesDir] := by decide
  have h3 : decide (some 'I' = some '/') = false := by decide
  unfold clean
  dsimp only
  rw [h1, h3, splitSep_append_sep invoicesDir b (by decide), List.foldl_cons, h2]
  simp only [Bool.false_eq_true, if_false]

theorem join_invoices (b : GoString) :
    join invoicesDir b =
      if ((splitSep b).foldl (cleanStep false) [invoicesDir]).reverse = [] then ['.']
      else joinSep ((splitSep b).foldl (cleanStep false) [invoicesDir]).reverse := by
  unfold join
  rw [if_pos (by decide), clean_invoices]

theorem join_plain (f : GoString) (h : plainName f) :
    join invoicesDir f = invoicesDir ++ '/' :: f := by
  obtain ⟨h1, h2, h3, h4⟩ := h
  rw [join_invoices, splitSep_noSep f h1]
  simp [cleanStep, h2, h3, h4, joinSep]

/-! ### The rename loop -/

theorem newName_eq (k : Nat) (f : GoString) : newName k f = itoa k ++ " ? ? ?.pdf".toList := by
  simp [newName, sprintf, invoiceDetails]

theorem newName_plain (k : Nat) (f : GoString) : plainName (newName k f) := by
  rw [newName_eq]
  have hsp : ' ' ∈ itoa k ++ " ? ? ?.pdf".toList :=
    List.mem_append_right _ (by decide)
  refine ⟨?_, ?_, ?_, ?_⟩
  · intro h
    rcases List.mem_append.1 h with h | h
    · exact absurd (itoa_isDigit k _ h) (by decide)
    · exact absurd h (by decide)
  · intro h; rw [h] at hsp; exact absurd hsp (by decide)
  · intro h; rw [h] at hsp; exact absurd hsp (by decide)
  · intro h; rw [h] at hsp; exact absurd hsp (by decide)

theorem join_newName (k : Nat) (f : GoString) :
    join invoicesDir (newName k f) = numbered k := by
  rw [join_plain _ (newName_plain k f), newName_eq]
  simp [numbered, invoicesDir]

theorem renameLoop_fold (env : Env) (pdfFiles : List GoString) (st : RnState) :
    (pdfFiles.foldl (renameStep env) st).trace =
        st.trace ++ (pdfFiles.enumFrom st.count).map
          (fun p => Event.rename (join invoicesDir p.2) (numbered p.1)) ∧
      (pdfFiles.foldl (renameStep env) st).count = st.count + pdfFiles.length := by
  induction pdfFiles generalizing st with
  | nil => simp
  | cons f fs ih =>
    obtain ⟨i1, i2⟩ := ih (renameStep env st f)
    simp only [List.foldl_cons, i1, i2]
    constructor
    · simp [renameStep, join_newName]
    · simp only [renameStep, List.length_cons]; omega

/-- C4: for every list of PDF filenames and every starting counter `c`, whatever the
file system and whichever renames fail, the rename loop makes one rename attempt per
filename, in order: the attempt for the filename at position `i` renames
`filepath.Join("Invoices", f_i)` (which is `Invoices/f_i` for a plain file name) to
`Invoices/<c+i> ? ? ?.pdf`.  The counter ends at `c` plus the number of filenames, and
different counters give different target names: the counters of one run start at `c`,
are contiguous and strictly increasing, and no two files get the same one. -/
theorem rename_loop_counters (env : Env) (fs : FS) (pdfFiles : List GoString) (c : Nat) :
    (renameLoop env fs pdfFiles c).trace.length = pdfFiles.length ∧
      (∀ i f, pdfFiles[i]? = some f →
        (renameLoop env fs pdfFiles c).trace[i]? =
          some (Event.rename (join invoicesDir f)
            ("Invoices/".toList ++ itoa (c + i) ++ " ? ? ?.pdf".toList))) ∧
      (∀ f, plainName f → join invoicesDir f = "Invoices/".toList ++ f) ∧
      (renameLoop env fs pdfFiles c).count = c + pdfFiles.length ∧
      (∀ i j, "Invoices/".toList ++ itoa i ++ " ? ? ?.pdf".toList =
          "Invoices/".toList ++ itoa j ++ " ? ? ?.pdf".toList → i = j) := by
  obtain ⟨h1, h2⟩ := renameLoop_fold env pdfFiles { fs := fs, count := c, trace := [] }
  refine ⟨?_, ?_, ?_, h2, numbered_injective⟩
  · simp [renameLoop, h1]
  · intro i f hf
    simp only [renameLoop, h1, List.nil_append, List.getElem?_map, List.getElem?_enumFrom, hf]
    rfl
  · intro f hf
    rw [join_plain f hf]
    simp [invoicesDir]

/-! ### Destinations -/

theorem foldl_cleanStep_noDotDot (comps acc : List GoString) (h : dotDot ∉ comps) :
    ∃ more, comps.foldl (cleanStep false) acc = more ++ acc := by
  induction comps generalizing acc with
  | nil => exact ⟨[], rfl⟩
  | cons c cs ih =>
    have hc : c ≠ dotDot := fun e => h (e ▸ List.mem_cons_self _ _)
    have hcs : dotDot ∉ cs := fun e => h (List.mem_cons_of_mem _ e)
    simp only [List.foldl_cons]
    by_cases h0 : c = [] ∨ c = ['.']
    · simp only [cleanStep, h0, if_true]
      exact ih acc hcs
    · simp only [cleanStep, h0, hc, if_false]
      obtain ⟨more, hm⟩ := ih (c :: acc) hcs
      exact ⟨more ++ [c], by simp [hm]⟩

theorem insideInvoices_joinSep (rest : List GoString) :
    insideInvoices (joinSep (invoicesDir :: rest)) = true := by
  cases rest with
  | nil => decide
  | cons r rs =>
    simp only [joinSep, insideInvoices, Bool.or_eq_true, decide_eq_true_eq]
    right
    rw [List.isPrefixOf_iff_prefix]
    exact ⟨joinSep (r :: rs), by simp [invoicesDir]⟩

theorem join_invoices_inside (name : GoString) (h : dotDot ∉ splitSep name) :
    insideInvoices (join invoicesDir name) = true := by
  rw [join_invoices]
  obtain ⟨more, hm⟩ := foldl_cleanStep_noDotDot (splitSep name) [invoicesDir] h
  rw [hm]
  simp only [List.reverse_append, List.reverse_cons, List.reverse_nil, List.nil_append,
    List.singleton_append]
  rw [if_neg (by simp)]
  exact insideInvoices_joinSep _

theorem dropWhile_reverse_noSep (a z : GoString) (h : '/' ∉ z) :
    ((a ++ '/' :: z).reverse.dropWhile (fun c => decide (c ≠ '/'))).reverse = a ++ ['/'] := by
  have h1 : (a ++ '/' :: z).reverse = z.reverse ++ '/' :: a.reverse := by simp
  rw [h1, List.dropWhile_append_of_pos]
  · simp [List.dropWhile]
  · intro c hc
    have : c ≠ '/' := fun e => h (e ▸ List.mem_reverse.1 hc)
    simpa using this

theorem dir_join_plain (z : GoString) (h : plainName z) :
    dir (join invoicesDir z) = invoicesDir := by
  rw [join_plain z h]
  unfold dir
  rw [dropWhile_reverse_noSep invoicesDir z h.1, clean_invoices]
  decide

theorem entryDest_inside (zipName entryName : GoString) (hz : plainName zipName)
    (he : dotDot ∉ splitSep entryName) : insideInvoices (entryDest zipName entryName) = true := by
  unfold entryDest
  rw [dir_join_plain zipName hz]
  exact join_invoices_inside entryName he

/-! ### Concrete runs -/

/-- C1: on a message with the attachments `a.pdf` and `b.zip`, both saved, the ZIP list
`downloadAttachments` returns is `[a.pdf, b.zip]`: it holds a filename ending in
`.pdf`.  On a message with the attachments `a.zip` and `b.zip`, both saved, the ZIP
list is `[b.zip]`: the saved `a.zip` is missing. -/
theorem zip_list_is_built_from_pdf_list :
    downloadAttachments (sampleEnv ["m"] (fun _ => some ["a.pdf", "b.zip"]) []) []
        "inv".toList sampleDate sampleDate =
      Except.ok
        { pdfFiles := ["a.pdf".toList]
          zipFiles := ["a.pdf".toList, "b.zip".toList]
          fs := [("Invoices/a.pdf".toList, [97, 46, 112, 100, 102]),
                 ("Invoices/b.zip".toList, [98, 46, 122, 105, 112])]
          trace := [Event.list "label:inv has:attachment after:2024/3/9 before:2024/3/9".toList,
                    Event.get "m".toList,
                    Event.attachment "m".toList "a.pdf".toList,
                    Event.writeFile "Invoices/a.pdf".toList [97, 46, 112, 100, 102],
                    Event.attachment "m".toList "b.zip".toList,
                    Event.writeFile "Invoices/b.zip".toList [98, 46, 122, 105, 112]] } ∧
      lists (downloadAttachments (sampleEnv ["m"] (fun _ => some ["a.zip", "b.zip"]) []) []
        "inv".toList sampleDate sampleDate) = Except.ok ([], ["b.zip".toList]) := by
  constructor <;> rfl

/-- C2: with two listed messages of which the first cannot be fetched and the second
holds the attachment `a.pdf`, `downloadAttachments` does not return: after logging
the error it reads the parts of the nil message and faults. -/
theorem failed_message_fetch_faults :
    downloadAttachments
        (sampleEnv ["m1", "m2"] (fun i => if i = "m1" then none else some ["a.pdf"]) []) []
        "inv".toList sampleDate sampleDate = Except.error Fault.nilDereference := by
  rfl

/-- C3, an instance: the message holds `a.pdf`, `notes.txt` and `b.zip`. -/
theorem skipped_part_leaves_no_mark_witness :
    (hasSuffix "notes.txt".toList dotPdf = false ∧ hasSuffix "notes.txt".toList dotZip = false) ∧
      (downloadAttachments (sampleEnv ["m"] (fun _ => some ["a.pdf", "notes.txt", "b.zip"]) [])
          [] "inv".toList sampleDate sampleDate =
        downloadAttachments
          ((sampleEnv ["m"] (fun _ => some ["a.pdf", "notes.txt", "b.zip"]) []).withParts
            "m".toList ([samplePart "a.pdf"] ++ [samplePart "b.zip"]))
          [] "inv".toList sampleDate sampleDate ∧
        ∀ r, downloadAttachments
            (sampleEnv ["m"] (fun _ => some ["a.pdf", "notes.txt", "b.zip"]) [])
            [] "inv".toList sampleDate sampleDate = Except.ok r →
          (samplePart "notes.txt").filename ∉ r.pdfFiles ∧
            (samplePart "notes.txt").filename ∉ r.zipFiles) :=
  ⟨by decide,
   skipped_part_leaves_no_mark
     (sampleEnv ["m"] (fun _ => some ["a.pdf", "notes.txt", "b.zip"]) []) []
     "inv".toList sampleDate sampleDate "m".toList [samplePart "a.pdf"] [samplePart "b.zip"]
     (samplePart "notes.txt") rfl (Or.inr (by decide))⟩

/-- C10, an instance: the message holds `a.pdf`, `b.pdf` and `c.zip`, and the fetch of
the attachment of `b.pdf` fails. -/
theorem failing_part_is_not_recorded_witness :
    failsToSave (sampleEnv ["m"] (fun _ => some ["a.pdf", "b.pdf", "c.zip"]) ["b.pdf"])
        "m".toList (samplePart "b.pdf") = true ∧
      lists (downloadAttachments
          (sampleEnv ["m"] (fun _ => some ["a.pdf", "b.pdf", "c.zip"]) ["b.pdf"])
          [] "inv".toList sampleDate sampleDate) =
        lists (downloadAttachments
          ((sampleEnv ["m"] (fun _ => some ["a.pdf", "b.pdf", "c.zip"]) ["b.pdf"]).withParts
            "m".toList ([samplePart "a.pdf"] ++ [samplePart "c.zip"]))
          [] "inv".toList sampleDate sampleDate) :=
  ⟨by rfl,
   failing_part_is_not_recorded
     (sampleEnv ["m"] (fun _ => some ["a.pdf", "b.pdf", "c.zip"]) ["b.pdf"]) []
     "inv".toList sampleDate sampleDate "m".toList [samplePart "a.pdf"] [samplePart "c.zip"]
     (samplePart "b.pdf") rfl ⟨by decide, Or.inl (by decide)⟩ (by rfl)⟩

/-- C8 fails as stated: the accepted attachment filename `../x.pdf` is written to
`x.pdf`, outside `Invoices/`; the entry `../../y.pdf` of the archive `a.zip` is
written to `../y.pdf`.  A list entry that no attachment filename can be, `.`, makes
`extractArchive` open the file `Invoices` itself and create its entries next to it. -/
theorem dotdot_escapes_invoices :
    skipped "../x.pdf".toList = false ∧
      attachmentDest "../x.pdf".toList = "x.pdf".toList ∧
      insideInvoices (attachmentDest "../x.pdf".toList) = false ∧
      (downloadAttachments (sampleEnv ["m"] (fun _ => some ["../x.pdf"]) []) []
          "inv".toList sampleDate sampleDate).map (fun r => r.fs.paths) =
        Except.ok ["x.pdf".toList] ∧
      hasSuffix "../../y.pdf".toList dotPdf = true ∧
      entryDest "a.zip".toList "../../y.pdf".toList = "../y.pdf".toList ∧
      insideInvoices (entryDest "a.zip".toList "../../y.pdf".toList) = false ∧
      (extractArchive (sampleZipEnv [([1], [sampleEntry "../../y.pdf" [9]])] true)
          [("Invoices/a.zip".toList, [1])] ["a.zip".toList]).fs =
        [("../y.pdf".toList, [9])] ∧
      (extractArchive (sampleZipEnv [([1], [sampleEntry "a.pdf" [9]])] true)
          [("Invoices".toList, [1])] [".".toList]).fs =
        [("a.pdf".toList, [9])] := by
  refine ⟨by decide, by decide, by decide, by rfl, by decide, by decide, by decide, by rfl,
    by rfl⟩

/-! ### The file system -/

theorem read_append_singleton (fs : FS) (p q : GoString) (d : Bytes) :
    FS.read (fs ++ [(p, d)]) q = (FS.read fs q).or (if q = p then some d else none) := by
  unfold FS.read
  rw [List.find?_append]
  cases h : List.find? (fun e => decide (e.1 = q)) fs with
  | some e => simp
  | none =>
    by_cases hq : q = p
    · simp [hq]
    · have : ¬ p = q := fun e => hq e.symm
      simp [hq, this]

theorem read_remove (fs : FS) (p q : GoString) :
    (fs.remove p).read q = if q = p then none else fs.read q := by
  unfold FS.remove FS.read
  induction fs with
  | nil => simp
  | cons e fs ih =>
    by_cases he : e.1 = p <;> by_cases heq : e.1 = q <;> by_cases hq : q = p <;>
      simp_all [List.filter_cons, List.find?_cons]

theorem read_write (fs : FS) (p q : GoString) (d : Bytes) :
    (fs.write p d).read q = if q = p then some d else fs.read q := by
  unfold FS.write
  rw [read_append_singleton, read_remove]
  by_cases hq : q = p
  · simp [hq]
  · simp [hq]

/-! ### Paths of the file system -/

theorem mem_paths_remove (fs : FS) (p q : GoString) :
    q ∈ (fs.remove p).paths ↔ q ∈ fs.paths ∧ q ≠ p := by
  unfold FS.remove FS.paths
  simp only [List.mem_map, List.mem_filter, decide_eq_true_eq]
  constructor
  · rintro ⟨e, ⟨he, hne⟩, rfl⟩
    exact ⟨⟨e, he, rfl⟩, hne⟩
  · rintro ⟨⟨e, he, rfl⟩, hne⟩
    exact ⟨e, ⟨he, hne⟩, rfl⟩

theorem mem_paths_write (fs : FS) (p q : GoString) (d : Bytes) :
    q ∈ (fs.write p d).paths ↔ q = p ∨ q ∈ fs.paths := by
  unfold FS.write
  have h := mem_paths_remove fs p q
  unfold FS.paths at h ⊢
  simp only [List.map_append, List.mem_append, h, List.map_cons, List.map_nil,
    List.mem_singleton]
  by_cases hq : q = p
  · simp [hq]
  · simp [hq]

theorem nodup_paths_remove (fs : FS) (p : GoString) (h : fs.paths.Nodup) :
    (fs.remove p).paths.Nodup := by
  unfold FS.remove FS.paths at *
  exact h.sublist ((List.filter_sublist _).map _)

theorem nodup_paths_write (fs : FS) (p : GoString) (d : Bytes) (h : fs.paths.Nodup) :
    (fs.write p d).paths.Nodup := by
  have h1 := nodup_paths_remove fs p h
  have h2 : p ∉ (fs.remove p).paths := fun hm => ((mem_paths_remove fs p p).1 hm).2 rfl
  unfold FS.write
  unfold FS.paths at *
  rw [List.map_append]
  refine List.Nodup.append h1 (by simp) ?_
  intro x hx hx'
  simp only [List.map_cons, List.map_nil, List.mem_singleton] at hx'
  exact h2 (hx' ▸ hx)

theorem read_isSome_of_mem (fs : FS) (p : GoString) (h : p ∈ fs.paths) :
    ∃ d, fs.read p = some d := by
  unfold FS.paths at h
  obtain ⟨e, he, rfl⟩ := List.mem_map.1 h
  unfold FS.read
  cases hf : List.find? (fun x => decide (x.1 = e.1)) fs with
  | some x => exact ⟨x.2, rfl⟩
  | none =>
    have := List.find?_eq_none.1 hf e he
    simp at this

theorem hasSuffix_append (a s : GoString) : hasSuffix (a ++ s) s = true := by
  simp [hasSuffix]

theorem match_numbered (i : Nat) : matchInvoicesPdf (numbered i) = true := by
  have hp := newName_plain i []
  rw [newName_eq] at hp
  unfold matchInvoicesPdf numbered
  have e : "Invoices/".toList ++ itoa i ++ " ? ? ?.pdf".toList =
      invoicesDir ++ '/' :: (itoa i ++ " ? ? ?.pdf".toList) := by
    simp [invoicesDir]
  rw [e, splitSep_append_sep invoicesDir _ (by decide), splitSep_noSep _ hp.1]
  have e2 : itoa i ++ " ? ? ?.pdf".toList = (itoa i ++ " ? ? ?".toList) ++ dotPdf := by
    simp [dotPdf]
  simp only [decide_True, Bool.true_and]
  rw [e2]
  exact hasSuffix_append _ _

/-! ### Repeated runs -/

theorem renameStep_fresh (env : Env) (st : RnState) (f : GoString) (d : Bytes)
    (hread : st.fs.read (join invoicesDir f) = some d)
    (hne : join invoicesDir f ≠ numbered st.count)
    (hren : env.renameOk (join invoicesDir f) (numbered st.count) = true) :
    renameStep env st f =
      { fs := (st.fs.remove (join invoicesDir f)).write (numbered st.count) d,
        count := st.count + 1,
        trace := st.trace ++ [Event.rename (join invoicesDir f) (numbered st.count)] } := by
  unfold renameStep osRename
  simp only [join_newName, hread, hren, if_true, if_neg hne, Option.getD_some]

theorem renameFold_numbered (env : Env) (fs0 : FS) (n : Nat)
    (hn0 : ∀ i, numbered i ∈ fs0.paths → i < n)
    (todo : List GoString) (st : RnState)
    (hdist : (todo.map (join invoicesDir)).Nodup)
    (hplain : ∀ f ∈ todo, matchInvoicesPdf (join invoicesDir f) = true)
    (hnn : ∀ f ∈ todo, ∀ k, join invoicesDir f ≠ numbered k)
    (hren : ∀ f ∈ todo, ∀ k, env.renameOk (join invoicesDir f) (numbered k) = true)
    (hc : n ≤ st.count)
    (i1 : st.fs.paths.Nodup)
    (i2 : ∀ p, matchInvoicesPdf p = true →
      (p ∈ st.fs.paths ↔
        (∃ i, i < st.count ∧ p = numbered i) ∨ p ∈ todo.map (join invoicesDir)))
    (i3 : ∀ src dst, Event.rename src dst ∈ st.trace → dst ∉ fs0.paths) :
    Numbered (todo.foldl (renameStep env) st).fs (st.count + todo.length) ∧
      ∀ src dst, Event.rename src dst ∈ (todo.foldl (renameStep env) st).trace →
        dst ∉ fs0.paths := by
  induction todo generalizing st with
  | nil =>
    refine ⟨⟨i1, ?_⟩, i3⟩
    intro p hp
    simpa using i2 p hp
  | cons f rest ih =>
    have hf : f ∈ f :: rest := List.mem_cons_self _ _
    have hsrc : join invoicesDir f ∈ st.fs.paths :=
      (i2 _ (hplain f hf)).2 (Or.inr (by simp))
    obtain ⟨d, hd⟩ := read_isSome_of_mem st.fs _ hsrc
    have hstep := renameStep_fresh env st f d hd (hnn f hf _) (hren f hf _)
    simp only [List.map_cons, List.nodup_cons] at hdist
    simp only [List.foldl_cons, hstep]
    have key := ih
      { fs := (st.fs.remove (join invoicesDir f)).write (numbered st.count) d,
        count := st.count + 1,
        trace := st.trace ++ [Event.rename (join invoicesDir f) (numbered st.count)] }
      hdist.2
      (fun g hg => hplain g (List.mem_cons_of_mem _ hg))
      (fun g hg => hnn g (List.mem_cons_of_mem _ hg))
      (fun g hg => hren g (List.mem_cons_of_mem _ hg))
      (Nat.le_succ_of_le hc)
      (nodup_paths_write _ _ _ (nodup_paths_remove _ _ i1))
      (by
        intro p hp
        simp only [mem_paths_write, mem_paths_remove]
        have h2 := i2 p hp
        simp only [List.map_cons, List.mem_cons] at h2
        constructor
        · rintro (h | ⟨h, hne⟩)
          · exact Or.inl ⟨st.count, Nat.lt_succ_self _, h⟩
          · rcases h2.1 h with ⟨i, hi, e⟩ | h | h
            · exact Or.inl ⟨i, Nat.lt_succ_of_lt hi, e⟩
            · exact absurd h hne
            · exact Or.inr h
        · rintro (⟨i, hi, e⟩ | h)
          · by_cases hic : i = st.count
            · exact Or.inl (hic ▸ e)
            · refine Or.inr ⟨h2.2 (Or.inl ⟨i, by omega, e⟩), ?_⟩
              intro e2
              exact hnn f hf i (e2 ▸ e)
          · refine Or.inr ⟨h2.2 (Or.inr (Or.inr h)), ?_⟩
            intro e2
            exact hdist.1 (e2 ▸ h))
      (by
        intro src dst hmem
        simp only [List.mem_append, List.mem_singleton] at hmem
        rcases hmem with hmem | hmem
        · exact i3 src dst hmem
        · cases hmem
          intro hin
          have := hn0 _ hin
          omega)
    have e : st.count + 1 + rest.length = st.count + (f :: rest).length := by
      simp only [List.length_cons]; omega
    rw [e] at key
    exact key

theorem glob_length_of_numbered (fs : FS) (n : Nat) (h : Numbered fs n) :
    (glob fs).length = n := by
  obtain ⟨h1, h2⟩ := h
  have hnd : (glob fs).Nodup := h1.sublist (List.filter_sublist _)
  have hnd2 : ((List.range n).map numbered).Nodup :=
    (List.nodup_range n).map (fun i j e => numbered_injective i j e)
  have hperm : (glob fs).Perm ((List.range n).map numbered) := by
    rw [List.perm_ext_iff_of_nodup hnd hnd2]
    intro p
    simp only [glob, List.mem_filter, List.mem_map, List.mem_range]
    constructor
    · rintro ⟨hp, hm⟩
      obtain ⟨i, hi, e⟩ := (h2 p hm).1 hp
      exact ⟨i, hi, e.symm⟩
    · rintro ⟨i, hi, e⟩
      subst e
      exact ⟨(h2 _ (match_numbered i)).2 ⟨i, hi, rfl⟩, match_numbered i⟩
  rw [hperm.length_eq]
  simp

/-- One run from a numbered directory: the counter starts at the number of PDFs, no
rename targets a file that was there before the run, and the directory is numbered
again afterwards. -/
theorem run_keeps_numbered (env : Env) (before : FS) (n : Nat) (r : Run)
    (hb : Numbered before n) (ha : FreshAcquisition env before r.acquired r.pdfFiles) :
    Numbered (r.rename env before).fs (n + r.pdfFiles.length) ∧
      ∀ src dst, Event.rename src dst ∈ (r.rename env before).trace → dst ∉ before.paths := by
  unfold Run.rename renameLoop
  rw [glob_length_of_numbered before n hb]
  refine renameFold_numbered env before n ?_ r.pdfFiles
    { fs := r.acquired, count := n, trace := [] }
    ha.distinct ha.plainPdf ha.notNumbered ha.renames (Nat.le_refl n) ha.pathsNodup ?_ ?_
  · intro i hi
    obtain ⟨j, hj, e⟩ := (hb.2 _ (match_numbered i)).1 hi
    rw [numbered_injective i j e]
    exact hj
  · intro p hp
    rw [ha.pdfs p hp, hb.2 p hp]
  · intro src dst hmem
    cases hmem

theorem runs_keep_numbered (env : Env) (runs : List Run) (fs : FS) (n : Nat)
    (hn : Numbered fs n) (hfresh : FreshRuns env fs runs) : NoCollision env fs runs := by
  induction runs generalizing fs n with
  | nil => exact True.intro
  | cons r rest ih =>
    obtain ⟨h1, h2⟩ := hfresh
    obtain ⟨k1, k2⟩ := run_keeps_numbered env fs n r hn h1
    exact ⟨k2, ih _ _ k1 h2⟩

theorem join_ne_numbered (f : GoString) (c : Char) (k : Nat) (hp : plainName f)
    (hc : f.head? = some c) (hd : c.isDigit = false) : join invoicesDir f ≠ numbered k := by
  rw [join_plain f hp]
  intro e
  have e1 : invoicesDir ++ '/' :: f = "Invoices/".toList ++ f := by simp [invoicesDir]
  have e2 : numbered k = "Invoices/".toList ++ (itoa k ++ " ? ? ?.pdf".toList) := by
    simp [numbered]
  rw [e1, e2] at e
  have e3 := List.append_cancel_left e
  cases hk : itoa k with
  | nil => exact itoa_ne_nil k hk
  | cons x xs =>
    have hx : x.isDigit = true := itoa_isDigit k x (by rw [hk]; exact List.mem_cons_self _ _)
    rw [e3, hk] at hc
    simp only [List.cons_append, List.head?_cons, Option.some.injEq] at hc
    rw [hc] at hx
    rw [hx] at hd
    cases hd

/-- C5 fails as stated.  A first run in an empty directory acquires `a.pdf` twice (two
messages with the same attachment filename) and `b.pdf`: the second rename of `a.pdf`
fails, the counter still goes up, and the run leaves `0 ? ? ?.pdf` and `2 ? ? ?.pdf`.
The second run counts two PDFs, acquires `c.pdf` and renames it to `2 ? ? ?.pdf`, over
the file the first run named. -/
theorem later_run_overwrites_numbered_file :
    (pipeline
        (sampleEnv ["1", "2", "3"] (fun i => if i = "3" then some ["b.pdf"] else some ["a.pdf"])
          [])
        [] "inv".toList sampleDate sampleDate).map (fun r => r.fs) =
      Except.ok [("Invoices/0 ? ? ?.pdf".toList, [97, 46, 112, 100, 102]),
                 ("Invoices/2 ? ? ?.pdf".toList, [98, 46, 112, 100, 102])] ∧
    pipeline (sampleEnv ["4"] (fun _ => some ["c.pdf"]) [])
        [("Invoices/0 ? ? ?.pdf".toList, [97, 46, 112, 100, 102]),
         ("Invoices/2 ? ? ?.pdf".toList, [98, 46, 112, 100, 102])]
        "inv".toList sampleDate sampleDate =
      Except.ok
        { fs := [("Invoices/0 ? ? ?.pdf".toList, [97, 46, 112, 100, 102]),
                 ("Invoices/2 ? ? ?.pdf".toList, [99, 46, 112, 100, 102])]
          trace := [Event.list "label:inv has:attachment after:2024/3/9 before:2024/3/9".toList,
                    Event.get "4".toList,
                    Event.attachment "4".toList "c.pdf".toList,
                    Event.writeFile "Invoices/c.pdf".toList [99, 46, 112, 100, 102],
                    Event.rename "Invoices/c.pdf".toList "Invoices/2 ? ? ?.pdf".toList] } := by
  constructor <;> rfl

/-- C5, amended: from a working directory that holds no PDFs, in every sequence of runs
in which each run acquires its files without interference (the acquired PDF filenames
are pairwise different names of files directly in `Invoices/`, none of the form
`<k> ? ? ?.pdf`, the directory holds them next to the earlier PDFs, and no rename is
refused), no rename of any run targets a path that held a file when that run started;
in particular none targets a file an earlier run named. -/
theorem repeated_runs_do_not_collide (env : Env) (fs : FS) (runs : List Run)
    (hnodup : fs.paths.Nodup) (hempty : glob fs = [])
    (hfresh : FreshRuns env fs runs) : NoCollision env fs runs := by
  refine runs_keep_numbered env runs fs 0 ⟨hnodup, ?_⟩ hfresh
  intro p hp
  constructor
  · intro hmem
    have : p ∈ glob fs := List.mem_filter.2 ⟨hmem, hp⟩
    rw [hempty] at this
    cases this
  · rintro ⟨i, hi, _⟩
    omega

/-- C5, an instance: a first run acquires `a.pdf` and `b.pdf`, a second run `c.pdf`. -/
theorem repeated_runs_do_not_collide_witness :
    FreshRuns (sampleEnv [] (fun _ => none) []) [] [sampleRun1, sampleRun2] ∧
      NoCollision (sampleEnv [] (fun _ => none) []) [] [sampleRun1, sampleRun2] ∧
      (sampleRun2.rename (sampleEnv [] (fun _ => none) [])
          (sampleRun1.rename (sampleEnv [] (fun _ => none) []) []).fs).fs =
        [("Invoices/0 ? ? ?.pdf".toList, [1]), ("Invoices/1 ? ? ?.pdf".toList, [2]),
         ("Invoices/2 ? ? ?.pdf".toList, [3])] := by
  have hnn : ∀ f ∈ ["a.pdf".toList, "b.pdf".toList, "c.pdf".toList], ∀ k,
      join invoicesDir f ≠ numbered k := by
    intro f hf k
    simp only [List.mem_cons, List.mem_singleton, List.not_mem_nil, or_false] at hf
    rcases hf with hf | hf | hf <;> subst hf
    · exact join_ne_numbered _ 'a' k ⟨by decide, by decide, by decide, by decide⟩ rfl (by decide)
    · exact join_ne_numbered _ 'b' k ⟨by decide, by decide, by decide, by decide⟩ rfl (by decide)
    · exact join_ne_numbered _ 'c' k ⟨by decide, by decide, by decide, by decide⟩ rfl (by decide)
  have h1 : FreshAcquisition (sampleEnv [] (fun _ => none) []) [] sampleRun1.acquired
      sampleRun1.pdfFiles :=
    { pathsNodup := by decide
      pdfs := by
        intro p _
        show p ∈ ["Invoices/a.pdf".toList, "Invoices/b.pdf".toList] ↔
          p ∈ ([] : List GoString) ∨ p ∈ ["Invoices/a.pdf".toList, "Invoices/b.pdf".toList]
        simp
      distinct := by decide
      plainPdf := by decide
      notNumbered := fun f hf k => hnn f (by
        simp only [sampleRun1, List.mem_cons, List.mem_singleton, List.not_mem_nil,
          or_false] at hf ⊢
        rcases hf with hf | hf
        · exact Or.inl hf
        · exact Or.inr (Or.inl hf)) k
      renames := fun _ _ _ => rfl }
  have h2 : FreshAcquisition (sampleEnv [] (fun _ => none) [])
      (sampleRun1.rename (sampleEnv [] (fun _ => none) []) []).fs sampleRun2.acquired
      sampleRun2.pdfFiles :=
    { pathsNodup := by decide
      pdfs := by
        intro p _
        show p ∈ ["Invoices/0 ? ? ?.pdf".toList, "Invoices/1 ? ? ?.pdf".toList] ++
            ["Invoices/c.pdf".toList] ↔
          p ∈ ["Invoices/0 ? ? ?.pdf".toList, "Invoices/1 ? ? ?.pdf".toList] ∨
            p ∈ ["Invoices/c.pdf".toList]
        exact List.mem_append
      distinct := by decide
      plainPdf := by decide
      notNumbered := fun f hf k => hnn f (by
        simp only [sampleRun2, List.mem_singleton] at hf
        simp [hf]) k
      renames := fun _ _ _ => rfl }
  exact ⟨⟨h1, h2, True.intro⟩,
    repeated_runs_do_not_collide (sampleEnv [] (fun _ => none) []) [] [sampleRun1, sampleRun2]
      (by decide) rfl ⟨h1, h2, True.intro⟩,
    by rfl⟩

/-! ### The two defects of `downloadAttachments`, in general -/

/-- Recording a filename that ends in `.zip` and not in `.pdf` makes the ZIP list the
PDF list followed by that filename, whatever the ZIP list held before. -/
theorem record_zip_appends_to_pdf_list (env : Env) (st : DlState) (f : GoString)
    (hz : hasSuffix f dotZip = true) (hp : hasSuffix f dotPdf = false)
    (hw : st.pdfFiles.WF st.heap) :
    (record env st f).zipFiles.view (record env st f).heap = st.pdfFiles.view st.heap ++ [f] ∧
      (record env st f).pdfFiles.view (record env st f).heap = st.pdfFiles.view st.heap := by
  unfold record
  simp only [hz, hp, Bool.false_eq_true, if_false, if_true]
  exact ⟨goAppend_view _ _ _ _ hw, goAppend_view_self _ _ _ _ hw⟩

/-- A message whose fetch fails ends the run with a fault. -/
theorem processMessage_fetch_error (env : Env) (st : DlState) (m : GoString)
    (h : env.messagesGet m = none) :
    processMessage env st m = Except.error Fault.nilDereference := by
  simp [processMessage, h]

/-! ### The path functions on known values -/

/-- Values of `filepath.Clean`, `filepath.Join` and `filepath.Dir` from the Go
documentation and tests. -/
theorem path_examples :
    clean "abc//def//ghi".toList = "abc/def/ghi".toList ∧
      clean "abc/./def".toList = "abc/def".toList ∧
      clean "abc/def/../ghi/../jkl".toList = "abc/jkl".toList ∧
      clean "abc/def/../../..".toList = "..".toList ∧
      clean "/abc/def/../../..".toList = "/".toList ∧
      clean "abc/def/../../../ghi/jkl/../../../mno".toList = "../../mno".toList ∧
      clean "".toList = ".".toList ∧
      clean "/../abc".toList = "/abc".toList ∧
      join "a".toList "b/../c".toList = "a/c".toList ∧
      join "a".toList "".toList = "a".toList ∧
      join "".toList "a".toList = "a".toList ∧
      join "a".toList "../../b".toList = "../b".toList ∧
      dir "/foo/bar/baz.js".toList = "/foo/bar".toList ∧
      dir "dev.txt".toList = ".".toList ∧
      dir "/".toList = "/".toList ∧
      dir "foo/".toList = "foo".toList := by
  decide

/-! ### `extractArchive`: one entry -/

theorem write_write (fs : FS) (p : GoString) (d e : Bytes) :
    (fs.write p d).write p e = fs.write p e := by
  unfold FS.write FS.remove
  simp [List.filter_append, List.filter_filter]

theorem extractFile_not_pdf (env : Env) (zf : GoString) (a : Bytes) (st : ExState) (f : ZipFile)
    (h : hasSuffix f.name dotPdf = false) : extractFile env zf a st f = st := by
  simp [extractFile, h]

/-- A round of the loop over the entries changes no file but the destination of the
entry. -/
theorem extractFile_frame (env : Env) (zf : GoString) (a : Bytes) (st : ExState) (f : ZipFile)
    (q : GoString) (hq : q ≠ join (dir zf) f.name) :
    (extractFile env zf a st f).fs.read q = st.fs.read q := by
  unfold extractFile
  dsimp only
  split
  · split
    · split
      · split
        · split
          · simp only [read_write, if_neg hq]
          · simp only [read_write, if_neg hq]
        · simp only [read_write, if_neg hq]
      · rfl
    · rfl
  · rfl

/-- A round of the loop over the entries that runs without error, the archive being
intact, leaves the bytes of the entry at its destination and records its name. -/
theorem extractFile_ok (env : Env) (zf : GoString) (a : Bytes) (st : ExState) (f : ZipFile)
    (h : hasSuffix f.name dotPdf = true) (h1 : f.openOk = true) (h2 : f.copyOk = true)
    (h3 : env.createOk (join (dir zf) f.name) = true)
    (hi : st.fs.read zf = some a) (hne : join (dir zf) f.name ≠ zf) :
    (extractFile env zf a st f).fs.read (join (dir zf) f.name) = some f.content ∧
      (extractFile env zf a st f).pdfFiles = st.pdfFiles ++ [f.name] := by
  have hi2 : (st.fs.write (join (dir zf) f.name) []).read zf = some a := by
    rw [read_write, if_neg (Ne.symm hne), hi]
  unfold extractFile
  simp only [h, h1, h2, h3, hi, hi2, decide_True, Bool.and_self, if_true, read_write,
    and_self]

/-! ### `extractArchive`: the entries of one archive -/

theorem extractFiles_pdfEntries (env : Env) (zf : GoString) (a : Bytes) (files : List ZipFile)
    (st : ExState) :
    files.foldl (extractFile env zf a) st = (pdfEntries files).foldl (extractFile env zf a) st := by
  induction files generalizing st with
  | nil => rfl
  | cons f fs ih =>
    unfold pdfEntries
    by_cases h : hasSuffix f.name dotPdf = true
    · simp only [List.foldl_cons, List.filter_cons, h, if_true]
      exact ih _
    · have h' : hasSuffix f.name dotPdf = false := by simpa using h
      simp only [List.foldl_cons, List.filter_cons, h', Bool.false_eq_true, if_false,
        extractFile_not_pdf env zf a st f h']
      exact ih _

theorem extractFiles_frame (env : Env) (zf : GoString) (a : Bytes) (files : List ZipFile)
    (st : ExState) (q : GoString) (hq : ∀ g ∈ files, join (dir zf) g.name ≠ q) :
    (files.foldl (extractFile env zf a) st).fs.read q = st.fs.read q := by
  induction files generalizing st with
  | nil => rfl
  | cons f fs ih =>
    simp only [List.foldl_cons]
    rw [ih _ (fun g hg => hq g (List.mem_cons_of_mem _ hg)),
      extractFile_frame env zf a st f q (Ne.symm (hq f (List.mem_cons_self _ _)))]

theorem extractFiles_stable (env : Env) (zf : GoString) (a : Bytes) (files : List ZipFile)
    (st : ExState) (q : GoString) (c : Bytes)
    (hpdf : ∀ g ∈ files, hasSuffix g.name dotPdf = true)
    (hi : st.fs.read zf = some a) (hne : ∀ g ∈ files, join (dir zf) g.name ≠ zf)
    (hq : st.fs.read q = some c)
    (hag : ∀ g ∈ files, join (dir zf) g.name = q →
      g.openOk = true ∧ g.copyOk = true ∧ env.createOk q = true ∧ g.content = c) :
    (files.foldl (extractFile env zf a) st).fs.read q = some c := by
  induction files generalizing st with
  | nil => exact hq
  | cons f fs ih =>
    have hf : f ∈ f :: fs := List.mem_cons_self _ _
    simp only [List.foldl_cons]
    refine ih _ (fun g hg => hpdf g (List.mem_cons_of_mem _ hg)) ?_
      (fun g hg => hne g (List.mem_cons_of_mem _ hg)) ?_
      (fun g hg => hag g (List.mem_cons_of_mem _ hg))
    · rw [extractFile_frame env zf a st f zf (Ne.symm (hne f hf)), hi]
    · by_cases hd : join (dir zf) f.name = q
      · obtain ⟨o1, o2, o3, o4⟩ := hag f hf hd
        have := (extractFile_ok env zf a st f (hpdf f hf) o1 o2 (hd ▸ o3) hi (hne f hf)).1
        rw [hd, o4] at this
        exact this
      · rw [extractFile_frame env zf a st f q (Ne.symm hd), hq]

theorem extractFiles_writes (env : Env) (zf : GoString) (a : Bytes) (files : List ZipFile)
    (st : ExState) (f : ZipFile) (hf : f ∈ files)
    (hpdf : ∀ g ∈ files, hasSuffix g.name dotPdf = true)
    (hi : st.fs.read zf = some a) (hne : ∀ g ∈ files, join (dir zf) g.name ≠ zf)
    (hag : ∀ g ∈ files, join (dir zf) g.name = join (dir zf) f.name →
      g.openOk = true ∧ g.copyOk = true ∧ env.createOk (join (dir zf) f.name) = true ∧
        g.content = f.content) :
    (files.foldl (extractFile env zf a) st).fs.read (join (dir zf) f.name) = some f.content := by
  induction files generalizing st with
  | nil => cases hf
  | cons g gs ih =>
    have hg : g ∈ g :: gs := List.mem_cons_self _ _
    have hi2 : (extractFile env zf a st g).fs.read zf = some a := by
      rw [extractFile_frame env zf a st g zf (Ne.symm (hne g hg)), hi]
    simp only [List.foldl_cons]
    rcases List.mem_cons.1 hf with hfg | hfg
    · subst hfg
      obtain ⟨o1, o2, o3, _⟩ := hag f hg rfl
      exact extractFiles_stable env zf a gs _ _ _
        (fun x hx => hpdf x (List.mem_cons_of_mem _ hx)) hi2
        (fun x hx => hne x (List.mem_cons_of_mem _ hx))
        (extractFile_ok env zf a st f (hpdf f hg) o1 o2 o3 hi (hne f hg)).1
        (fun x hx => hag x (List.mem_cons_of_mem _ hx))
    · exact ih _ hfg (fun x hx => hpdf x (List.mem_cons_of_mem _ hx)) hi2
        (fun x hx => hne x (List.mem_cons_of_mem _ hx))
        (fun x hx => hag x (List.mem_cons_of_mem _ hx))

theorem extractFiles_names (env : Env) (zf : GoString) (a : Bytes) (files : List ZipFile)
    (st : ExState) (hpdf : ∀ g ∈ files, hasSuffix g.name dotPdf = true)
    (hi : st.fs.read zf = some a) (hne : ∀ g ∈ files, join (dir zf) g.name ≠ zf)
    (hok : ∀ g ∈ files, g.openOk = true ∧ g.copyOk = true ∧
      env.createOk (join (dir zf) g.name) = true) :
    (files.foldl (extractFile env zf a) st).pdfFiles =
      st.pdfFiles ++ files.map (fun g => g.name) := by
  induction files generalizing st with
  | nil => simp
  | cons g gs ih =>
    have hg : g ∈ g :: gs := List.mem_cons_self _ _
    obtain ⟨o1, o2, o3⟩ := hok g hg
    simp only [List.foldl_cons]
    rw [ih _ (fun x hx => hpdf x (List.mem_cons_of_mem _ hx))
      (by rw [extractFile_frame env zf a st g zf (Ne.symm (hne g hg)), hi])
      (fun x hx => hne x (List.mem_cons_of_mem _ hx))
      (fun x hx => hok x (List.mem_cons_of_mem _ hx)),
      (extractFile_ok env zf a st g (hpdf g hg) o1 o2 o3 hi (hne g hg)).2]
    simp

/-! ### `extractArchive`: one archive -/

theorem archivePdfs_of_open (env : Env) (fs : FS) (z : GoString) (files : List ZipFile)
    (h : archiveFiles env fs z = some files) : archivePdfs env fs z = pdfEntries files := by
  simp [archivePdfs, h]

theorem archivePdfs_of_closed (env : Env) (fs : FS) (z : GoString)
    (h : archiveFiles env fs z = none) : archivePdfs env fs z = [] := by
  simp [archivePdfs, h, pdfEntries]

theorem archiveFiles_ne_none_of_mem (env : Env) (fs : FS) (z : GoString) (f : ZipFile)
    (h : f ∈ archivePdfs env fs z) : archiveFiles env fs z ≠ none := by
  intro hn
  rw [archivePdfs_of_closed env fs z hn] at h
  cases h

theorem mem_pdfEntries (files : List ZipFile) (g : ZipFile) (h : g ∈ pdfEntries files) :
    hasSuffix g.name dotPdf = true := (List.mem_filter.1 h).2

theorem extractOne_closed (env : Env) (st : ExState) (z : GoString)
    (h : archiveFiles env st.fs z = none) :
    (extractOne env st z).pdfFiles = st.pdfFiles ∧ (extractOne env st z).fs = st.fs := by
  unfold archiveFiles at h
  unfold extractOne
  dsimp only
  cases hr : st.fs.read (join invoicesDir z) with
  | none => exact ⟨rfl, rfl⟩
  | some a =>
    rw [hr] at h
    simp only [Option.bind] at h
    simp [h]

/-- The state after an archive that opens: the entries are gone through and the
archive is removed when the system allows it. -/
theorem extractOne_open (env : Env) (st : ExState) (z : GoString) (files : List ZipFile)
    (h : archiveFiles env st.fs z = some files) :
    ∃ a, st.fs.read (join invoicesDir z) = some a ∧
      (extractOne env st z).pdfFiles =
        ((pdfEntries files).foldl (extractFile env (join invoicesDir z) a)
          { st with trace := st.trace ++ [Event.openReader (join invoicesDir z)] }).pdfFiles ∧
      (extractOne env st z).fs =
        if env.removeOk (join invoicesDir z) = true then
          ((pdfEntries files).foldl (extractFile env (join invoicesDir z) a)
            { st with trace := st.trace ++ [Event.openReader (join invoicesDir z)] }).fs.remove
            (join invoicesDir z)
        else
          ((pdfEntries files).foldl (extractFile env (join invoicesDir z) a)
            { st with trace := st.trace ++ [Event.openReader (join invoicesDir z)] }).fs := by
  unfold archiveFiles at h
  cases hr : st.fs.read (join invoicesDir z) with
  | none => rw [hr] at h; cases h
  | some a =>
    rw [hr] at h
    simp only [Option.bind] at h
    refine ⟨a, rfl, ?_⟩
    unfold extractOne
    dsimp only
    simp only [hr, h]
    rw [extractFiles_pdfEntries]
    split <;> exact ⟨rfl, rfl⟩

theorem extractOne_frame (env : Env) (st : ExState) (z q : GoString)
    (hq : ∀ g ∈ archivePdfs env st.fs z, entryDest z g.name ≠ q)
    (hz : archiveFiles env st.fs z ≠ none → q ≠ join invoicesDir z) :
    (extractOne env st z).fs.read q = st.fs.read q := by
  cases h : archiveFiles env st.fs z with
  | none => rw [(extractOne_closed env st z h).2]
  | some files =>
    rw [archivePdfs_of_open env st.fs z files h] at hq
    obtain ⟨a, _, _, e⟩ := extractOne_open env st z files h
    have hf := extractFiles_frame env (join invoicesDir z) a (pdfEntries files)
      { st with trace := st.trace ++ [Event.openReader (join invoicesDir z)] } q hq
    rw [e]
    split
    · rw [read_remove, if_neg (hz (by simp [h])), hf]
    · rw [hf]

theorem extractOne_archive (env : Env) (st : ExState) (z : GoString)
    (hne : ∀ g ∈ archivePdfs env st.fs z, entryDest z g.name ≠ join invoicesDir z) :
    ((extractOne env st z).fs.read (join invoicesDir z) = none ∨
        (extractOne env st z).fs.read (join invoicesDir z) = st.fs.read (join invoicesDir z)) ∧
      (archiveFiles env st.fs z ≠ none → env.removeOk (join invoicesDir z) = true →
        (extractOne env st z).fs.read (join invoicesDir z) = none) := by
  cases h : archiveFiles env st.fs z with
  | none =>
    rw [(extractOne_closed env st z h).2]
    exact ⟨Or.inr rfl, fun hn => absurd rfl hn⟩
  | some files =>
    rw [archivePdfs_of_open env st.fs z files h] at hne
    obtain ⟨a, _, _, e⟩ := extractOne_open env st z files h
    have hf := extractFiles_frame env (join invoicesDir z) a (pdfEntries files)
      { st with trace := st.trace ++ [Event.openReader (join invoicesDir z)] }
      (join invoicesDir z) hne
    rw [e]
    constructor
    · split
      · exact Or.inl (by rw [read_remove, if_pos rfl])
      · exact Or.inr hf
    · intro _ hrm
      rw [if_pos hrm, read_remove, if_pos rfl]

theorem extractOne_stable (env : Env) (st : ExState) (z q : GoString) (c : Bytes)
    (hne : ∀ g ∈ archivePdfs env st.fs z, entryDest z g.name ≠ join invoicesDir z)
    (hq : st.fs.read q = some c)
    (hz : archiveFiles env st.fs z ≠ none → q ≠ join invoicesDir z)
    (hag : ∀ g ∈ archivePdfs env st.fs z, entryDest z g.name = q →
      g.openOk = true ∧ g.copyOk = true ∧ env.createOk q = true ∧ g.content = c) :
    (extractOne env st z).fs.read q = some c := by
  cases h : archiveFiles env st.fs z with
  | none => rw [(extractOne_closed env st z h).2, hq]
  | some files =>
    rw [archivePdfs_of_open env st.fs z files h] at hne hag
    obtain ⟨a, ha, _, e⟩ := extractOne_open env st z files h
    have hf := extractFiles_stable env (join invoicesDir z) a (pdfEntries files)
      { st with trace := st.trace ++ [Event.openReader (join invoicesDir z)] } q c
      (mem_pdfEntries files) ha hne hq hag
    rw [e]
    split
    · rw [read_remove, if_neg (hz (by simp [h])), hf]
    · exact hf

theorem extractOne_writes (env : Env) (st : ExState) (z : GoString) (f : ZipFile)
    (hf : f ∈ archivePdfs env st.fs z)
    (hne : ∀ g ∈ archivePdfs env st.fs z, entryDest z g.name ≠ join invoicesDir z)
    (hag : ∀ g ∈ archivePdfs env st.fs z, entryDest z g.name = entryDest z f.name →
      g.openOk = true ∧ g.copyOk = true ∧ env.createOk (entryDest z f.name) = true ∧
        g.content = f.content) :
    (extractOne env st z).fs.read (entryDest z f.name) = some f.content := by
  cases h : archiveFiles env st.fs z with
  | none => rw [archivePdfs_of_closed env st.fs z h] at hf; cases hf
  | some files =>
    rw [archivePdfs_of_open env st.fs z files h] at hne hag hf
    obtain ⟨a, ha, _, e⟩ := extractOne_open env st z files h
    have hw := extractFiles_writes env (join invoicesDir z) a (pdfEntries files)
      { st with trace := st.trace ++ [Event.openReader (join invoicesDir z)] } f hf
      (mem_pdfEntries files) ha hne hag
    rw [e]
    split
    · rw [read_remove, if_neg (hne f hf)]
      exact hw
    · exact hw

theorem extractOne_names (env : Env) (st : ExState) (z : GoString)
    (hne : ∀ g ∈ archivePdfs env st.fs z, entryDest z g.name ≠ join invoicesDir z)
    (hok : ∀ g ∈ archivePdfs env st.fs z, g.openOk = true ∧ g.copyOk = true ∧
      env.createOk (entryDest z g.name) = true) :
    (extractOne env st z).pdfFiles =
      st.pdfFiles ++ (archivePdfs env st.fs z).map (fun g => g.name) := by
  cases h : archiveFiles env st.fs z with
  | none =>
    rw [(extractOne_closed env st z h).1, archivePdfs_of_closed env st.fs z h]
    simp
  | some files =>
    rw [archivePdfs_of_open env st.fs z files h] at hne hok ⊢
    obtain ⟨a, ha, e, _⟩ := extractOne_open env st z files h
    rw [e]
    exact extractFiles_names env (join invoicesDir z) a (pdfEntries files)
      { st with trace := st.trace ++ [Event.openReader (join invoicesDir z)] }
      (mem_pdfEntries files) ha hne hok

/-! ### Runs that fault -/

theorem partsUntilFault_outcome (env : Env) (m : GoString) (ps : List MessagePart)
    (st : DlState) : outcome (partsUntilFault env m st ps) = processParts env m st ps := by
  induction ps generalizing st with
  | nil => rfl
  | cons p ps ih =>
    simp only [partsUntilFault, processParts]
    cases processPart env m st p with
    | error e => rfl
    | ok st1 => exact ih st1

theorem messagesUntilFault_outcome (env : Env) (ms : List GoString) (st : DlState) :
    outcome (messagesUntilFault env st ms) = processMessages env st ms := by
  induction ms generalizing st with
  | nil => rfl
  | cons m ms ih =>
    simp only [messagesUntilFault, processMessages, processMessage]
    cases env.messagesGet m with
    | none => rfl
    | some msg =>
      obtain ⟨payload⟩ := msg
      cases payload with
      | none => rfl
      | some parts =>
        dsimp only
        have h := partsUntilFault_outcome env m parts
          { st with trace := st.trace ++ [Event.get m] }
        revert h
        cases hp : partsUntilFault env m { st with trace := st.trace ++ [Event.get m] } parts with
        | mk st2 o =>
          cases o with
          | none =>
            intro h
            simp only [outcome] at h
            rw [← h]
            exact ih st2
          | some e =>
            intro h
            simp only [outcome] at h
            rw [← h]
            rfl

/-- The run with its last state returns what `downloadAttachments` returns and faults
as it faults. -/
theorem downloadUntilFault_outcome (env : Env) (fs : FS) (label : GoString)
    (dateStr dateEnd : Date) :
    downloadAttachments env fs label dateStr dateEnd =
      match outcome (downloadUntilFault env fs label dateStr dateEnd) with
      | Except.error e => Except.error e
      | Except.ok st => Except.ok st.result := by
  unfold downloadAttachments downloadUntilFault
  dsimp only
  cases env.messagesList (searchQuery label dateStr dateEnd) with
  | none => rfl
  | some ms =>
    dsimp only
    rw [messagesUntilFault_outcome]

theorem partsUntilFault_trace (env : Env) (m : GoString) (ps : List MessagePart)
    (st : DlState) :
    ∃ t, (partsUntilFault env m st ps).1.trace = st.trace ++ t ∧ ∀ q, Event.list q ∉ t := by
  induction ps generalizing st with
  | nil => exact ⟨[], by simp [partsUntilFault], by simp⟩
  | cons p ps ih =>
    simp only [partsUntilFault]
    cases hp : processPart env m st p with
    | error e => exact ⟨[], by simp, by simp⟩
    | ok st1 =>
      obtain ⟨t1, e1, n1⟩ := processPart_trace env m st st1 p hp
      obtain ⟨t2, e2, n2⟩ := ih st1
      refine ⟨t1 ++ t2, by rw [e2, e1, List.append_assoc], ?_⟩
      intro q hq
      rcases List.mem_append.1 hq with hq | hq
      · exact n1 q hq
      · exact n2 q hq

theorem messagesUntilFault_trace (env : Env) (ms : List GoString) (st : DlState) :
    ∃ t, (messagesUntilFault env st ms).1.trace = st.trace ++ t ∧ ∀ q, Event.list q ∉ t := by
  induction ms generalizing st with
  | nil => exact ⟨[], by simp [messagesUntilFault], by simp⟩
  | cons m ms ih =>
    have one : ∀ q, Event.list q ∉ [Event.get m] := by
      intro q hq
      simp at hq
    simp only [messagesUntilFault]
    cases env.messagesGet m with
    | none => exact ⟨[Event.get m], rfl, one⟩
    | some msg =>
      obtain ⟨payload⟩ := msg
      cases payload with
      | none => exact ⟨[Event.get m], rfl, one⟩
      | some parts =>
        dsimp only
        obtain ⟨t1, e1, n1⟩ := partsUntilFault_trace env m parts
          { st with trace := st.trace ++ [Event.get m] }
        revert e1
        cases hp : partsUntilFault env m { st with trace := st.trace ++ [Event.get m] } parts with
        | mk st2 o =>
          intro e1
          simp only at e1
          have hcomb : ∀ q, Event.list q ∉ Event.get m :: t1 := by
            intro q hq
            rcases List.mem_cons.1 hq with hq | hq
            · cases hq
            · exact n1 q hq
          cases o with
          | some e => exact ⟨Event.get m :: t1, by simp [e1], hcomb⟩
          | none =>
            obtain ⟨t2, e2, n2⟩ := ih st2
            refine ⟨Event.get m :: t1 ++ t2, by rw [e2, e1]; simp, ?_⟩
            intro q hq
            rcases List.mem_append.1 hq with hq | hq
            · exact hcomb q hq
            · exact n2 q hq

/-! ### The numerals of `strconv.Itoa` and `%d` -/

theorem digitChar_ne_zero : ∀ k, k < 10 → 0 < k → Nat.digitChar k ≠ '0' := by decide

theorem toDigitsCore_ne_nil (fuel n : Nat) : Nat.toDigitsCore 10 (fuel + 1) n [] ≠ [] := by
  simp only [Nat.toDigitsCore]
  split
  · simp
  · rw [toDigitsCore_append]
    simp

theorem toDigitsCore_head (fuel n : Nat) (h : n < fuel) (hn : 0 < n) :
    (Nat.toDigitsCore 10 fuel n []).head? ≠ some '0' := by
  induction fuel generalizing n with
  | zero => omega
  | succ fuel ih =>
    simp only [Nat.toDigitsCore]
    split
    · next h0 =>
      have hlt : n < 10 := by omega
      have hmod : n % 10 = n := Nat.mod_eq_of_lt hlt
      rw [hmod]
      simp only [List.head?_cons, ne_eq, Option.some.injEq]
      exact digitChar_ne_zero n hlt hn
    · next h0 =>
      rw [toDigitsCore_append]
      have hpos : 0 < n / 10 := Nat.pos_of_ne_zero h0
      have hlt : n / 10 < fuel := by omega
      have hne : Nat.toDigitsCore 10 fuel (n / 10) [] ≠ [] := by
        cases fuel with
        | zero => omega
        | succ f => exact toDigitsCore_ne_nil f (n / 10)
      have hh := ih (n / 10) hlt hpos
      cases hl : Nat.toDigitsCore 10 fuel (n / 10) [] with
      | nil => exact absurd hl hne
      | cons c cs =>
        rw [hl] at hh
        simpa using hh

/-- The string `strconv.Itoa` makes is the unpadded decimal numeral of its operand. -/
theorem itoa_isNumeral (n : Nat) : IsNumeral (itoa n) n := by
  refine ⟨itoa_ne_nil n, itoa_isDigit n, atoi_itoa n, ?_⟩
  intro h
  by_cases hn : n = 0
  · subst hn
    decide
  · exact absurd h (toDigitsCore_head (n + 1) n (Nat.lt_succ_self n) (Nat.pos_of_ne_zero hn))

/-- The string `%d` prints is the unpadded decimal numeral of its operand. -/
theorem itoaInt_isIntNumeral (i : Int) : IsIntNumeral (itoaInt i) i := by
  cases i with
  | ofNat n => exact itoa_isNumeral n
  | negSucc n => exact ⟨itoa (n + 1), rfl, itoa_isNumeral (n + 1)⟩

/-! ### The listing call -/

theorem processParts_withListing (env : Env) (l : GoString → Option (List GoString))
    (m : GoString) (ps : List MessagePart) (st : DlState) :
    processParts (env.withListing l) m st ps = processParts env m st ps := by
  induction ps generalizing st with
  | nil => rfl
  | cons p ps ih =>
    have hp : processPart (env.withListing l) m st p = processPart env m st p := rfl
    simp only [processParts, hp]
    cases processPart env m st p with
    | error e => rfl
    | ok st1 => exact ih st1

theorem processMessages_withListing (env : Env) (l : GoString → Option (List GoString))
    (ms : List GoString) (st : DlState) :
    processMessages (env.withListing l) st ms = processMessages env st ms := by
  induction ms generalizing st with
  | nil => rfl
  | cons m ms ih =>
    have hm : processMessage (env.withListing l) st m = processMessage env st m := by
      unfold processMessage
      show (match env.messagesGet m with | none => _ | some message => _) = _
      cases env.messagesGet m with
      | none => rfl
      | some msg =>
        obtain ⟨payload⟩ := msg
        cases payload with
        | none => rfl
        | some parts => exact processParts_withListing env l m parts _
    simp only [processMessages, hm]
    cases processMessage env st m with
    | error e => rfl
    | ok st1 => exact ih st1

/-- C9: the search expression is `label:<label> has:attachment after:<Y1>/<M1>/<D1>
before:<Y2>/<M2>/<D2>` with the label verbatim, `Y1`, `M1`, `D1` the unpadded decimal
numerals of the year, month number and day of the start date and `Y2`, `M2`, `D2`
those of the end date.  It is what `downloadAttachments` sends: in every run, also one
that faults, the listing call on that expression is the first action and the only
listing; the outcome depends on the listing call only through its answer to that
expression; an error of it is fatal. -/
theorem search_expression_sent (env : Env) (fs : FS) (label : GoString) (dateStr dateEnd : Date) :
    (∃ y1 m1 d1 y2 m2 d2 : GoString,
        IsIntNumeral y1 dateStr.year ∧ IsNumeral m1 dateStr.month ∧ IsNumeral d1 dateStr.day ∧
        IsIntNumeral y2 dateEnd.year ∧ IsNumeral m2 dateEnd.month ∧ IsNumeral d2 dateEnd.day ∧
        searchQuery label dateStr dateEnd =
          "label:".toList ++ label ++ " has:attachment after:".toList ++
            y1 ++ "/".toList ++ m1 ++ "/".toList ++ d1 ++ " before:".toList ++
            y2 ++ "/".toList ++ m2 ++ "/".toList ++ d2) ∧
      (∃ t, (downloadUntilFault env fs label dateStr dateEnd).1.trace =
          Event.list (searchQuery label dateStr dateEnd) :: t ∧ ∀ q, Event.list q ∉ t) ∧
      (∀ listing : GoString → Option (List GoString),
        listing (searchQuery label dateStr dateEnd) =
            env.messagesList (searchQuery label dateStr dateEnd) →
        downloadAttachments (env.withListing listing) fs label dateStr dateEnd =
          downloadAttachments env fs label dateStr dateEnd) ∧
      (env.messagesList (searchQuery label dateStr dateEnd) = none →
        downloadAttachments env fs label dateStr dateEnd = Except.error Fault.fatal) ∧
      ∀ r, downloadAttachments env fs label dateStr dateEnd = Except.ok r →
        ∃ t, r.trace = Event.list (searchQuery label dateStr dateEnd) :: t ∧
          ∀ q, Event.list q ∉ t := by
  refine ⟨?_, ?_, ?_, ?_, ?_⟩
  · refine ⟨itoaInt dateStr.year, itoaInt dateStr.month, itoaInt dateStr.day,
      itoaInt dateEnd.year, itoaInt dateEnd.month, itoaInt dateEnd.day,
      itoaInt_isIntNumeral _, itoa_isNumeral _, itoa_isNumeral _,
      itoaInt_isIntNumeral _, itoa_isNumeral _, itoa_isNumeral _, ?_⟩
    simp [searchQuery, sprintf]
  · unfold downloadUntilFault
    dsimp only
    cases env.messagesList (searchQuery label dateStr dateEnd) with
    | none => exact ⟨[], rfl, by simp⟩
    | some ms =>
      obtain ⟨t, e, n⟩ := messagesUntilFault_trace env ms
        { initState fs with trace := [Event.list (searchQuery label dateStr dateEnd)] }
      exact ⟨t, by simpa using e, n⟩
  · intro listing hl
    unfold downloadAttachments
    dsimp only
    show (match listing (searchQuery label dateStr dateEnd) with
      | none => _ | some messages => _) = _
    rw [hl]
    cases env.messagesList (searchQuery label dateStr dateEnd) with
    | none => rfl
    | some ms =>
      dsimp only
      rw [processMessages_withListing]
  · intro h
    simp [downloadAttachments, h]
  · intro r h
    unfold downloadAttachments at h
    dsimp only at h
    split at h
    · cases h
    · split at h
      · cases h
      · next st1 h1 =>
        cases h
        obtain ⟨t, e, n⟩ := processMessages_trace env _ _ st1 h1
        exact ⟨t, by simpa [DlState.result] using e, n⟩

/-! ### Paths below `Invoices` -/

theorem splitSep_mem_noSep (s e : GoString) (h : e ∈ splitSep s) : '/' ∉ e := by
  induction s generalizing e with
  | nil =>
    simp only [splitSep, List.mem_singleton] at h
    subst h
    simp
  | cons c cs ih =>
    simp only [splitSep] at h
    split at h
    · rcases List.mem_cons.1 h with h | h
      · subst h; simp
      · exact ih e h
    · next hc =>
      cases hs : splitSep cs with
      | nil => exact absurd hs (splitSep_ne_nil cs)
      | cons x xs =>
        rw [hs] at h
        simp only [List.mem_cons] at h
        rcases h with h | h
        · subst h
          have hx := ih x (by rw [hs]; exact List.mem_cons_self _ _)
          intro hm
          rcases List.mem_cons.1 hm with hm | hm
          · exact hc hm.symm
          · exact hx hm
        · exact ih e (by rw [hs]; exact List.mem_cons_of_mem _ h)

theorem foldl_cleanStep_exact (comps acc : List GoString) (h : dotDot ∉ comps) :
    comps.foldl (cleanStep false) acc =
      (comps.filter (fun e => decide (e ≠ []) && decide (e ≠ ['.']))).reverse ++ acc := by
  induction comps generalizing acc with
  | nil => rfl
  | cons c cs ih =>
    have hc : c ≠ dotDot := fun e => h (e ▸ List.mem_cons_self _ _)
    have hcs : dotDot ∉ cs := fun e => h (List.mem_cons_of_mem _ e)
    simp only [List.foldl_cons]
    by_cases h0 : c = [] ∨ c = ['.']
    · have hf : (decide (c ≠ []) && decide (c ≠ ['.'])) = false := by
        rcases h0 with h0 | h0 <;> simp [h0]
      simp only [cleanStep, h0, if_true, List.filter_cons, hf, Bool.false_eq_true, if_false]
      exact ih acc hcs
    · have hf : (decide (c ≠ []) && decide (c ≠ ['.'])) = true := by
        simp only [not_or] at h0
        simp [h0.1, h0.2]
      simp only [cleanStep, h0, hc, if_false, List.filter_cons, hf, if_true,
        List.reverse_cons, List.append_assoc, List.singleton_append]
      exact ih (c :: acc) hcs

theorem joinSep_cons_cons (x y : GoString) (xs : List GoString) :
    joinSep (x :: y :: xs) = x ++ '/' :: joinSep (y :: xs) := rfl

theorem joinSep_snoc (xs : List GoString) (y : GoString) (h : xs ≠ []) :
    joinSep (xs ++ [y]) = joinSep xs ++ '/' :: y := by
  induction xs with
  | nil => exact absurd rfl h
  | cons x xs ih =>
    cases xs with
    | nil => rfl
    | cons x2 xs2 =>
      have := ih (by simp)
      simp only [List.cons_append] at this ⊢
      rw [joinSep_cons_cons, this, joinSep_cons_cons]
      simp

theorem splitSep_joinSep_append (xs : List GoString) (b : GoString) (h : xs ≠ [])
    (hns : ∀ e ∈ xs, '/' ∉ e) : splitSep (joinSep xs ++ '/' :: b) = xs ++ splitSep b := by
  induction xs with
  | nil => exact absurd rfl h
  | cons x xs ih =>
    cases xs with
    | nil =>
      simp only [joinSep, List.singleton_append]
      exact splitSep_append_sep x b (hns x (List.mem_cons_self _ _))
    | cons x2 xs2 =>
      have i := ih (by simp) (fun e he => hns e (List.mem_cons_of_mem _ he))
      rw [joinSep_cons_cons, List.append_assoc, List.cons_append,
        splitSep_append_sep x _ (hns x (List.mem_cons_self _ _)), i]
      rfl

theorem head_joinSep_invoices (els : List GoString) (rest : GoString) :
    (joinSep (invoicesDir :: els) ++ rest).head? = some 'I' := by
  cases els with
  | nil => rfl
  | cons e es => rfl

theorem properElems_plain (s e : GoString) (hs : dotDot ∉ splitSep s) (h : e ∈ properElems s) :
    plainName e := by
  unfold properElems at h
  obtain ⟨h1, h2⟩ := List.mem_filter.1 h
  simp only [ne_eq, Bool.and_eq_true, decide_eq_true_eq] at h2
  exact ⟨splitSep_mem_noSep s e h1, h2.1, h2.2, fun ed => hs (ed ▸ h1)⟩

/-- The function `filepath.Clean` on a path below `Invoices` followed by a path without
`..` elements. -/
theorem clean_below_invoices (els : List GoString) (b : GoString)
    (hels : ∀ e ∈ els, plainName e) (hb : dotDot ∉ splitSep b) :
    clean (joinSep (invoicesDir :: els) ++ '/' :: b) =
      joinSep (invoicesDir :: els ++ properElems b) := by
  have hns : ∀ e ∈ invoicesDir :: els, '/' ∉ e := by
    intro e he
    rcases List.mem_cons.1 he with he | he
    · subst he; decide
    · exact (hels e he).1
  have hdd : dotDot ∉ (invoicesDir :: els) ++ splitSep b := by
    intro hm
    rcases List.mem_append.1 hm with hm | hm
    · rcases List.mem_cons.1 hm with hm | hm
      · exact absurd hm (by decide)
      · exact (hels _ hm).2.2.2 rfl
    · exact hb hm
  have hfil : ((invoicesDir :: els) ++ splitSep b).filter
      (fun e => decide (e ≠ []) && decide (e ≠ ['.'])) = invoicesDir :: els ++ properElems b := by
    rw [List.filter_append]
    have h1 : (invoicesDir :: els).filter (fun e => decide (e ≠ []) && decide (e ≠ ['.'])) =
        invoicesDir :: els := by
      rw [List.filter_eq_self]
      intro e he
      rcases List.mem_cons.1 he with he | he
      · subst he; decide
      · simp [(hels e he).2.1, (hels e he).2.2.1]
    rw [h1]
    rfl
  have h3 : decide (some 'I' = some '/') = false := by decide
  unfold clean
  dsimp only
  rw [head_joinSep_invoices, h3, splitSep_joinSep_append _ b (by simp) hns,
    foldl_cleanStep_exact _ [] hdd, hfil]
  simp

theorem join_invoices_eq (z : GoString) (hz : dotDot ∉ splitSep z) :
    join invoicesDir z = joinSep (invoicesDir :: properElems z) := by
  unfold join
  rw [if_pos (by decide)]
  have := clean_below_invoices [] z (by simp) hz
  simpa [joinSep] using this

theorem dir_below_invoices (els : List GoString) (hne : els ≠ [])
    (hels : ∀ e ∈ els, plainName e) :
    dir (joinSep (invoicesDir :: els)) = joinSep (invoicesDir :: els.dropLast) := by
  have hsplit : els = els.dropLast ++ [els.getLast hne] :=
    (List.dropLast_append_getLast hne).symm
  have hlast : plainName (els.getLast hne) := hels _ (List.getLast_mem hne)
  have hinit : ∀ e ∈ els.dropLast, plainName e :=
    fun e he => hels e (List.mem_of_mem_dropLast he)
  have e1 : joinSep (invoicesDir :: els) =
      joinSep (invoicesDir :: els.dropLast) ++ '/' :: els.getLast hne := by
    conv_lhs => rw [hsplit]
    rw [← List.cons_append, joinSep_snoc _ _ (by simp)]
  unfold dir
  rw [e1, dropWhile_reverse_noSep _ _ hlast.1]
  have := clean_below_invoices els.dropLast [] hinit (by decide)
  simpa [properElems, splitSep] using this

/-- The destination of an archive entry lies inside `Invoices/` when the name of the
archive has an element other than `.` and neither name has a `..` element. -/
theorem entryDest_inside_of_elems (z e : GoString) (hz : dotDot ∉ splitSep z)
    (hp : properElems z ≠ []) (he : dotDot ∉ splitSep e) :
    insideInvoices (entryDest z e) = true := by
  have hels : ∀ x ∈ properElems z, plainName x := fun x hx => properElems_plain z x hz hx
  have hinit : ∀ x ∈ (properElems z).dropLast, plainName x :=
    fun x hx => hels x (List.mem_of_mem_dropLast hx)
  unfold entryDest
  rw [join_invoices_eq z hz, dir_below_invoices _ hp hels]
  unfold join
  have hne : joinSep (invoicesDir :: (properElems z).dropLast) ≠ [] := by
    intro h
    have := head_joinSep_invoices (properElems z).dropLast []
    rw [List.append_nil, h] at this
    cases this
  rw [if_pos hne, clean_below_invoices _ e hinit he, List.cons_append]
  exact insideInvoices_joinSep _

theorem eq_append_of_hasSuffix (z s : GoString) (h : hasSuffix z s = true) :
    ∃ a, z = a ++ s := by
  simp only [hasSuffix, Bool.and_eq_true, decide_eq_true_eq] at h
  refine ⟨z.take (z.length - s.length), ?_⟩
  conv_lhs => rw [← List.take_append_drop (z.length - s.length) z]
  rw [h.2]

theorem splitSep_append_noSep (a s : GoString) (hs : '/' ∉ s) :
    ∃ init l, splitSep (a ++ s) = init ++ [l ++ s] := by
  induction a with
  | nil => exact ⟨[], [], by simp [splitSep_noSep s hs]⟩
  | cons c cs ih =>
    obtain ⟨init, l, e⟩ := ih
    simp only [List.cons_append, splitSep]
    have e' : splitSep (cs.append s) = init ++ [l ++ s] := e
    rw [e']
    split
    · exact ⟨[] :: init, l, rfl⟩
    · cases init with
      | nil => exact ⟨[], c :: l, rfl⟩
      | cons i is => exact ⟨(c :: i) :: is, l, rfl⟩

/-- A filename that `downloadAttachments` accepts has an element other than `.`: the
one that ends in `.pdf` or `.zip`. -/
theorem properElems_of_accepted (z : GoString) (h : skipped z = false) :
    properElems z ≠ [] := by
  have key : ∀ s : GoString, '/' ∉ s → 4 ≤ s.length → hasSuffix z s = true →
      properElems z ≠ [] := by
    intro s hs hlen hsuf
    obtain ⟨a, ha⟩ := eq_append_of_hasSuffix z s hsuf
    obtain ⟨init, l, e⟩ := splitSep_append_noSep a s hs
    have hmem : l ++ s ∈ properElems z := by
      unfold properElems
      rw [ha, e]
      refine List.mem_filter.2 ⟨by simp, ?_⟩
      have h1 : l ++ s ≠ [] := by
        intro h0
        have := congrArg List.length h0
        simp only [List.length_append, List.length_nil] at this
        omega
      have h2 : l ++ s ≠ ['.'] := by
        intro h0
        have := congrArg List.length h0
        simp only [List.length_append, List.length_singleton] at this
        omega
      simp [h1, h2]
    intro h0
    rw [h0] at hmem
    cases hmem
  simp only [skipped, Bool.or_eq_false_iff, decide_eq_false_iff_not, Bool.and_eq_false_iff,
    beq_eq_false_iff_ne, ne_eq, Bool.not_eq_false] at h
  rcases h.2 with h1 | h1
  · exact key dotPdf (by decide) (by decide) h1
  · exact key dotZip (by decide) (by decide) h1

/-- The destination of an entry of an archive that `downloadAttachments` accepted lies
inside `Invoices/` when neither name has a `..` element. -/
theorem entryDest_inside_of_accepted (z e : GoString) (hacc : skipped z = false)
    (hz : dotDot ∉ splitSep z) (he : dotDot ∉ splitSep e) :
    insideInvoices (entryDest z e) = true :=
  entryDest_inside_of_elems z e hz (properElems_of_accepted z hacc) he

/-! ### Files written and created -/

theorem processPart_writes_inside (env : Env) (m : GoString) (st st1 : DlState) (p : MessagePart)
    (hp : dotDot ∉ splitSep p.filename)
    (hst : ∀ path data, Event.writeFile path data ∈ st.trace → insideInvoices path = true)
    (h : processPart env m st p = Except.ok st1) :
    ∀ path data, Event.writeFile path data ∈ st1.trace → insideInvoices path = true := by
  have hin := join_invoices_inside p.filename hp
  unfold processPart at h
  split at h
  · cases h; exact hst
  · split at h
    · cases h
    · split at h
      · cases h
        intro path data hmem
        simp only [List.mem_append, List.mem_singleton] at hmem
        rcases hmem with hmem | hmem
        · exact hst path data hmem
        · cases hmem
      · split at h
        · cases h
          intro path data hmem
          simp only [List.mem_append, List.mem_singleton] at hmem
          rcases hmem with hmem | hmem
          · exact hst path data hmem
          · cases hmem
        · have key : ∀ path data a d, Event.writeFile path data ∈
              (st.trace ++ [Event.attachment m a]) ++
                [Event.writeFile (join invoicesDir p.filename) d] →
              insideInvoices path = true := by
            intro path data a d hmem
            simp only [List.mem_append, List.mem_singleton] at hmem
            rcases hmem with (hmem | hmem) | hmem
            · exact hst path data hmem
            · cases hmem
            · cases hmem; exact hin
          dsimp only at h
          split at h
          · cases h
            rw [record_trace]
            exact fun path data hmem => key path data _ _ hmem
          · cases h
            exact fun path data hmem => key path data _ _ hmem

theorem partsUntilFault_writes_inside (env : Env) (m : GoString) (ps : List MessagePart)
    (st : DlState) (hp : ∀ p ∈ ps, dotDot ∉ splitSep p.filename)
    (hst : ∀ path data, Event.writeFile path data ∈ st.trace → insideInvoices path = true) :
    ∀ path data, Event.writeFile path data ∈ (partsUntilFault env m st ps).1.trace →
      insideInvoices path = true := by
  induction ps generalizing st with
  | nil => exact hst
  | cons p ps ih =>
    simp only [partsUntilFault]
    cases h : processPart env m st p with
    | error e => exact hst
    | ok st1 =>
      exact ih st1 (fun q hq => hp q (List.mem_cons_of_mem _ hq))
        (processPart_writes_inside env m st st1 p (hp p (List.mem_cons_self _ _)) hst h)

theorem messagesUntilFault_writes_inside (env : Env) (ms : List GoString) (st : DlState)
    (hp : ∀ m parts p, env.messagesGet m = some { payload := some parts } → p ∈ parts →
      dotDot ∉ splitSep p.filename)
    (hst : ∀ path data, Event.writeFile path data ∈ st.trace → insideInvoices path = true) :
    ∀ path data, Event.writeFile path data ∈ (messagesUntilFault env st ms).1.trace →
      insideInvoices path = true := by
  induction ms generalizing st with
  | nil => exact hst
  | cons m ms ih =>
    have hst1 : ∀ path data, Event.writeFile path data ∈ st.trace ++ [Event.get m] →
        insideInvoices path = true := by
      intro path data hmem
      simp only [List.mem_append, List.mem_singleton] at hmem
      rcases hmem with hmem | hmem
      · exact hst path data hmem
      · cases hmem
    simp only [messagesUntilFault]
    cases hm : env.messagesGet m with
    | none => exact hst1
    | some msg =>
      obtain ⟨payload⟩ := msg
      cases payload with
      | none => exact hst1
      | some parts =>
        dsimp only
        have h2 := partsUntilFault_writes_inside env m parts
          { st with trace := st.trace ++ [Event.get m] }
          (fun p hp1 => hp m parts p hm hp1) hst1
        revert h2
        cases partsUntilFault env m { st with trace := st.trace ++ [Event.get m] } parts with
        | mk st2 o =>
          intro h2
          cases o with
          | some e => exact h2
          | none => exact ih st2 h2

/-! ### The names in the result lists -/

theorem initState_views (Q : GoString → Prop) (fs : FS) (t : List Event) :
    ({ initState fs with trace := t } : DlState).Views Q := by
  refine ⟨?_, ?_, ?_, ?_⟩ <;> simp [initState, Slice.WF, Slice.view]

theorem record_views (Q : GoString → Prop) (env : Env) (st : DlState) (f : GoString)
    (hst : st.Views Q) (hf : Q f) : (record env st f).Views Q := by
  have step1 : ∀ st : DlState, st.Views Q →
      ({ st with heap := (goAppend env.growslice st.heap st.pdfFiles f).1,
                 pdfFiles := (goAppend env.growslice st.heap st.pdfFiles f).2 } :
        DlState).Views Q := by
    intro st ⟨w1, w2, v1, v2⟩
    refine ⟨goAppend_wf _ _ _ _ w1, goAppend_wf_other _ _ _ _ _ w2, ?_, ?_⟩
    · intro y hy
      simp only [goAppend_view _ _ _ _ w1, List.mem_append, List.mem_singleton] at hy
      rcases hy with hy | hy
      · exact v1 y hy
      · exact hy ▸ hf
    · intro y hy
      rcases goAppend_view_other _ _ _ _ _ w2 y hy with hy | hy
      · exact hy ▸ hf
      · exact v2 y hy
  have step2 : ∀ st : DlState, st.Views Q →
      ({ st with heap := (goAppend env.growslice st.heap st.pdfFiles f).1,
                 zipFiles := (goAppend env.growslice st.heap st.pdfFiles f).2 } :
        DlState).Views Q := by
    intro st ⟨w1, w2, v1, v2⟩
    refine ⟨goAppend_wf_other _ _ _ _ _ w1, goAppend_wf _ _ _ _ w1, ?_, ?_⟩
    · intro y hy
      simp only [goAppend_view_self _ _ _ _ w1] at hy
      exact v1 y hy
    · intro y hy
      simp only [goAppend_view _ _ _ _ w1, List.mem_append, List.mem_singleton] at hy
      rcases hy with hy | hy
      · exact v1 y hy
      · exact hy ▸ hf
  unfold record
  cases hasSuffix f dotPdf <;> cases hasSuffix f dotZip <;>
    simp only [Bool.false_eq_true, if_false, if_true]
  · exact hst
  · exact step2 _ hst
  · exact step1 _ hst
  · exact step2 _ (step1 _ hst)

theorem processPart_views (Q : GoString → Prop) (env : Env) (m : GoString) (st st1 : DlState)
    (p : MessagePart) (hst : st.Views Q) (hq : skipped p.filename = false → Q p.filename)
    (h : processPart env m st p = Except.ok st1) : st1.Views Q := by
  unfold processPart at h
  split at h
  · cases h; exact hst
  · next hs =>
    split at h
    · cases h
    · split at h
      · cases h; exact hst
      · split at h
        · cases h; exact hst
        · dsimp only at h
          split at h
          · cases h
            exact record_views Q env _ _ hst (hq (by simpa using hs))
          · cases h; exact hst

theorem processParts_views (Q : GoString → Prop) (env : Env) (m : GoString)
    (ps : List MessagePart) (st st1 : DlState) (hst : st.Views Q)
    (hq : ∀ p ∈ ps, skipped p.filename = false → Q p.filename)
    (h : processParts env m st ps = Except.ok st1) : st1.Views Q := by
  induction ps generalizing st with
  | nil => simp only [processParts] at h; cases h; exact hst
  | cons p ps ih =>
    simp only [processParts] at h
    split at h
    · cases h
    · next st2 h2 =>
      exact ih st2
        (processPart_views Q env m st st2 p hst (hq p (List.mem_cons_self _ _)) h2)
        (fun x hx => hq x (List.mem_cons_of_mem _ hx)) h

theorem processMessages_views (Q : GoString → Prop) (env : Env) (ms : List GoString)
    (st st1 : DlState) (hst : st.Views Q)
    (hq : ∀ m parts p, env.messagesGet m = some { payload := some parts } → p ∈ parts →
      skipped p.filename = false → Q p.filename)
    (h : processMessages env st ms = Except.ok st1) : st1.Views Q := by
  induction ms generalizing st with
  | nil => simp only [processMessages] at h; cases h; exact hst
  | cons m ms ih =>
    simp only [processMessages] at h
    split at h
    · cases h
    · next st2 h2 =>
      refine ih st2 ?_ h
      unfold processMessage at h2
      dsimp only at h2
      split at h2
      · cases h2
      · next msg hmsg =>
        obtain ⟨payload⟩ := msg
        cases payload with
        | none => cases h2
        | some parts =>
          exact processParts_views Q env m parts _ st2 (by exact hst)
            (fun p hp => hq m parts p hmsg hp) h2

/-! ### Files created by `extractArchive` -/

theorem extractFile_creates_inside (env : Env) (zf : GoString) (a : Bytes) (st : ExState)
    (file : ZipFile) (hin : insideInvoices (join (dir zf) file.name) = true)
    (hst : ∀ path, Event.create path ∈ st.trace → insideInvoices path = true) :
    ∀ path, Event.create path ∈ (extractFile env zf a st file).trace →
      insideInvoices path = true := by
  have key : ∀ path, Event.create path ∈
      st.trace ++ [Event.create (join (dir zf) file.name)] →
      insideInvoices path = true := by
    intro path hmem
    simp only [List.mem_append, List.mem_singleton] at hmem
    rcases hmem with hmem | hmem
    · exact hst path hmem
    · cases hmem; exact hin
  unfold extractFile
  dsimp only
  split
  · split
    · split
      · split
        · split
          · exact key
          · exact key
        · exact key
      · exact key
    · exact hst
  · exact hst

theorem extractFiles_creates_inside (env : Env) (zf : GoString) (a : Bytes)
    (files : List ZipFile) (st : ExState)
    (hin : ∀ f ∈ files, insideInvoices (join (dir zf) f.name) = true)
    (hst : ∀ path, Event.create path ∈ st.trace → insideInvoices path = true) :
    ∀ path, Event.create path ∈ (files.foldl (extractFile env zf a) st).trace →
      insideInvoices path = true := by
  induction files generalizing st with
  | nil => exact hst
  | cons f fs ih =>
    simp only [List.foldl_cons]
    exact ih _ (fun g hg => hin g (List.mem_cons_of_mem _ hg))
      (extractFile_creates_inside env zf a st f (hin f (List.mem_cons_self _ _)) hst)

theorem extractOne_creates_inside (env : Env) (z : GoString) (st : ExState)
    (hz : skipped z = false ∧ dotDot ∉ splitSep z)
    (he : ∀ b files f, env.zipReader b = some files → f ∈ files → dotDot ∉ splitSep f.name)
    (hst : ∀ path, Event.create path ∈ st.trace → insideInvoices path = true) :
    ∀ path, Event.create path ∈ (extractOne env st z).trace →
      insideInvoices path = true := by
  have hst1 : ∀ path, Event.create path ∈
      st.trace ++ [Event.openReader (join invoicesDir z)] →
      insideInvoices path = true := by
    intro path hmem
    simp only [List.mem_append, List.mem_singleton] at hmem
    rcases hmem with hmem | hmem
    · exact hst path hmem
    · cases hmem
  unfold extractOne
  dsimp only
  split
  · exact hst1
  · next a _ =>
    split
    · exact hst1
    · next files hfiles =>
      have h2 := extractFiles_creates_inside env (join invoicesDir z) a files
        { st with trace := st.trace ++ [Event.openReader (join invoicesDir z)] }
        (fun f hf => entryDest_inside_of_accepted z f.name hz.1 hz.2 (he a files f hfiles hf))
        hst1
      have h3 : ∀ path, Event.create path ∈
          (files.foldl (extractFile env (join invoicesDir z) a)
            { st with trace := st.trace ++ [Event.openReader (join invoicesDir z)] }).trace ++
            [Event.remove (join invoicesDir z)] → insideInvoices path = true := by
        intro path hmem
        simp only [List.mem_append, List.mem_singleton] at hmem
        rcases hmem with hmem | hmem
        · exact h2 path hmem
        · cases hmem
      split
      · exact h3
      · exact h3

/-- C8, amended: when no filename of a message part and no entry name of an archive
has a `..` element, every file `downloadAttachments` writes lies inside `Invoices/`,
in a run that returns and in a run that faults alike; the names in the ZIP list it
returns were accepted and have no `..` element; and every file `extractArchive`
creates from archives with such names lies inside `Invoices/`.  Names that contain
`/` are covered, names with `..` elements are not. -/
theorem destinations_inside_invoices (env : Env) (fs : FS) (label : GoString)
    (dateStr dateEnd : Date)
    (hparts : ∀ m parts p, env.messagesGet m = some { payload := some parts } → p ∈ parts →
      dotDot ∉ splitSep p.filename)
    (hentries : ∀ b files f, env.zipReader b = some files → f ∈ files →
      dotDot ∉ splitSep f.name) :
    (∀ path data,
        Event.writeFile path data ∈ (downloadUntilFault env fs label dateStr dateEnd).1.trace →
        insideInvoices path = true) ∧
      (∀ r, downloadAttachments env fs label dateStr dateEnd = Except.ok r →
        (∀ path data, Event.writeFile path data ∈ r.trace → insideInvoices path = true) ∧
          ∀ z ∈ r.zipFiles, skipped z = false ∧ dotDot ∉ splitSep z) ∧
      (∀ (fs1 : FS) (zipFiles : List GoString),
        (∀ z ∈ zipFiles, skipped z = false ∧ dotDot ∉ splitSep z) →
        ∀ path, Event.create path ∈ (extractArchive env fs1 zipFiles).trace →
          insideInvoices path = true) := by
  have hinit : ∀ path data, Event.writeFile path data ∈
      ({ initState fs with trace := [Event.list (searchQuery label dateStr dateEnd)] } :
        DlState).trace → insideInvoices path = true := by
    intro path data hmem
    simp only [List.mem_singleton] at hmem
    cases hmem
  have first : ∀ path data,
      Event.writeFile path data ∈ (downloadUntilFault env fs label dateStr dateEnd).1.trace →
      insideInvoices path = true := by
    unfold downloadUntilFault
    dsimp only
    cases env.messagesList (searchQuery label dateStr dateEnd) with
    | none => exact hinit
    | some ms => exact messagesUntilFault_writes_inside env ms _ hparts hinit
  refine ⟨first, ?_, ?_⟩
  · intro r h
    unfold downloadAttachments at h
    dsimp only at h
    split at h
    · cases h
    · next msgs _ =>
      split at h
      · cases h
      · next st1 h1 =>
        cases h
        constructor
        · have hu := messagesUntilFault_outcome env msgs
            { initState fs with trace := [Event.list (searchQuery label dateStr dateEnd)] }
          have hw := messagesUntilFault_writes_inside env msgs
            { initState fs with trace := [Event.list (searchQuery label dateStr dateEnd)] }
            hparts hinit
          rw [h1] at hu
          revert hu hw
          cases messagesUntilFault env
            { initState fs with trace := [Event.list (searchQuery label dateStr dateEnd)] }
            msgs with
          | mk stf o =>
            cases o with
            | some e => intro hu; simp [outcome] at hu
            | none =>
              intro hu hw
              simp only [outcome, Except.ok.injEq] at hu
              subst hu
              exact hw
        · have hv := processMessages_views
            (fun y => skipped y = false ∧ dotDot ∉ splitSep y) env msgs _ st1
            (initState_views _ fs _)
            (fun m parts p hm hp hs => ⟨hs, hparts m parts p hm hp⟩) h1
          exact hv.2.2.2
  · intro fs1 zipFiles hz
    unfold extractArchive
    have gen : ∀ (zs : List GoString) (st : ExState),
        (∀ z ∈ zs, skipped z = false ∧ dotDot ∉ splitSep z) →
        (∀ path, Event.create path ∈ st.trace → insideInvoices path = true) →
        ∀ path, Event.create path ∈ (zs.foldl (extractOne env) st).trace →
          insideInvoices path = true := by
      intro zs
      induction zs with
      | nil => intro st _ hst; exact hst
      | cons z zs ih =>
        intro st hzs hst
        simp only [List.foldl_cons]
        exact ih _ (fun y hy => hzs y (List.mem_cons_of_mem _ hy))
          (extractOne_creates_inside env z st (hzs z (List.mem_cons_self _ _)) hentries hst)
    exact gen zipFiles _ hz (by simp)

/-- C8, an instance: the message parts `sub/x.pdf` and `sub/a.zip` are written, then
the run faults on a message that cannot be fetched; the archive `sub/a.zip` holds the
entries `d/e.pdf` and `n.txt`. -/
theorem destinations_inside_invoices_witness :
    ((∀ path data,
        Event.writeFile path data ∈
          (downloadUntilFault sampleMixedEnv [] "inv".toList sampleDate sampleDate).1.trace →
        insideInvoices path = true) ∧
      (∀ r, downloadAttachments sampleMixedEnv [] "inv".toList sampleDate sampleDate =
          Except.ok r →
        (∀ path data, Event.writeFile path data ∈ r.trace → insideInvoices path = true) ∧
          ∀ z ∈ r.zipFiles, skipped z = false ∧ dotDot ∉ splitSep z) ∧
      (∀ (fs1 : FS) (zipFiles : List GoString),
        (∀ z ∈ zipFiles, skipped z = false ∧ dotDot ∉ splitSep z) →
        ∀ path, Event.create path ∈ (extractArchive sampleMixedEnv fs1 zipFiles).trace →
          insideInvoices path = true)) ∧
      (downloadUntilFault sampleMixedEnv [] "inv".toList sampleDate sampleDate).2 =
        some Fault.nilDereference ∧
      (downloadUntilFault sampleMixedEnv [] "inv".toList sampleDate sampleDate).1.fs.paths =
        ["Invoices/sub/x.pdf".toList, "Invoices/sub/a.zip".toList] ∧
      (extractArchive sampleMixedEnv [("Invoices/sub/a.zip".toList, [1])]
          ["sub/a.zip".toList]).trace =
        [Event.openReader "Invoices/sub/a.zip".toList,
         Event.create "Invoices/sub/d/e.pdf".toList,
         Event.remove "Invoices/sub/a.zip".toList] :=
  ⟨destinations_inside_invoices sampleMixedEnv [] "inv".toList sampleDate sampleDate
    (by
      intro m parts p h hp
      have h2 : parts = ["sub/x.pdf", "sub/a.zip"].map samplePart := by
        simp only [sampleMixedEnv, sampleEnv] at h
        by_cases hc : String.mk m = "m"
        · simp only [hc, if_true, Option.map_some', Option.some.injEq,
            Message.mk.injEq] at h
          exact h.symm
        · simp [hc] at h
      subst h2
      simp only [List.map, List.mem_cons, List.mem_singleton, List.not_mem_nil, or_false] at hp
      rcases hp with hp | hp <;> subst hp <;> decide)
    (by
      intro b files f h hf
      simp only [sampleMixedEnv] at h
      split at h
      · simp only [Option.some.injEq] at h
        subst h
        simp only [List.mem_cons, List.mem_singleton, List.not_mem_nil, or_false] at hf
        rcases hf with hf | hf <;> subst hf <;> decide
      · cases h),
   by rfl, by rfl, by rfl⟩

/-! ### `extractArchive`: what a path holds after an archive -/

theorem extractFile_read_cases (env : Env) (zf : GoString) (a : Bytes) (st : ExState)
    (f : ZipFile) (q : GoString) (hi : st.fs.read zf = some a)
    (hne : join (dir zf) f.name ≠ zf) :
    (extractFile env zf a st f).fs.read q = st.fs.read q ∨
      (join (dir zf) f.name = q ∧ (extractFile env zf a st f).fs.read q = some f.content) := by
  by_cases hd : q = join (dir zf) f.name
  · subst hd
    have hi2 : (st.fs.write (join (dir zf) f.name) []).read zf = some a := by
      rw [read_write, if_neg (Ne.symm hne), hi]
    unfold extractFile
    dsimp only
    split
    · split
      · split
        · right
          split
          · exact ⟨rfl, by simp only [read_write, if_true]⟩
          · exact ⟨rfl, by simp only [read_write, if_true]⟩
        · left; rfl
      · left; rfl
    · left; rfl
  · left
    exact extractFile_frame env zf a st f q hd

theorem extractFiles_read_cases (env : Env) (zf : GoString) (a : Bytes) (files : List ZipFile)
    (st : ExState) (q : GoString) (hi : st.fs.read zf = some a)
    (hne : ∀ g ∈ files, join (dir zf) g.name ≠ zf) :
    (files.foldl (extractFile env zf a) st).fs.read q = st.fs.read q ∨
      ∃ g ∈ files, join (dir zf) g.name = q ∧
        (files.foldl (extractFile env zf a) st).fs.read q = some g.content := by
  induction files generalizing st with
  | nil => exact Or.inl rfl
  | cons f fs ih =>
    have hf : f ∈ f :: fs := List.mem_cons_self _ _
    have hi2 : (extractFile env zf a st f).fs.read zf = some a := by
      rw [extractFile_frame env zf a st f zf (Ne.symm (hne f hf)), hi]
    simp only [List.foldl_cons]
    rcases ih (extractFile env zf a st f) hi2 (fun g hg => hne g (List.mem_cons_of_mem _ hg))
      with h | ⟨g, hg, hd, hc⟩
    · rcases extractFile_read_cases env zf a st f q hi (hne f hf) with h2 | ⟨hd, hc⟩
      · exact Or.inl (by rw [h, h2])
      · exact Or.inr ⟨f, hf, hd, by rw [h, hc]⟩
    · exact Or.inr ⟨g, List.mem_cons_of_mem _ hg, hd, hc⟩

/-- After a round of the loop over the archives, a path other than the archive reads
as before or holds the bytes of an entry of the archive with that destination. -/
theorem extractOne_read_cases (env : Env) (st : ExState) (z q : GoString)
    (hne : ∀ g ∈ archivePdfs env st.fs z, entryDest z g.name ≠ join invoicesDir z)
    (hz : archiveFiles env st.fs z ≠ none → q ≠ join invoicesDir z) :
    (extractOne env st z).fs.read q = st.fs.read q ∨
      ∃ g ∈ archivePdfs env st.fs z, entryDest z g.name = q ∧
        (extractOne env st z).fs.read q = some g.content := by
  cases h : archiveFiles env st.fs z with
  | none => rw [(extractOne_closed env st z h).2]; exact Or.inl rfl
  | some files =>
    rw [archivePdfs_of_open env st.fs z files h] at hne ⊢
    obtain ⟨a, ha, _, e⟩ := extractOne_open env st z files h
    have hc := extractFiles_read_cases env (join invoicesDir z) a (pdfEntries files)
      { st with trace := st.trace ++ [Event.openReader (join invoicesDir z)] } q ha hne
    have hq : q ≠ join invoicesDir z := hz (by simp [h])
    rw [e]
    split
    · simp only [read_remove, if_neg hq]
      exact hc
    · exact hc

theorem dest_ne_open (env : Env) (fs : FS) (zs : List GoString)
    (hna : DestNotArchive env fs zs) (z : GoString) (hz : z ∈ zs) (f : ZipFile)
    (hf : f ∈ archivePdfs env fs z) (y : GoString) (hy : y ∈ zs)
    (ho : archiveFiles env fs y ≠ none) : entryDest z f.name ≠ join invoicesDir y :=
  fun he => ho (hna z hz f hf y hy he).1

theorem dest_ne_own (env : Env) (fs : FS) (zs : List GoString)
    (hna : DestNotArchive env fs zs) (z : GoString) (hz : z ∈ zs) :
    ∀ g ∈ archivePdfs env fs z, entryDest z g.name ≠ join invoicesDir z :=
  fun g hg => dest_ne_open env fs zs hna z hz g hg z hz (archiveFiles_ne_none_of_mem env fs z g hg)

/-! ### `extractArchive`: the list of archives -/

theorem entryDest_congr (z y name : GoString) (h : join invoicesDir y = join invoicesDir z) :
    entryDest y name = entryDest z name := by
  unfold entryDest
  rw [h]

theorem archiveFiles_congr (env : Env) (fs : FS) (z y : GoString)
    (h : join invoicesDir y = join invoicesDir z) :
    archiveFiles env fs y = archiveFiles env fs z := by
  unfold archiveFiles
  rw [h]

/-- After a round of the loop over the archives, an archive listed later reads as
before, or it is the archive of the round and is gone. -/
theorem extractOne_archives_after (env : Env) (st : ExState) (z : GoString)
    (rest : List GoString) (hna : DestNotArchive env st.fs (z :: rest)) :
    ∀ y ∈ rest,
      archiveFiles env (extractOne env st z).fs y = archiveFiles env st.fs y ∨
        (join invoicesDir y = join invoicesDir z ∧
          archiveFiles env (extractOne env st z).fs y = none) := by
  intro y hy
  have hz : z ∈ z :: rest := List.mem_cons_self _ _
  have hnez := dest_ne_own env st.fs (z :: rest) hna z hz
  by_cases hp : join invoicesDir y = join invoicesDir z
  · obtain ⟨h1, _⟩ := extractOne_archive env st z hnez
    unfold archiveFiles
    rw [hp]
    rcases h1 with h1 | h1
    · exact Or.inr ⟨rfl, by rw [h1]; rfl⟩
    · exact Or.inl (by rw [h1])
  · left
    rcases extractOne_read_cases env st z (join invoicesDir y) hnez (fun _ => hp)
      with h | ⟨g, hg, hd, hc⟩
    · unfold archiveFiles
      rw [h]
    · obtain ⟨h1, h2⟩ := hna z hz g hg y (List.mem_cons_of_mem _ hy) hd
      rw [h1]
      unfold archiveFiles
      rw [hc]
      exact h2

theorem archivePdfs_after (env : Env) (st : ExState) (z : GoString)
    (rest : List GoString) (hna : DestNotArchive env st.fs (z :: rest)) :
    ∀ y ∈ rest, ∀ g ∈ archivePdfs env (extractOne env st z).fs y, g ∈ archivePdfs env st.fs y := by
  intro y hy g hg
  rcases extractOne_archives_after env st z rest hna y hy with h | ⟨_, h⟩
  · unfold archivePdfs at hg ⊢
    rwa [h] at hg
  · rw [archivePdfs_of_closed _ _ _ h] at hg
    cases hg

theorem archiveFiles_after (env : Env) (st : ExState) (z : GoString)
    (rest : List GoString) (hna : DestNotArchive env st.fs (z :: rest)) :
    ∀ y ∈ rest, archiveFiles env (extractOne env st z).fs y ≠ none →
      archiveFiles env (extractOne env st z).fs y = archiveFiles env st.fs y := by
  intro y hy hne
  rcases extractOne_archives_after env st z rest hna y hy with h | ⟨_, h⟩
  · exact h
  · exact absurd h hne

theorem destNotArchive_tail (env : Env) (st : ExState) (z : GoString)
    (rest : List GoString) (hna : DestNotArchive env st.fs (z :: rest)) :
    DestNotArchive env (extractOne env st z).fs rest := by
  intro y hy g hg x hx hd
  obtain ⟨h1, h2⟩ := hna y (List.mem_cons_of_mem _ hy) g
    (archivePdfs_after env st z rest hna y hy g hg) x (List.mem_cons_of_mem _ hx) hd
  refine ⟨?_, h2⟩
  rcases extractOne_archives_after env st z rest hna x hx with h | ⟨_, h⟩
  · rw [h]; exact h1
  · exact h

theorem agreeAt_tail (env : Env) (st : ExState) (z : GoString) (rest : List GoString)
    (hna : DestNotArchive env st.fs (z :: rest)) (q : GoString) (c : Bytes)
    (hag : AgreeAt env st.fs (z :: rest) q c) :
    AgreeAt env (extractOne env st z).fs rest q c := by
  intro y hy g hg hd
  exact hag y (List.mem_cons_of_mem _ hy) g (archivePdfs_after env st z rest hna y hy g hg) hd

/-- What the loop over the archives does to the files when no entry is written over
a listed archive: a path that is no destination and no archive that opens reads as
before; a file that every entry written to it agrees with stays; an entry that the
entries with its destination agree with is there afterwards; an archive that opens
and can be removed is gone. -/
theorem extractLoop_reads (env : Env) (zs : List GoString) (st : ExState)
    (hna : DestNotArchive env st.fs zs) :
    (∀ q, (∀ z ∈ zs, ∀ g ∈ archivePdfs env st.fs z, entryDest z g.name ≠ q) →
        (∀ z ∈ zs, archiveFiles env st.fs z ≠ none → q ≠ join invoicesDir z) →
        (zs.foldl (extractOne env) st).fs.read q = st.fs.read q) ∧
      (∀ q c, st.fs.read q = some c → AgreeAt env st.fs zs q c →
        (∀ z ∈ zs, archiveFiles env st.fs z ≠ none → q ≠ join invoicesDir z) →
        (zs.foldl (extractOne env) st).fs.read q = some c) ∧
      (∀ z ∈ zs, ∀ f ∈ archivePdfs env st.fs z,
        AgreeAt env st.fs zs (entryDest z f.name) f.content →
        (zs.foldl (extractOne env) st).fs.read (entryDest z f.name) = some f.content) ∧
      (∀ z ∈ zs, archiveFiles env st.fs z ≠ none → env.removeOk (join invoicesDir z) = true →
        (zs.foldl (extractOne env) st).fs.read (join invoicesDir z) = none) := by
  induction zs generalizing st with
  | nil =>
    refine ⟨fun q _ _ => rfl, fun q c h _ _ => h, ?_, ?_⟩
    · intro z hz; cases hz
    · intro z hz; cases hz
  | cons z rest ih =>
    have hz : z ∈ z :: rest := List.mem_cons_self _ _
    have hsub := archivePdfs_after env st z rest hna
    have hfile := archiveFiles_after env st z rest hna
    have hnez := dest_ne_own env st.fs (z :: rest) hna z hz
    obtain ⟨i2, i5, i4, i3⟩ := ih (extractOne env st z) (destNotArchive_tail env st z rest hna)
    simp only [List.foldl_cons]
    -- the head archive: an entry it holds is there afterwards
    have head4 : ∀ f ∈ archivePdfs env st.fs z,
        AgreeAt env st.fs (z :: rest) (entryDest z f.name) f.content →
        (rest.foldl (extractOne env) (extractOne env st z)).fs.read (entryDest z f.name) =
          some f.content := by
      intro f hf hag
      refine i5 _ _ (extractOne_writes env st z f hf hnez (fun g hg hd => hag z hz g hg hd))
        (agreeAt_tail env st z rest hna _ _ hag) ?_
      intro y hy hyo
      exact dest_ne_open env st.fs (z :: rest) hna z hz f hf y (List.mem_cons_of_mem _ hy)
        (by rw [← hfile y hy hyo]; exact hyo)
    -- the head archive: it is gone afterwards
    have head3 : archiveFiles env st.fs z ≠ none → env.removeOk (join invoicesDir z) = true →
        (rest.foldl (extractOne env) (extractOne env st z)).fs.read (join invoicesDir z) =
          none := by
      intro hopen hrm
      have h1 := (extractOne_archive env st z hnez).2 hopen hrm
      rw [i2 (join invoicesDir z), h1]
      · intro y hy g hg
        exact dest_ne_open env st.fs (z :: rest) hna y (List.mem_cons_of_mem _ hy) g
          (hsub y hy g hg) z hz hopen
      · intro y hy hyo he
        apply hyo
        unfold archiveFiles
        rw [← he, h1]
        rfl
    refine ⟨?_, ?_, ?_, ?_⟩
    · intro q hq hqz
      rw [i2 q (fun y hy g hg => hq y (List.mem_cons_of_mem _ hy) g (hsub y hy g hg))
        (fun y hy hyo => hqz y (List.mem_cons_of_mem _ hy) (by rw [← hfile y hy hyo]; exact hyo)),
        extractOne_frame env st z q (hq z hz) (hqz z hz)]
    · intro q c hq hag hqz
      exact i5 q c
        (extractOne_stable env st z q c hnez hq (hqz z hz) (fun g hg hd => hag z hz g hg hd))
        (agreeAt_tail env st z rest hna q c hag)
        (fun y hy hyo => hqz y (List.mem_cons_of_mem _ hy) (by rw [← hfile y hy hyo]; exact hyo))
    · intro y hy f hf hag
      by_cases hp : join invoicesDir y = join invoicesDir z
      · have hf' : f ∈ archivePdfs env st.fs z := by
          unfold archivePdfs at hf ⊢
          rwa [archiveFiles_congr env st.fs z y hp] at hf
        rw [entryDest_congr z y f.name hp] at hag ⊢
        exact head4 f hf' hag
      · rcases List.mem_cons.1 hy with hy | hy
        · exact absurd (hy ▸ rfl) hp
        · rcases extractOne_archives_after env st z rest hna y hy with h | ⟨h, _⟩
          · refine i4 y hy f ?_ (agreeAt_tail env st z rest hna _ _ hag)
            unfold archivePdfs at hf ⊢
            rwa [h]
          · exact absurd h hp
    · intro y hy hyo hrm
      by_cases hp : join invoicesDir y = join invoicesDir z
      · rw [hp] at hrm ⊢
        exact head3 (by rwa [← archiveFiles_congr env st.fs z y hp]) hrm
      · rcases List.mem_cons.1 hy with hy | hy
        · exact absurd (hy ▸ rfl) hp
        · rcases extractOne_archives_after env st z rest hna y hy with h | ⟨h, _⟩
          · exact i3 y hy (by rwa [h]) hrm
          · exact absurd h hp

theorem archiveFiles_remove (env : Env) (fs : FS) (p y : GoString) :
    archiveFiles env (fs.remove p) y =
      if join invoicesDir y = p then none else archiveFiles env fs y := by
  unfold archiveFiles
  rw [read_remove]
  split <;> rfl

theorem extractedNames_congr (env : Env) (zs : List GoString) (a b : FS)
    (h : ∀ y ∈ zs, archiveFiles env a y = archiveFiles env b y) :
    extractedNames env a zs = extractedNames env b zs := by
  induction zs generalizing a b with
  | nil => rfl
  | cons z rest ih =>
    simp only [extractedNames]
    have hz : archivePdfs env a z = archivePdfs env b z := by
      unfold archivePdfs
      rw [h z (List.mem_cons_self _ _)]
    rw [hz, ih (a.remove (join invoicesDir z)) (b.remove (join invoicesDir z))]
    intro y hy
    rw [archiveFiles_remove, archiveFiles_remove, h y (List.mem_cons_of_mem _ hy)]

/-- The names the loop over the archives records when it runs without error and no
entry is written over a listed archive. -/
theorem extractLoop_names (env : Env) (zs : List GoString) (st : ExState)
    (hna : DestNotArchive env st.fs zs) (hok : EntriesOk env st.fs zs)
    (hrm : ∀ z ∈ zs, archiveFiles env st.fs z ≠ none →
      env.removeOk (join invoicesDir z) = true) :
    (zs.foldl (extractOne env) st).pdfFiles = st.pdfFiles ++ extractedNames env st.fs zs := by
  induction zs generalizing st with
  | nil => simp [extractedNames]
  | cons z rest ih =>
    have hz : z ∈ z :: rest := List.mem_cons_self _ _
    have hsub := archivePdfs_after env st z rest hna
    have hfile := archiveFiles_after env st z rest hna
    have hnez := dest_ne_own env st.fs (z :: rest) hna z hz
    have hcongr : ∀ y ∈ rest, archiveFiles env (extractOne env st z).fs y =
        archiveFiles env (st.fs.remove (join invoicesDir z)) y := by
      intro y hy
      rw [archiveFiles_remove]
      by_cases hp : join invoicesDir y = join invoicesDir z
      · rw [if_pos hp]
        cases ho : archiveFiles env st.fs z with
        | none =>
          unfold archiveFiles
          rw [(extractOne_closed env st z ho).2, hp]
          exact ho
        | some files =>
          have h1 := (extractOne_archive env st z hnez).2 (by simp [ho]) (hrm z hz (by simp [ho]))
          unfold archiveFiles
          rw [hp, h1]
          rfl
      · rw [if_neg hp]
        rcases extractOne_archives_after env st z rest hna y hy with h | ⟨h, _⟩
        · exact h
        · exact absurd h hp
    simp only [List.foldl_cons, extractedNames]
    rw [ih (extractOne env st z) (destNotArchive_tail env st z rest hna)
      (fun y hy g hg => hok y (List.mem_cons_of_mem _ hy) g (hsub y hy g hg))
      (fun y hy hyo => hrm y (List.mem_cons_of_mem _ hy) (by rw [← hfile y hy hyo]; exact hyo)),
      extractOne_names env st z hnez (hok z hz),
      extractedNames_congr env rest _ _ hcongr, List.append_assoc]

theorem extractOne_pdfOnly (env : Env) (st : ExState) (z : GoString) :
    extractOne env st z = extractOne env.pdfOnly st z := by
  have hf : extractFile env.pdfOnly = extractFile env := rfl
  unfold extractOne
  dsimp only
  rw [hf]
  cases st.fs.read (join invoicesDir z) with
  | none => rfl
  | some b =>
    simp only [Env.pdfOnly]
    cases env.zipReader b with
    | none => rfl
    | some files =>
      simp only [Option.map]
      rw [extractFiles_pdfEntries env]

theorem extractArchive_pdfOnly (env : Env) (fs : FS) (zs : List GoString) :
    extractArchive env fs zs = extractArchive env.pdfOnly fs zs := by
  unfold extractArchive
  generalize ({ pdfFiles := [], fs := fs, trace := [] } : ExState) = st
  induction zs generalizing st with
  | nil => rfl
  | cons z rest ih =>
    simp only [List.foldl_cons, ← extractOne_pdfOnly]
    exact ih _

theorem entryDest_plain (z name : GoString) (hz : plainName z) (hn : plainName name) :
    entryDest z name = "Invoices/".toList ++ name := by
  unfold entryDest
  rw [dir_join_plain z hz, join_plain name hn]
  simp [invoicesDir]

/-! ### `extractArchive`: files that are there afterwards -/

theorem extractFile_keeps (env : Env) (zf : GoString) (a : Bytes) (st : ExState) (f : ZipFile)
    (q : GoString) (h : hasSuffix f.name dotPdf = true)
    (hok : f.openOk = true ∧ f.copyOk = true ∧ env.createOk (join (dir zf) f.name) = true)
    (hi : st.fs.read zf = some a) (hne : join (dir zf) f.name ≠ zf)
    (hq : st.fs.read q ≠ none) : (extractFile env zf a st f).fs.read q ≠ none := by
  by_cases hd : join (dir zf) f.name = q
  · rw [← hd, (extractFile_ok env zf a st f h hok.1 hok.2.1 hok.2.2 hi hne).1]
    simp
  · rw [extractFile_frame env zf a st f q (Ne.symm hd)]
    exact hq

theorem extractFiles_keeps (env : Env) (zf : GoString) (a : Bytes) (files : List ZipFile)
    (st : ExState) (q : GoString)
    (hpdf : ∀ g ∈ files, hasSuffix g.name dotPdf = true)
    (hok : ∀ g ∈ files, g.openOk = true ∧ g.copyOk = true ∧
      env.createOk (join (dir zf) g.name) = true)
    (hi : st.fs.read zf = some a) (hne : ∀ g ∈ files, join (dir zf) g.name ≠ zf)
    (hq : st.fs.read q ≠ none) :
    (files.foldl (extractFile env zf a) st).fs.read q ≠ none := by
  induction files generalizing st with
  | nil => exact hq
  | cons f fs ih =>
    have hf : f ∈ f :: fs := List.mem_cons_self _ _
    simp only [List.foldl_cons]
    exact ih _ (fun g hg => hpdf g (List.mem_cons_of_mem _ hg))
      (fun g hg => hok g (List.mem_cons_of_mem _ hg))
      (by rw [extractFile_frame env zf a st f zf (Ne.symm (hne f hf)), hi])
      (fun g hg => hne g (List.mem_cons_of_mem _ hg))
      (extractFile_keeps env zf a st f q (hpdf f hf) (hok f hf) hi (hne f hf) hq)

theorem extractFiles_creates (env : Env) (zf : GoString) (a : Bytes) (files : List ZipFile)
    (st : ExState) (f : ZipFile) (hf : f ∈ files)
    (hpdf : ∀ g ∈ files, hasSuffix g.name dotPdf = true)
    (hok : ∀ g ∈ files, g.openOk = true ∧ g.copyOk = true ∧
      env.createOk (join (dir zf) g.name) = true)
    (hi : st.fs.read zf = some a) (hne : ∀ g ∈ files, join (dir zf) g.name ≠ zf) :
    (files.foldl (extractFile env zf a) st).fs.read (join (dir zf) f.name) ≠ none := by
  induction files generalizing st with
  | nil => cases hf
  | cons g gs ih =>
    have hg : g ∈ g :: gs := List.mem_cons_self _ _
    have hi2 : (extractFile env zf a st g).fs.read zf = some a := by
      rw [extractFile_frame env zf a st g zf (Ne.symm (hne g hg)), hi]
    simp only [List.foldl_cons]
    rcases List.mem_cons.1 hf with hfg | hfg
    · subst hfg
      refine extractFiles_keeps env zf a gs _ _
        (fun x hx => hpdf x (List.mem_cons_of_mem _ hx))
        (fun x hx => hok x (List.mem_cons_of_mem _ hx)) hi2
        (fun x hx => hne x (List.mem_cons_of_mem _ hx)) ?_
      obtain ⟨o1, o2, o3⟩ := hok f hg
      rw [(extractFile_ok env zf a st f (hpdf f hg) o1 o2 o3 hi (hne f hg)).1]
      simp
    · exact ih _ hfg (fun x hx => hpdf x (List.mem_cons_of_mem _ hx))
        (fun x hx => hok x (List.mem_cons_of_mem _ hx)) hi2
        (fun x hx => hne x (List.mem_cons_of_mem _ hx))

theorem extractOne_keeps (env : Env) (st : ExState) (z q : GoString)
    (hne : ∀ g ∈ archivePdfs env st.fs z, entryDest z g.name ≠ join invoicesDir z)
    (hok : ∀ g ∈ archivePdfs env st.fs z, g.openOk = true ∧ g.copyOk = true ∧
      env.createOk (entryDest z g.name) = true)
    (hz : archiveFiles env st.fs z ≠ none → q ≠ join invoicesDir z)
    (hq : st.fs.read q ≠ none) : (extractOne env st z).fs.read q ≠ none := by
  cases h : archiveFiles env st.fs z with
  | none => rw [(extractOne_closed env st z h).2]; exact hq
  | some files =>
    rw [archivePdfs_of_open env st.fs z files h] at hne hok
    obtain ⟨a, ha, _, e⟩ := extractOne_open env st z files h
    have hk := extractFiles_keeps env (join invoicesDir z) a (pdfEntries files)
      { st with trace := st.trace ++ [Event.openReader (join invoicesDir z)] } q
      (mem_pdfEntries files) hok ha hne hq
    rw [e]
    split
    · rw [read_remove, if_neg (hz (by simp [h]))]
      exact hk
    · exact hk

theorem extractOne_creates (env : Env) (st : ExState) (z : GoString) (f : ZipFile)
    (hf : f ∈ archivePdfs env st.fs z)
    (hne : ∀ g ∈ archivePdfs env st.fs z, entryDest z g.name ≠ join invoicesDir z)
    (hok : ∀ g ∈ archivePdfs env st.fs z, g.openOk = true ∧ g.copyOk = true ∧
      env.createOk (entryDest z g.name) = true) :
    (extractOne env st z).fs.read (entryDest z f.name) ≠ none := by
  cases h : archiveFiles env st.fs z with
  | none => rw [archivePdfs_of_closed env st.fs z h] at hf; cases hf
  | some files =>
    rw [archivePdfs_of_open env st.fs z files h] at hne hok hf
    obtain ⟨a, ha, _, e⟩ := extractOne_open env st z files h
    have hc := extractFiles_creates env (join invoicesDir z) a (pdfEntries files)
      { st with trace := st.trace ++ [Event.openReader (join invoicesDir z)] } f hf
      (mem_pdfEntries files) hok ha hne
    rw [e]
    split
    · rw [read_remove, if_neg (hne f hf)]
      exact hc
    · exact hc

/-- When the loop over the archives runs without error and no entry is written over a
listed archive, a file that is no archive that opens stays a file, and every
destination holds a file afterwards. -/
theorem extractLoop_exists (env : Env) (zs : List GoString) (st : ExState)
    (hna : DestNotArchive env st.fs zs) (hok : EntriesOk env st.fs zs) :
    (∀ q, st.fs.read q ≠ none →
        (∀ z ∈ zs, archiveFiles env st.fs z ≠ none → q ≠ join invoicesDir z) →
        (zs.foldl (extractOne env) st).fs.read q ≠ none) ∧
      (∀ z ∈ zs, ∀ f ∈ archivePdfs env st.fs z,
        (zs.foldl (extractOne env) st).fs.read (entryDest z f.name) ≠ none) := by
  induction zs generalizing st with
  | nil =>
    refine ⟨fun q h _ => h, ?_⟩
    intro z hz; cases hz
  | cons z rest ih =>
    have hz : z ∈ z :: rest := List.mem_cons_self _ _
    have hsub := archivePdfs_after env st z rest hna
    have hfile := archiveFiles_after env st z rest hna
    have hnez := dest_ne_own env st.fs (z :: rest) hna z hz
    obtain ⟨k1, k2⟩ := ih (extractOne env st z) (destNotArchive_tail env st z rest hna)
      (fun y hy g hg => hok y (List.mem_cons_of_mem _ hy) g (hsub y hy g hg))
    simp only [List.foldl_cons]
    have keep : ∀ q, st.fs.read q ≠ none →
        (∀ y ∈ z :: rest, archiveFiles env st.fs y ≠ none → q ≠ join invoicesDir y) →
        (rest.foldl (extractOne env) (extractOne env st z)).fs.read q ≠ none := by
      intro q hq hqz
      exact k1 q (extractOne_keeps env st z q hnez (hok z hz) (hqz z hz) hq)
        (fun y hy hyo => hqz y (List.mem_cons_of_mem _ hy) (by rw [← hfile y hy hyo]; exact hyo))
    refine ⟨keep, ?_⟩
    intro y hy f hf
    by_cases hp : join invoicesDir y = join invoicesDir z
    · have hf' : f ∈ archivePdfs env st.fs z := by
        unfold archivePdfs at hf ⊢
        rwa [archiveFiles_congr env st.fs z y hp] at hf
      rw [entryDest_congr z y f.name hp]
      exact k1 _ (extractOne_creates env st z f hf' hnez (hok z hz))
        (fun x hx hxo => dest_ne_open env st.fs (z :: rest) hna z hz f hf' x
          (List.mem_cons_of_mem _ hx) (by rw [← hfile x hx hxo]; exact hxo))
    · rcases List.mem_cons.1 hy with hy | hy
      · exact absurd (hy ▸ rfl) hp
      · rcases extractOne_archives_after env st z rest hna y hy with h | ⟨h, _⟩
        · refine k2 y hy f ?_
          unfold archivePdfs at hf ⊢
          rwa [h]
        · exact absurd h hp

/-! ### The claims about `extractArchive` -/

/-- C6 fails as stated.  An archive that opens and whose two entries, both named
`a.pdf`, are opened, created and copied without error leaves `Invoices/a.pdf` with the
bytes of the second entry, not those of the first.  When the removal of the archive
fails, which is logged and nothing more, the archive is still there.  And an archive
listed as `a.pdf` that holds an entry `a.pdf` is truncated by the creation of that
entry and then removed: afterwards neither exists.  And an entry `a.pdf` whose
bytes are themselves an archive is, when the list names `a.pdf` later, opened as an
archive and removed: afterwards it does not exist. -/
theorem extraction_overwrites_or_keeps_archive :
    (extractArchive
        (sampleZipEnv [([1], [sampleEntry "a.pdf" [10], sampleEntry "a.pdf" [20]])] true)
        [("Invoices/x.zip".toList, [1])] ["x.zip".toList]).fs.read "Invoices/a.pdf".toList =
      some [20] ∧
    (extractArchive
        (sampleZipEnv [([1], [sampleEntry "a.pdf" [10], sampleEntry "a.pdf" [20]])] true)
        [("Invoices/x.zip".toList, [1])] ["x.zip".toList]).pdfFiles =
      ["a.pdf".toList, "a.pdf".toList] ∧
    (extractArchive (sampleZipEnv [([1], [sampleEntry "a.pdf" [10]])] false)
        [("Invoices/x.zip".toList, [1])] ["x.zip".toList]).fs =
      [("Invoices/x.zip".toList, [1]), ("Invoices/a.pdf".toList, [10])] ∧
    extractArchive (sampleZipEnv [([1], [sampleEntry "a.pdf" [10]])] true)
        [("Invoices/a.pdf".toList, [1])] ["a.pdf".toList] =
      { pdfFiles := [], fs := [],
        trace := [Event.openReader "Invoices/a.pdf".toList, Event.create "Invoices/a.pdf".toList,
                  Event.remove "Invoices/a.pdf".toList] } ∧
    (extractArchive (sampleZipEnv [([1], [sampleEntry "a.pdf" [2]]), sampleArchiveY] true)
        [("Invoices/x.zip".toList, [1])] ["x.zip".toList, "a.pdf".toList]).fs =
      [("Invoices/b.pdf".toList, [40]), ("Invoices/c.pdf".toList, [50])] := by
  refine ⟨by rfl, by rfl, by rfl, by rfl, by rfl⟩

/-- C6, amended: when no `.pdf` entry of a listed archive is written over a listed
archive (where the destination of an entry is a listed file, neither that file nor
the bytes of the entry are an archive), then for every listed archive that opens:
every entry whose name ends in `.pdf` exists afterwards at its destination with
exactly its bytes, provided the entries of the listed archives with that destination
(the entry itself among them) are opened, created and copied without error and hold
the same bytes; and the archive no longer exists, provided its removal succeeds.  The
list may name an archive more than once and may name files that are no archives, also
files that an entry is written over.  For an archive and an entry with plain file
names the destination is `Invoices/<entry name>`. -/
theorem extracted_entries_exist (env : Env) (fs : FS) (zs : List GoString)
    (hna : DestNotArchive env fs zs) (z : GoString) (hz : z ∈ zs) (files : List ZipFile)
    (hopen : archiveFiles env fs z = some files) :
    (∀ f ∈ files, hasSuffix f.name dotPdf = true →
        AgreeAt env fs zs (entryDest z f.name) f.content →
        (extractArchive env fs zs).fs.read (entryDest z f.name) = some f.content) ∧
      (env.removeOk (join invoicesDir z) = true →
        (extractArchive env fs zs).fs.read (join invoicesDir z) = none) ∧
      (∀ name, plainName z → plainName name →
        entryDest z name = "Invoices/".toList ++ name) := by
  obtain ⟨_, _, h4, h3⟩ := extractLoop_reads env zs { pdfFiles := [], fs := fs, trace := [] } hna
  refine ⟨?_, ?_, fun name h1 h2 => entryDest_plain z name h1 h2⟩
  · intro f hf hpdf hag
    refine h4 z hz f ?_ hag
    rw [archivePdfs_of_open env fs z files hopen]
    exact List.mem_filter.2 ⟨hf, hpdf⟩
  · intro hrm
    exact h3 z hz (by simp [hopen]) hrm

/-- C7 fails as stated.  When opening the entry `a.pdf` of an archive fails, which is
logged and nothing more, `extractArchive` returns no name although the archive has an
entry ending in `.pdf`.  When the removal of an archive holding `a.pdf` and `n.txt`
fails, the directory afterwards still holds the archive next to the new PDF.  And when
the directory already holds an `a.pdf`, the entry `a.pdf` is written over it: the
prior file is lost and the directory has no PDF more than before.  And when the bytes
of the entry `a.pdf` are themselves an archive and the list names `a.pdf` later, the
entries of that inner archive are extracted and returned as well. -/
theorem failed_entry_is_not_returned :
    hasSuffix "a.pdf".toList dotPdf = true ∧
      (extractArchive
        (sampleZipEnv [([1], [{ sampleEntry "a.pdf" [10] with openOk := false },
          sampleEntry "n.txt" [30]])] true)
        [("Invoices/x.zip".toList, [1])] ["x.zip".toList]).pdfFiles = [] ∧
      (extractArchive
        (sampleZipEnv [([1], [sampleEntry "a.pdf" [10], sampleEntry "n.txt" [30]])] false)
        [("Invoices/x.zip".toList, [1])] ["x.zip".toList]).fs =
        [("Invoices/x.zip".toList, [1]), ("Invoices/a.pdf".toList, [10])] ∧
      (extractArchive
        (sampleZipEnv [([1], [sampleEntry "a.pdf" [10], sampleEntry "n.txt" [30]])] true)
        [("Invoices/a.pdf".toList, [7]), ("Invoices/x.zip".toList, [1])] ["x.zip".toList]).fs =
        [("Invoices/a.pdf".toList, [10])] ∧
      (extractArchive (sampleZipEnv [([1], [sampleEntry "a.pdf" [2]]), sampleArchiveY] true)
        [("Invoices/x.zip".toList, [1])] ["x.zip".toList, "a.pdf".toList]).pdfFiles =
        ["a.pdf".toList, "b.pdf".toList, "c.pdf".toList] := by
  refine ⟨by decide, by rfl, by rfl, by rfl, by rfl⟩

/-- C7, amended: `extractArchive` ignores every archive entry whose name does not end
in `.pdf`: its outcome (result, files, actions) is the one of the run in which the
archives hold only their `.pdf` entries.  In an extraction without interference (every
`.pdf` entry is opened, created and copied without error, no destination holds a file
beforehand, no entry written to a listed name holds an archive, the archives that open
can be removed) it returns
exactly the names of the entries ending in `.pdf`, archives in list order and entries
in archive order, and the files afterwards are the prior files, minus the archives
that opened, plus the `.pdf` entries as new files: every path that is no destination
and no archive that opened reads as before, the archives that opened are gone, and
every destination, which held no file before, holds one. -/
theorem only_pdf_entries_are_extracted (env : Env) (fs : FS) (zs : List GoString)
    (h : CleanExtraction env fs zs) :
    extractArchive env fs zs = extractArchive env.pdfOnly fs zs ∧
      (extractArchive env fs zs).pdfFiles = extractedNames env fs zs ∧
      (∀ q, (∀ z ∈ zs, ∀ g ∈ archivePdfs env fs z, entryDest z g.name ≠ q) →
        (∀ z ∈ zs, archiveFiles env fs z ≠ none → q ≠ join invoicesDir z) →
        (extractArchive env fs zs).fs.read q = fs.read q) ∧
      (∀ z ∈ zs, archiveFiles env fs z ≠ none →
        (extractArchive env fs zs).fs.read (join invoicesDir z) = none) ∧
      (∀ z ∈ zs, ∀ f ∈ archivePdfs env fs z,
        fs.read (entryDest z f.name) = none ∧
          (extractArchive env fs zs).fs.read (entryDest z f.name) ≠ none) := by
  obtain ⟨h2, _, _, h3⟩ :=
    extractLoop_reads env zs { pdfFiles := [], fs := fs, trace := [] } h.destNotArchive
  obtain ⟨_, k2⟩ :=
    extractLoop_exists env zs { pdfFiles := [], fs := fs, trace := [] } h.destNotArchive
      h.entriesOk
  have h1 := extractLoop_names env zs { pdfFiles := [], fs := fs, trace := [] }
    h.destNotArchive h.entriesOk h.removable
  refine ⟨extractArchive_pdfOnly env fs zs, by simpa using h1, h2, ?_, ?_⟩
  · intro z hz ho
    exact h3 z hz ho (h.removable z hz ho)
  · intro z hz f hf
    exact ⟨h.destsFresh z hz f hf, k2 z hz f hf⟩

/-- C6, an instance: the list names the downloaded `a.pdf`, which is no archive, the
archive `x.zip` twice and the archive `y.zip`, as the pipeline may pass it; the entry
`a.pdf` of `x.zip` is written over the downloaded file and is there afterwards, and
`x.zip` is gone. -/
theorem extracted_entries_exist_witness :
    DestNotArchive (sampleZipEnv [sampleArchiveX, sampleArchiveY] true) sampleInbox
        ["a.pdf".toList, "x.zip".toList, "x.zip".toList, "y.zip".toList] ∧
      AgreeAt (sampleZipEnv [sampleArchiveX, sampleArchiveY] true) sampleInbox
        ["a.pdf".toList, "x.zip".toList, "x.zip".toList, "y.zip".toList]
        (entryDest "x.zip".toList "a.pdf".toList) [10] ∧
      entryDest "x.zip".toList "a.pdf".toList = join invoicesDir "a.pdf".toList ∧
      (extractArchive (sampleZipEnv [sampleArchiveX, sampleArchiveY] true) sampleInbox
        ["a.pdf".toList, "x.zip".toList, "x.zip".toList, "y.zip".toList]).fs.read
          (entryDest "x.zip".toList "a.pdf".toList) = some [10] ∧
      (extractArchive (sampleZipEnv [sampleArchiveX, sampleArchiveY] true) sampleInbox
        ["a.pdf".toList, "x.zip".toList, "x.zip".toList, "y.zip".toList]).fs.read
          (join invoicesDir "x.zip".toList) = none ∧
      extractArchive (sampleZipEnv [sampleArchiveX, sampleArchiveY] true) sampleInbox
          ["a.pdf".toList, "x.zip".toList, "x.zip".toList, "y.zip".toList] =
        { pdfFiles := ["a.pdf".toList, "b.pdf".toList, "c.pdf".toList]
          fs := [("Invoices/a.pdf".toList, [10]), ("Invoices/b.pdf".toList, [40]),
                 ("Invoices/c.pdf".toList, [50])]
          trace := [Event.openReader "Invoices/a.pdf".toList,
                    Event.openReader "Invoices/x.zip".toList,
                    Event.create "Invoices/a.pdf".toList,
                    Event.remove "Invoices/x.zip".toList,
                    Event.openReader "Invoices/x.zip".toList,
                    Event.openReader "Invoices/y.zip".toList,
                    Event.create "Invoices/b.pdf".toList,
                    Event.create "Invoices/c.pdf".toList,
                    Event.remove "Invoices/y.zip".toList] } := by
  have hna : DestNotArchive (sampleZipEnv [sampleArchiveX, sampleArchiveY] true) sampleInbox
      ["a.pdf".toList, "x.zip".toList, "x.zip".toList, "y.zip".toList] := by
    unfold DestNotArchive
    decide
  have hag : AgreeAt (sampleZipEnv [sampleArchiveX, sampleArchiveY] true) sampleInbox
      ["a.pdf".toList, "x.zip".toList, "x.zip".toList, "y.zip".toList]
      (entryDest "x.zip".toList "a.pdf".toList) [10] := by
    unfold AgreeAt
    decide
  have key := extracted_entries_exist (sampleZipEnv [sampleArchiveX, sampleArchiveY] true)
    sampleInbox ["a.pdf".toList, "x.zip".toList, "x.zip".toList, "y.zip".toList] hna
    "x.zip".toList (by decide) sampleArchiveX.2 (by rfl)
  exact ⟨hna, hag, by decide, key.1 (sampleEntry "a.pdf" [10]) (by decide) (by decide) hag,
    key.2.1 (by rfl), by rfl⟩

/-- C7, an instance: the archive `x.zip`, listed twice after a file that is no
archive, holds the entries `a.pdf` and `n.txt`; the directory afterwards holds the
earlier `old.pdf`, the archive `y.zip` that was not listed, and the one new PDF. -/
theorem only_pdf_entries_are_extracted_witness :
    CleanExtraction (sampleZipEnv [sampleArchiveX, sampleArchiveY] true) sampleDir
        ["old.pdf".toList, "x.zip".toList, "x.zip".toList] ∧
      (extractArchive (sampleZipEnv [sampleArchiveX, sampleArchiveY] true) sampleDir
          ["old.pdf".toList, "x.zip".toList, "x.zip".toList]).pdfFiles =
        extractedNames (sampleZipEnv [sampleArchiveX, sampleArchiveY] true) sampleDir
          ["old.pdf".toList, "x.zip".toList, "x.zip".toList] ∧
      extractedNames (sampleZipEnv [sampleArchiveX, sampleArchiveY] true) sampleDir
          ["old.pdf".toList, "x.zip".toList, "x.zip".toList] = ["a.pdf".toList] ∧
      (extractArchive (sampleZipEnv [sampleArchiveX, sampleArchiveY] true) sampleDir
          ["old.pdf".toList, "x.zip".toList, "x.zip".toList]).fs.read
          "Invoices/old.pdf".toList = sampleDir.read "Invoices/old.pdf".toList ∧
      (extractArchive (sampleZipEnv [sampleArchiveX, sampleArchiveY] true) sampleDir
          ["old.pdf".toList, "x.zip".toList, "x.zip".toList]).fs =
        [("Invoices/old.pdf".toList, [7]), ("Invoices/y.zip".toList, [2]),
         ("Invoices/a.pdf".toList, [10])] := by
  have hc : CleanExtraction (sampleZipEnv [sampleArchiveX, sampleArchiveY] true) sampleDir
      ["old.pdf".toList, "x.zip".toList, "x.zip".toList] :=
    ⟨by unfold DestNotArchive; decide, by unfold EntriesOk; decide, by decide, by decide⟩
  have key := only_pdf_entries_are_extracted
    (sampleZipEnv [sampleArchiveX, sampleArchiveY] true) sampleDir
    ["old.pdf".toList, "x.zip".toList, "x.zip".toList] hc
  exact ⟨hc, key.2.1, by rfl, key.2.2.1 "Invoices/old.pdf".toList (by decide) (by decide),
    by rfl⟩

end InvoiceGatherer
